import Mathlib

/-!
# Mython lexer (`src/mython/lexer.h`, `src/mython/lexer.cpp`)

A shallow embedding of `parse::Lexer`.

* `std::string` is a `List Char`; the input stream is an `IStream`: the unread
  characters together with the three `iostate` bits, with `peek`, `get` and
  `putback` following the unformatted-input rules of `std::basic_istream`.
* `tokens_` is a `List Token` that grows at its end, `global_indent_counter_`
  and `spaces` are unbounded integers (an `int` only overflows on an input of
  more than 2^31 characters).
* An exception is the `Except.error` result; the exception classes that the
  lexer can throw are the constructors of `LexException`.
* `ParseInputStream` runs its `while (input)` loop on a fuel counter: the
  result `none` means that the loop did not finish within the fuel.
-/

namespace parse

/-- The constant `SPACES_PER_INDENT` of `lexer.h`. -/
def SPACES_PER_INDENT : Int := 2

/-- The variant `parse::Token`: one constructor per alternative of `TokenBase`. -/
inductive Token where
  | Number (value : Int)
  | Id (value : List Char)
  | Char (value : Char)
  | String (value : List Char)
  | Class
  | Return
  | If
  | Else
  | Def
  | Newline
  | Print
  | Indent
  | Dedent
  | And
  | Or
  | Not
  | Eq
  | NotEq
  | LessOrEq
  | GreaterOrEq
  | None
  | True
  | False
  | Eof
  deriving DecidableEq, Repr

/-- What leaves the lexer instead of a result.  `LexerError` (a
`std::runtime_error`), `logic_error` and `out_of_range` (thrown by `std::stoi`)
are the C++ exception classes; `indeterminate_read` marks the one place where
the code reads a `char` that was never written, after which the behaviour of
the C++ program is undefined. -/
inductive LexException where
  | LexerError
  | logic_error
  | out_of_range
  | indeterminate_read
  deriving DecidableEq, Repr

/-- A `std::istream`: the characters not yet extracted and the state bits. -/
structure IStream where
  buf : List Char
  eofbit : Bool
  failbit : Bool
  badbit : Bool
  deriving DecidableEq, Repr

namespace IStream

/-- A stream over the text `cs`, in the state `goodbit`. -/
def ofList (cs : List Char) : IStream := ⟨cs, false, false, false⟩

/-- The member `good()`: no state bit is set. -/
def good (s : IStream) : Bool := !s.eofbit && !s.failbit && !s.badbit

/-- The member `fail()`; `while (input)` tests its negation. -/
def fail (s : IStream) : Bool := s.failbit || s.badbit

/-- The member `peek()`: the next character, not extracted.  On a stream that
is not good the sentry sets `failbit`; at the end of the text `eofbit` is set;
both give `Traits::eof()`, here `none`. -/
def peek (s : IStream) : Option Char × IStream :=
  if s.good then
    match s.buf with
    | [] => (none, { s with eofbit := true })
    | c :: _ => (some c, s)
  else (none, { s with failbit := true })

/-- The members `get()` and `get(ch)`: extract one character.  At the end of
the text `eofbit` and `failbit` are set and `ch` keeps its old value. -/
def get (s : IStream) : Option Char × IStream :=
  if s.good then
    match s.buf with
    | [] => (none, { s with eofbit := true, failbit := true })
    | c :: cs => (some c, { s with buf := cs })
  else (none, { s with failbit := true })

/-- The member `putback(c)`: `eofbit` is cleared first; if the stream is then
not good the sentry sets `failbit` and nothing is put back.  Every call in the
lexer passes the character that was extracted last, which the buffer accepts. -/
def putback (s : IStream) (c : Char) : IStream :=
  if s.failbit || s.badbit then { s with eofbit := false, failbit := true }
  else { s with buf := c :: s.buf, eofbit := false }

/-- The test `input.rdstate() == std::ios_base::eofbit`. -/
def onlyEof (s : IStream) : Bool := s.eofbit && !s.failbit && !s.badbit

/-- The loop of `std::getline` behind its first character: the characters up
to the first line feed are extracted, the line feed too; without a line feed
the whole text is extracted and `eofbit` is set. -/
def getlineLoop : List Char → IStream
  | [] => ⟨[], true, false, false⟩
  | c :: cs => if c = '\n' then ⟨cs, false, false, false⟩ else getlineLoop cs

/-- The call `std::getline(input, tmp_str, '\n')`, for its effect on the stream.
When no character can be extracted `failbit` is set. -/
def getline (s : IStream) : IStream :=
  if s.good then
    match s.buf with
    | [] => ⟨[], true, true, false⟩
    | c :: cs => if c = '\n' then ⟨cs, false, false, false⟩ else getlineLoop cs
  else { s with failbit := true }

end IStream

/-- The data members of `Lexer` that tokenization reads and writes. -/
structure LexState where
  input : IStream
  tokens_ : List Token
  global_indent_counter_ : Int
  deriving DecidableEq, Repr

/-- The function `std::isalpha` in the "C" locale. -/
def isalpha (c : Char) : Bool := c.isAlpha

/-- The function `std::isdigit`. -/
def isdigit (c : Char) : Bool := c.isDigit

/-- The function `std::isalnum` in the "C" locale. -/
def isalnum (c : Char) : Bool := isalpha c || isdigit c

/-- The function `std::ispunct` in the "C" locale: the printable ASCII
characters that are neither alphanumeric nor the space. -/
def ispunct (c : Char) : Bool :=
  (33 ≤ c.toNat && c.toNat ≤ 47) || (58 ≤ c.toNat && c.toNat ≤ 64) ||
  (91 ≤ c.toNat && c.toNat ≤ 96) || (123 ≤ c.toNat && c.toNat ≤ 126)

/-- The table `keyword_map_` of `lexer.h`. -/
def keyword_map_ : List (List Char × Token) :=
  [(['c', 'l', 'a', 's', 's'], Token.Class),
   (['r', 'e', 't', 'u', 'r', 'n'], Token.Return),
   (['i', 'f'], Token.If),
   (['e', 'l', 's', 'e'], Token.Else),
   (['d', 'e', 'f'], Token.Def),
   (['p', 'r', 'i', 'n', 't'], Token.Print),
   (['a', 'n', 'd'], Token.And),
   (['o', 'r'], Token.Or),
   (['n', 'o', 't'], Token.Not),
   (['N', 'o', 'n', 'e'], Token.None),
   (['T', 'r', 'u', 'e'], Token.True),
   (['F', 'a', 'l', 's', 'e'], Token.False)]

/-- The loop `while (input.peek() == ' ') input.get();` on a good stream. -/
def TrimSpaces.loop : List Char → IStream
  | [] => ⟨[], true, false, false⟩
  | c :: cs => if c = ' ' then TrimSpaces.loop cs else ⟨c :: cs, false, false, false⟩

/-- The method `Lexer::TrimSpaces`.  On a stream that is not good the first
`peek` sets `failbit` and ends the loop. -/
def TrimSpaces (input : IStream) : IStream :=
  if input.good then TrimSpaces.loop input.buf else { input with failbit := true }

/-- The loop `while (input.get(ch) && (ch == ' ')) ++spaces;` of `ParseIndent` on
a good stream, giving the stream, `ch` and `spaces` after it.  At the end of the
text `get` fails with `eofbit | failbit` and `ch` keeps the last character. -/
def ParseIndent.count : List Char → Char → Nat → IStream × Char × Nat
  | [], ch, spaces => (⟨[], true, true, false⟩, ch, spaces)
  | c :: cs, _, spaces =>
    if c = ' ' then ParseIndent.count cs c (spaces + 1) else (⟨cs, false, false, false⟩, c, spaces)

/-- The loops `while (spaces > 0) { spaces -= SPACES_PER_INDENT;
tokens_.emplace_back(tok); global_indent_counter_ += step; }` of `ParseIndent`
(`tok = Indent, step = 1` and `tok = Dedent, step = -1`), by the value of
`spaces` at the loop head: 1 takes one more round, as 2 does. -/
def ParseIndent.emit (tok : Token) (step : Int) : Nat → List Token → Int → List Token × Int
  | 0, tokens, g => (tokens, g)
  | 1, tokens, g => (tokens ++ [tok], g + step)
  | spaces + 2, tokens, g => ParseIndent.emit tok step spaces (tokens ++ [tok]) (g + step)

/-- The two branches of `ParseIndent` that follow the count of the spaces. -/
def ParseIndent.adjust (spaces : Nat) (tokens : List Token) (g : Int) : List Token × Int :=
  if (spaces : Int) > g * SPACES_PER_INDENT then
    ParseIndent.emit Token.Indent 1 ((spaces : Int) - g * SPACES_PER_INDENT).toNat tokens g
  else if (spaces : Int) < g * SPACES_PER_INDENT then
    ParseIndent.emit Token.Dedent (-1) (g * SPACES_PER_INDENT - (spaces : Int)).toNat tokens g
  else (tokens, g)

/-- The method `Lexer::ParseIndent`. -/
def ParseIndent (st : LexState) : LexState :=
  match st.input.peek with
  | (none, input) => { st with input := input }
  | (some c0, input) =>
    -- `char ch;` is written by the first `get`, which succeeds after this `peek`
    let (input, ch, spaces) := ParseIndent.count input.buf c0 0
    if !input.onlyEof && ch = '\n' then { st with input := input.putback ch }
    else
      let (tokens, g) := ParseIndent.adjust spaces st.tokens_ st.global_indent_counter_
      ⟨if input.onlyEof then input else input.putback ch, tokens, g⟩

/-- The method `Lexer::ParseComments`. -/
def ParseComments (input : IStream) : IStream :=
  match input.peek with
  | (some '#', input) =>
    let input := input.getline
    if input.onlyEof then input else input.putback '\n'
  | (_, input) => input

/-- The `switch (esc_ch)` of `ParseString`: the character an escape denotes,
`none` for the `default:` label. -/
def ParseString.escape (esc_ch : Char) : Option Char :=
  if esc_ch = 'n' then some '\n'
  else if esc_ch = 't' then some '\t'
  else if esc_ch = 'r' then some '\r'
  else if esc_ch = '"' then some '"'
  else if esc_ch = '\'' then some '\''
  else if esc_ch = '\\' then some '\\'
  else none

/-- The loop `while (input.get(ch))` of `ParseString` on a good stream, giving
the stream, `result` and `ch` after it.  `ch` is `none` as long as no `get` has
written it (`char ch;` has no initializer). -/
def ParseString.loop (open_char : Char) :
    List Char → List Char → Option Char → Except LexException (IStream × List Char × Option Char)
  | [], result, ch => .ok (⟨[], true, true, false⟩, result, ch)
  | c :: cs, result, _ =>
    if c = open_char then .ok (⟨cs, false, false, false⟩, result, some c)
    else if c = '\\' then
      match cs with
      | [] => .error LexException.LexerError
      | esc_ch :: cs =>
        match ParseString.escape esc_ch with
        | some e => ParseString.loop open_char cs (result ++ [e]) (some c)
        | none => .error LexException.logic_error
    else if c = '\n' ∨ c = '\r' then .error LexException.LexerError
    else ParseString.loop open_char cs (result ++ [c]) (some c)

/-- The method `Lexer::ParseString`. -/
def ParseString (st : LexState) : Except LexException LexState :=
  match st.input.peek with
  | (none, input) => .ok { st with input := input }
  | (some open_char, input) =>
    -- `input.get()` extracts the character that `peek` has shown
    let input := input.get.2
    if open_char = '\'' ∨ open_char = '"' then
      match ParseString.loop open_char input.buf [] none with
      | .error e => .error e
      | .ok (_, _, none) =>
        -- `open_char == ch` with a `ch` that no `get` has written
        .error LexException.indeterminate_read
      | .ok (input, result, some ch) =>
        if open_char = ch then
          .ok { st with input := input, tokens_ := st.tokens_ ++ [Token.String result] }
        else .error LexException.LexerError
    else .ok { st with input := input.putback open_char }

/-- The loop `while (input.get(ch))` of `ParseKeywords` on a good stream. -/
def ParseKeywords.loop : List Char → List Char → IStream × List Char
  | [], keyword => (⟨[], true, true, false⟩, keyword)
  | c :: cs, keyword =>
    if isalnum c || c = '_' then ParseKeywords.loop cs (keyword ++ [c])
    else (IStream.putback ⟨cs, false, false, false⟩ c, keyword)

/-- The method `Lexer::ParseKeywords`. -/
def ParseKeywords (st : LexState) : LexState :=
  match st.input.peek with
  | (none, input) => { st with input := input }
  | (some ch, input) =>
    if isalpha ch || ch = '_' then
      let (input, keyword) := ParseKeywords.loop input.buf []
      -- `keyword_map_.find(keyword)`, the keys of the table are distinct
      match keyword_map_.lookup keyword with
      | some tok => { st with input := input, tokens_ := st.tokens_ ++ [tok] }
      | none => { st with input := input, tokens_ := st.tokens_ ++ [Token.Id keyword] }
    else { st with input := input }

/-- The condition `(ch == c) && (input.peek() == '=')` of `ParseChars` with the
stream after it: `peek` is evaluated only behind `ch == c`. -/
def ParseChars.cond (ch c : Char) (input : IStream) : Bool × IStream :=
  if ch = c then (input.peek.1 == some '=', input.peek.2) else (false, input)

/-- The method `Lexer::ParseChars`. -/
def ParseChars (st : LexState) : LexState :=
  match st.input.peek with
  | (none, input) => { st with input := input }
  | (some ch, input) =>
    -- `input.get(ch)` extracts the character that `peek` has shown
    let input := input.get.2
    if ispunct ch then
      if ch = '#' then { st with input := ParseComments (input.putback ch) }
      else
        match ParseChars.cond ch '=' input with
        | (true, input) => { st with input := input.get.2, tokens_ := st.tokens_ ++ [Token.Eq] }
        | (false, input) =>
        match ParseChars.cond ch '!' input with
        | (true, input) => { st with input := input.get.2, tokens_ := st.tokens_ ++ [Token.NotEq] }
        | (false, input) =>
        match ParseChars.cond ch '>' input with
        | (true, input) =>
          { st with input := input.get.2, tokens_ := st.tokens_ ++ [Token.GreaterOrEq] }
        | (false, input) =>
        match ParseChars.cond ch '<' input with
        | (true, input) => { st with input := input.get.2, tokens_ := st.tokens_ ++ [Token.LessOrEq] }
        | (false, input) => { st with input := input, tokens_ := st.tokens_ ++ [Token.Char ch] }
    else { st with input := input.putback ch }

/-- The loop `while (input.get(ch))` of `ParseNumbers` on a good stream. -/
def ParseNumbers.loop : List Char → List Char → IStream × List Char
  | [], result => (⟨[], true, true, false⟩, result)
  | c :: cs, result =>
    if isdigit c then ParseNumbers.loop cs (result ++ [c])
    else (IStream.putback ⟨cs, false, false, false⟩ c, result)

/-- The value `std::stoi` reads from a string of decimal digits. -/
def stoiValue (result : List Char) : Nat :=
  result.foldl (fun n d => 10 * n + (d.toNat - 48)) 0

/-- The method `Lexer::ParseNumbers`; `std::stoi` throws `std::out_of_range`
above `INT_MAX`. -/
def ParseNumbers (st : LexState) : Except LexException LexState :=
  match st.input.peek with
  | (none, input) => .ok { st with input := input }
  | (some ch, input) =>
    if isdigit ch then
      let (input, result) := ParseNumbers.loop input.buf []
      if stoiValue result ≤ 2147483647 then
        .ok { st with input := input, tokens_ := st.tokens_ ++ [Token.Number (stoiValue result)] }
      else .error LexException.out_of_range
    else .ok { st with input := input }

/-- The test `!tokens_.empty() && (!tokens_.back().Is<token_type::Newline>())`. -/
def needsNewline (tokens : List Token) : Bool :=
  match tokens.getLast? with
  | none => false
  | some t => t ≠ Token.Newline

/-- The method `Lexer::ParseNewLine`. -/
def ParseNewLine (st : LexState) : LexState :=
  match st.input.peek with
  | (some '\n', input) =>
    let tokens := if needsNewline st.tokens_ then st.tokens_ ++ [Token.Newline] else st.tokens_
    ParseIndent { st with input := input.get.2, tokens_ := tokens }
  | (_, input) => { st with input := input }

/-- The body of the loop `while (input)` of `ParseInputStream`. -/
def ParseInputStream.body (st : LexState) : Except LexException LexState :=
  match ParseString st with
  | .error e => .error e
  | .ok st =>
    match ParseNumbers (ParseChars (ParseKeywords st)) with
    | .error e => .error e
    | .ok st => .ok (ParseNewLine { st with input := TrimSpaces st.input })

/-- The loop `while (input)` of `ParseInputStream`, for at most `fuel` tests of
its condition; `none` when the fuel does not reach the end of the loop. -/
def ParseInputStream.loop : Nat → LexState → Option (Except LexException LexState)
  | 0, _ => none
  | fuel + 1, st =>
    if st.input.fail then some (.ok st)
    else
      match ParseInputStream.body st with
      | .error e => some (.error e)
      | .ok st => ParseInputStream.loop fuel st

/-- The loop `while (global_indent_counter_ > 0)` at the end of
`ParseInputStream`, by the value of the counter. -/
def ParseInputStream.dedent : Nat → List Token → List Token
  | 0, tokens => tokens
  | g + 1, tokens => ParseInputStream.dedent g (tokens ++ [Token.Dedent])

/-- What `ParseInputStream` does behind its main loop: the closing `Newline`,
the closing `Dedent`s and `Eof`. -/
def ParseInputStream.finish (st : LexState) : List Token :=
  let tokens := if needsNewline st.tokens_ then st.tokens_ ++ [Token.Newline] else st.tokens_
  ParseInputStream.dedent st.global_indent_counter_.toNat tokens ++ [Token.Eof]

/-- The state in which the main loop of `ParseInputStream` starts. -/
def ParseInputStream.start (input : IStream) : LexState :=
  ⟨TrimSpaces input, [], 0⟩

/-- The token buffer of a `Lexer` and its iterator `current_token_it_`, as the
distance from `tokens_.begin()`. -/
structure Lexer where
  tokens_ : List Token
  current_token_it_ : Nat
  deriving DecidableEq, Repr

/-- The method `Lexer::ParseInputStream`, which the constructor of `Lexer`
runs: the token buffer when it returns, the iterator at `tokens_.begin()`. -/
def ParseInputStream (fuel : Nat) (input : IStream) : Option (Except LexException Lexer) :=
  match ParseInputStream.loop fuel (ParseInputStream.start input) with
  | none => none
  | some (.error e) => some (.error e)
  | some (.ok st) => some (.ok ⟨ParseInputStream.finish st, 0⟩)

/-- The method `Lexer::CurrentToken`. -/
def Lexer.CurrentToken (l : Lexer) : Option Token :=
  l.tokens_[l.current_token_it_]?

/-- The method `Lexer::NextToken`: the token it returns and the lexer after
the call. -/
def Lexer.NextToken (l : Lexer) : Option Token × Lexer :=
  if l.current_token_it_ + 1 = l.tokens_.length then (l.tokens_[l.current_token_it_]?, l)
  else (l.tokens_[l.current_token_it_ + 1]?, { l with current_token_it_ := l.current_token_it_ + 1 })

/-- The lexer after `k` calls of `NextToken`. -/
def Lexer.advance : Nat → Lexer → Lexer
  | 0, l => l
  | k + 1, l => (Lexer.advance k l).NextToken.2

/-! ## Predicates used in the statements and proofs -/

/-- A token that the scanners of names, numbers, strings and punctuation can
emit: none of the layout tokens. -/
def Token.plain (t : Token) : Prop :=
  t ≠ Token.Indent ∧ t ≠ Token.Dedent ∧ t ≠ Token.Newline ∧ t ≠ Token.Eof

/-- The step `st'` leaves the indent level alone and emits at most one token,
a plain one. -/
def PlainStep (st st' : LexState) : Prop :=
  st'.global_indent_counter_ = st.global_indent_counter_ ∧
    (st'.tokens_ = st.tokens_ ∨ ∃ t, st'.tokens_ = st.tokens_ ++ [t] ∧ t.plain)

/-- No two `Newline` tokens stand side by side. -/
def NewlineFree (a b : Token) : Prop := ¬(a = Token.Newline ∧ b = Token.Newline)

/-- The invariant of the token buffer and the indent counter during
tokenization. -/
structure Inv (toks : List Token) (g : Int) : Prop where
  nonneg : 0 ≤ g
  depth : (toks.count Token.Indent : Int) - toks.count Token.Dedent = g
  prefixes : ∀ n, (toks.take n).count Token.Dedent ≤ (toks.take n).count Token.Indent
  head : toks.head? ≠ some Token.Newline
  chain : toks.Chain' NewlineFree
  noEof : Token.Eof ∉ toks

/-- The invariant on the lexer state. -/
def LexState.Inv (st : LexState) : Prop := parse.Inv st.tokens_ st.global_indent_counter_

/-- A piece of the body of a string literal: `lit c` is the character `c`
standing for itself, `esc e` is the escape pair of a backslash and `e`. -/
inductive StringPiece where
  | lit (c : Char)
  | esc (e : Char)
  deriving DecidableEq, Repr

/-- The source text of a piece. -/
def StringPiece.text : StringPiece → List Char
  | .lit c => [c]
  | .esc e => ['\\', e]

/-- The pieces a literal opened by the quote `q` may hold: a character other
than `q`, backslash, line feed and carriage return, or one of the six
recognised escape pairs. -/
def StringPiece.wellFormed (q : Char) : StringPiece → Prop
  | .lit c => c ≠ q ∧ c ≠ '\\' ∧ c ≠ '\n' ∧ c ≠ '\r'
  | .esc e => e = 'n' ∨ e = 't' ∨ e = 'r' ∨ e = '"' ∨ e = '\'' ∨ e = '\\'

/-- The character a piece denotes: `\n` the line feed, `\t` the tab, `\r` the
carriage return, `\"`, `\'` and `\\` their second character. -/
def StringPiece.denotes : StringPiece → Char
  | .lit c => c
  | .esc e => if e = 'n' then '\n' else if e = 't' then '\t' else if e = 'r' then '\r' else e

/-- The source text of the body of a literal. -/
def literalText : List StringPiece → List Char
  | [] => []
  | p :: ps => p.text ++ literalText ps

/-- The keyword table as the specification lists it: the twelve keywords and
their tokens. -/
def specKeywords : List (String × Token) :=
  [("class", Token.Class), ("return", Token.Return), ("if", Token.If), ("else", Token.Else),
   ("def", Token.Def), ("print", Token.Print), ("and", Token.And), ("or", Token.Or),
   ("not", Token.Not), ("None", Token.None), ("True", Token.True), ("False", Token.False)]

/-- A character that can start a name: `[A-Za-z_]`. -/
def nameStart (c : Char) : Prop := isalpha c = true ∨ c = '_'

/-- A character that can continue a name: `[A-Za-z0-9_]`. -/
def nameChar (c : Char) : Prop := isalnum c = true ∨ c = '_'

instance (c : Char) : Decidable (nameStart c) := by
  unfold nameStart
  infer_instance

instance (c : Char) : Decidable (nameChar c) := by
  unfold nameChar
  infer_instance

/-- The state of the lexer on a good stream that holds the text `x.1`, a line
feed and `rest`, with the tokens `x.2.1` and the indent level `x.2.2`. -/
def LexState.before (rest : List Char) (x : List Char × List Token × Int) : LexState :=
  ⟨⟨x.1 ++ '\n' :: rest, false, false, false⟩, x.2.1, x.2.2⟩

end parse

/-!
# Mython runtime and executor (`src/mython/runtime.cpp`, `src/mython/statement.cpp`)

A shallow embedding of `namespace runtime` and `namespace ast`.

* An `ObjectHolder` is the value it holds: numbers, strings and booleans are
  immutable and are held by value; a holder of a `Class` or of a `ClassInstance`
  is the position of the object in the list of the classes of the program and
  in the list of the instances of the `State`.
* `Execute(closure, context)` takes the closure and the `State` (the instances
  and the text written to the output stream) and gives them back in its
  `Outcome`; a thrown exception carries them as they were at the `throw`.
* The mutual recursion of `Execute`, `ClassInstance::Call`, the comparisons and
  `Print` runs on a fuel counter: `Execute.step` does one level with the
  executor of the level below as its parameter `exec`; `Outcome.timeout` means
  that the fuel did not reach the end, `Outcome.undefined` that the C++ program
  has undefined behaviour there (a null pointer is dereferenced, an `int`
  overflows, a reference dangles).
-/

namespace runtime

/-- An `ObjectHolder` by what it holds: `None` is the empty holder, `Number`,
`String` and `Bool` are the `ValueObject`s, `Class` and `ClassInstance` give the
position of the object they point to. -/
inductive ObjectHolder where
  | None
  | Number (value : Int)
  | String (value : List Char)
  | Bool (value : Bool)
  | Class (cls : Nat)
  | ClassInstance (object : Nat)
  deriving DecidableEq, Repr

/-- Modelled from the spec: the type `Closure` of `runtime.h`, a mapping from
names to holders, here the list of its entries. -/
abbrev Closure := List (List Char × ObjectHolder)

/-- The lookup `closure.find(name)`. -/
def Closure.find (closure : Closure) (name : List Char) : Option ObjectHolder :=
  List.lookup name closure

/-- The assignment `closure[name] = value`: the entry of `name` is replaced, or
added when there is none. -/
def Closure.set : Closure → List Char → ObjectHolder → Closure
  | [], name, value => [(name, value)]
  | (k, v) :: rest, name, value =>
    if k = name then (name, value) :: rest else (k, v) :: Closure.set rest name value

end runtime

namespace ast

/-- Modelled from the spec: the type `Comparator` of `statement.h`, the function
a `Comparison` node applies; here one of the six comparison functions of
`runtime.cpp`. -/
inductive Comparator where
  | Equal
  | NotEqual
  | Less
  | Greater
  | LessOrEqual
  | GreaterOrEqual
  deriving DecidableEq, Repr

/-- The nodes of the syntax tree, one constructor per class of `statement.cpp`
with the data members its `Execute` reads.  A `std::unique_ptr<Statement>` that
`Execute` tests for null is an `Option Statement`; one that it dereferences
without a test is a `Statement`.  `NewInstance` holds its member
`class_instance_` as the position of that instance in the `State`.
`Const` stands for the constant nodes of `statement.h`. -/
inductive Statement where
  /-- Modelled from the spec: the constant nodes `NumberConst`, `StringConst`,
  `BoolConst` and `None` of `statement.h`, which return the value they hold. -/
  | Const (value : runtime.ObjectHolder)
  | Assignment (var_ : List Char) (rv_ : Statement)
  | VariableValue (dotted_ids_ : List (List Char))
  | Print (args_ : List Statement)
  | MethodCall (object_ : Option Statement) (method_ : List Char) (args_ : List Statement)
  | Stringify (argument_ : Option Statement)
  | Add (lhs_ rhs_ : Option Statement)
  | Sub (lhs_ rhs_ : Option Statement)
  | Mult (lhs_ rhs_ : Option Statement)
  | Div (lhs_ rhs_ : Option Statement)
  | Compound (statements_ : List Statement)
  | Return (statement_ : Option Statement)
  | ClassDefinition (cls_ : runtime.ObjectHolder)
  | FieldAssignment (object_ : List (List Char)) (field_name_ : List Char) (rv_ : Statement)
  | IfElse (condition_ : Option Statement) (if_body_ : Statement) (else_body_ : Option Statement)
  | Or (lhs_ rhs_ : Option Statement)
  | And (lhs_ rhs_ : Option Statement)
  | Not (argument_ : Option Statement)
  | Comparison (cmp_ : Comparator) (lhs_ rhs_ : Option Statement)
  | NewInstance (class_instance_ : Nat) (args_ : List Statement)
  | MethodBody (body_ : Option Statement)

end ast

namespace runtime

/-- Modelled from the spec: the struct `Method` of `runtime.h`. -/
structure Method where
  name : List Char
  formal_params : List (List Char)
  body : ast.Statement

/-- The class `Class`: its name, its own methods and its `vtable_`, whose
entries point to methods and are held here as the methods themselves.  The
member `parent_` is read by the constructor only. -/
structure Class where
  name_ : List Char
  methods_ : List Method
  vtable_ : List (List Char × Method)

/-- The assignment `vtable_[name] = &method`. -/
def Class.vtableSet : List (List Char × Method) → List Char → Method → List (List Char × Method)
  | [], name, method => [(name, method)]
  | (k, v) :: rest, name, method =>
    if k = name then (name, method) :: rest else (k, v) :: Class.vtableSet rest name method

/-- The loops `for (const auto& method : methods) vtable_[method.name] = &method;`
of the constructor of `Class`. -/
def Class.addMethods (vtable : List (List Char × Method)) (methods : List Method) :
    List (List Char × Method) :=
  methods.foldl (fun vt method => Class.vtableSet vt method.name method) vtable

/-- The constructor `Class::Class(name, methods, parent)`; `parent` is the class
the pointer refers to, `none` for `nullptr`. -/
def Class.new (name : List Char) (methods : List Method) (parent : Option Class) : Class :=
  let vtable :=
    match parent with
    | some parent_ => Class.addMethods [] parent_.methods_
    | none => []
  ⟨name, methods, Class.addMethods vtable methods⟩

/-- The method `Class::GetMethod`; `none` is `nullptr`. -/
def Class.GetMethod (cls : Class) (name : List Char) : Option Method :=
  List.lookup name cls.vtable_

/-- The class `ClassInstance`: the class it refers to, by its position in the
list of the classes, and its fields. -/
structure ClassInstance where
  class_ : Nat
  fields_ : Closure
  deriving DecidableEq, Repr

/-- What `Execute` can change besides the closure: the instances (by position)
and the text that `context.GetOutputStream()` has received. -/
structure State where
  instances : List ClassInstance
  output : List Char
  deriving DecidableEq, Repr

/-- The exceptions of the executor: `std::runtime_error` and the
`ReturnException` of `statement.h` with the value it carries. -/
inductive Exception where
  | runtime_error
  | ReturnException (value : ObjectHolder)
  deriving DecidableEq, Repr

/-- How a call ends: with a value, with an exception, with undefined behaviour
or without an end within the fuel; `s` is what the call leaves behind. -/
inductive Outcome (σ α : Type) where
  | ok (value : α) (s : σ)
  | thrown (e : Exception) (s : σ)
  | undefined
  | timeout
  deriving DecidableEq, Repr

/-- Sequencing: `f` runs behind a call that has ended with a value. -/
def Outcome.bind {σ α β : Type} (o : Outcome σ α) (f : α → σ → Outcome σ β) : Outcome σ β :=
  match o with
  | .ok value s => f value s
  | .thrown e s => .thrown e s
  | .undefined => .undefined
  | .timeout => .timeout

/-- The type of `Statement::Execute(closure, context)`. -/
abbrev Exec := ast.Statement → Closure → State → Outcome (Closure × State) ObjectHolder

/-- The function `IsTrue`. -/
def IsTrue (object : ObjectHolder) : Bool :=
  match object with
  | .None => false
  | .Number value => value != 0
  | .Bool value => value == true
  | .String value => value.length != 0
  | _ => false

/-- The method `ClassInstance::HasMethod`, on the class `class_` refers to. -/
def ClassInstance.HasMethod (class_ : Class) (method : List Char) (argument_count : Nat) : Bool :=
  match class_.GetMethod method with
  | some method_ptr => method_ptr.formal_params.length == argument_count
  | none => false

/-- The class an instance refers to; `none` when the holder or the reference
dangles. -/
def classOf (classes : List Class) (st : State) (object : Nat) : Option Class :=
  match st.instances[object]? with
  | some instance_ => classes[instance_.class_]?
  | none => none

/-- The loop `closure[formal_params[i]] = actual_args[i]` of `ClassInstance::Call`. -/
def ClassInstance.bindParams : List (List Char) → List ObjectHolder → Closure → Closure
  | param :: params, arg :: args, closure =>
    ClassInstance.bindParams params args (Closure.set closure param arg)
  | _, _, closure => closure

/-- The method `ClassInstance::Call` of the instance at position `self`. -/
def ClassInstance.Call (exec : Exec) (classes : List Class) (self : Nat) (method : List Char)
    (actual_args : List ObjectHolder) (st : State) : Outcome State ObjectHolder :=
  match classOf classes st self with
  | none => .undefined
  | some class_ =>
    if ClassInstance.HasMethod class_ method actual_args.length then
      match class_.GetMethod method with
      | none => .undefined
      | some method_ptr =>
        let closure := ClassInstance.bindParams method_ptr.formal_params actual_args
          [("self".toList, ObjectHolder.ClassInstance self)]
        match exec method_ptr.body closure st with
        | .ok value (_, st) => .ok value st
        | .thrown e (_, st) => .thrown e st
        | .undefined => .undefined
        | .timeout => .timeout
    else .thrown Exception.runtime_error st

/-- The branch of `Equal` and `Less` for a class instance on the left: the
method `name` is called when the class has it with one parameter, and
`result.TryAs<Bool>()->GetValue()` is returned. -/
def compareByMethod (exec : Exec) (classes : List Class) (name : List Char)
    (lhs rhs : ObjectHolder) (st : State) : Outcome State Bool :=
  match lhs with
  | .ClassInstance object =>
    match classOf classes st object with
    | none => .undefined
    | some class_ =>
      if ClassInstance.HasMethod class_ name 1 then
        (ClassInstance.Call exec classes object name [rhs] st).bind fun result st =>
          match result with
          | .Bool value => .ok value st
          | _ => .undefined
      else .thrown Exception.runtime_error st
  | _ => .thrown Exception.runtime_error st

/-- The function `Equal`. -/
def Equal (exec : Exec) (classes : List Class) (lhs rhs : ObjectHolder) (st : State) :
    Outcome State Bool :=
  match lhs, rhs with
  | .None, .None => .ok true st
  | .Number l, .Number r => .ok (l == r) st
  | .String l, .String r => .ok (l == r) st
  | .Bool l, .Bool r => .ok (l == r) st
  | _, _ => compareByMethod exec classes "__eq__".toList lhs rhs st

/-- The function `Less`. -/
def Less (exec : Exec) (classes : List Class) (lhs rhs : ObjectHolder) (st : State) :
    Outcome State Bool :=
  match lhs, rhs with
  | .Number l, .Number r => .ok (decide (l < r)) st
  | .String l, .String r => .ok (decide (l < r)) st
  | .Bool l, .Bool r => .ok (decide (l < r)) st
  | _, _ => compareByMethod exec classes "__lt__".toList lhs rhs st

/-- The function `NotEqual`. -/
def NotEqual (exec : Exec) (classes : List Class) (lhs rhs : ObjectHolder) (st : State) :
    Outcome State Bool :=
  (Equal exec classes lhs rhs st).bind fun eq st => .ok (!eq) st

/-- The expression `Less(lhs, rhs, context) || Equal(lhs, rhs, context)`. -/
def lessOrEqual (exec : Exec) (classes : List Class) (lhs rhs : ObjectHolder) (st : State) :
    Outcome State Bool :=
  (Less exec classes lhs rhs st).bind fun less st =>
    if less then .ok true st else Equal exec classes lhs rhs st

/-- The function `Greater`. -/
def Greater (exec : Exec) (classes : List Class) (lhs rhs : ObjectHolder) (st : State) :
    Outcome State Bool :=
  (lessOrEqual exec classes lhs rhs st).bind fun le st => .ok (!le) st

/-- The function `LessOrEqual`. -/
def LessOrEqual (exec : Exec) (classes : List Class) (lhs rhs : ObjectHolder) (st : State) :
    Outcome State Bool :=
  lessOrEqual exec classes lhs rhs st

/-- The function `GreaterOrEqual`. -/
def GreaterOrEqual (exec : Exec) (classes : List Class) (lhs rhs : ObjectHolder) (st : State) :
    Outcome State Bool :=
  (Less exec classes lhs rhs st).bind fun less st => .ok (!less) st

end runtime

namespace ast

open runtime

/-- The constant `ADD_METHOD` of `statement.cpp`. -/
def ADD_METHOD : List Char := "__add__".toList

/-- The constant `INIT_METHOD` of `statement.cpp`. -/
def INIT_METHOD : List Char := "__init__".toList

/-- The range of an `int`. -/
def inInt (value : Int) : Bool := decide (-2147483648 ≤ value) && decide (value ≤ 2147483647)

/-- The loops `for (const auto& arg : args_) args_values.push_back(arg->Execute(closure,
context));` of `MethodCall` and `NewInstance`. -/
def evalArgs (exec : Exec) : List Statement → Closure → State →
    Outcome (Closure × State) (List ObjectHolder)
  | [], closure, st => .ok [] (closure, st)
  | arg :: args, closure, st =>
    (exec arg closure st).bind fun value s =>
      (evalArgs exec args s.1 s.2).bind fun values s => .ok (value :: values) s

/-- The text `os << this` writes for the instance at position `object`: the
address of the object, whose form the implementation defines. -/
def addressText (object : Nat) : List Char := '0' :: 'x' :: (toString object).toList

/-- The virtual method `Object::Print(os, context)` of what `object` holds, on
the output stream of the `State`.  `Number` and `String` write their value
(`ValueObject::Print` of `runtime.h`), `Bool` and `Class` are in `runtime.cpp`, a
`ClassInstance` prints what its `__str__` returns when it has one; the depth of
that recursion is bounded by `fuel`. -/
def PrintObject (exec : Exec) (classes : List runtime.Class) : Nat → ObjectHolder → State →
    Outcome State Unit
  | 0, _, _ => .timeout
  | fuel + 1, object, st =>
    match object with
    | .None => .undefined
    | .Number value => .ok () { st with output := st.output ++ (toString value).toList }
    | .String value => .ok () { st with output := st.output ++ value }
    | .Bool value =>
      .ok () { st with output := st.output ++ (if value then "True".toList else "False".toList) }
    | .Class cls =>
      match classes[cls]? with
      | some class_ => .ok () { st with output := st.output ++ "Class ".toList ++ class_.name_ }
      | none => .undefined
    | .ClassInstance self =>
      match classOf classes st self with
      | none => .undefined
      | some class_ =>
        if ClassInstance.HasMethod class_ "__str__".toList 0 then
          (ClassInstance.Call exec classes self "__str__".toList [] st).bind fun result st =>
            PrintObject exec classes fuel result st
        else .ok () { st with output := st.output ++ addressText self }

/-- The loop of `Print::Execute` from the argument number `i` on. -/
def Print.loop (exec : Exec) (classes : List runtime.Class) (fuel : Nat) :
    List Statement → Nat → Closure → State → Outcome (Closure × State) Unit
  | [], _, closure, st => .ok () (closure, st)
  | arg :: args, i, closure, st =>
    let st := if i > 0 then { st with output := st.output ++ " ".toList } else st
    (exec arg closure st).bind fun result s =>
      let printed :=
        match result with
        | .None => Outcome.ok () { s.2 with output := s.2.output ++ "None".toList }
        | _ => PrintObject exec classes fuel result s.2
      match printed with
      | .ok _ st => Print.loop exec classes fuel args (i + 1) s.1 st
      | .thrown e st => .thrown e (s.1, st)
      | .undefined => .undefined
      | .timeout => .timeout

/-- The loop of `VariableValue::Execute`: `current` is the closure
`current_closure_ptr` points to, `result` the value of the last name. -/
def VariableValue.loop (st : State) :
    List (List Char) → Closure → ObjectHolder → Option (Option ObjectHolder)
  | [], _, result => some (some result)
  | arg :: args, current, _ =>
    match Closure.find current arg with
    | none => some none
    | some result =>
      match result with
      | .ClassInstance object =>
        match st.instances[object]? with
        | some instance_ => VariableValue.loop st args instance_.fields_ result
        | none => none
      | _ => VariableValue.loop st args current result

/-- The method `VariableValue::Execute`. -/
def VariableValue.Execute (dotted_ids_ : List (List Char)) (closure : Closure) (st : State) :
    Outcome (Closure × State) ObjectHolder :=
  if dotted_ids_.length > 0 then
    match VariableValue.loop st dotted_ids_ closure ObjectHolder.None with
    | some (some result) => .ok result (closure, st)
    | some none => .thrown Exception.runtime_error (closure, st)
    | none => .undefined
  else .thrown Exception.runtime_error (closure, st)

/-- The common part of `Add`, `Sub`, `Mult`, `Div` and the logical and
comparison nodes: the null test of both operands and their evaluation, `lhs_`
first. -/
def evalOperands (exec : Exec) (lhs_ rhs_ : Option Statement) (closure : Closure) (st : State) :
    Outcome (Closure × State) (ObjectHolder × ObjectHolder) :=
  match lhs_, rhs_ with
  | some lhs, some rhs =>
    (exec lhs closure st).bind fun l s =>
      (exec rhs s.1 s.2).bind fun r s => .ok (l, r) s
  | _, _ => .thrown Exception.runtime_error (closure, st)

/-- A call that has no closure of its own, seen from `Execute`: the closure of
the caller stays as it is. -/
def withClosure {α : Type} (closure : Closure) (o : Outcome State α) :
    Outcome (Closure × State) α :=
  match o with
  | .ok value st => .ok value (closure, st)
  | .thrown e st => .thrown e (closure, st)
  | .undefined => .undefined
  | .timeout => .timeout

/-- The result `Own(Number{ value })` of an arithmetic node; an `int` that
overflows is undefined behaviour. -/
def ownNumber (value : Int) (s : Closure × State) : Outcome (Closure × State) ObjectHolder :=
  if inInt value then .ok (.Number value) s else .undefined

/-- The function a `Comparison` node holds in `cmp_`. -/
def Comparator.apply (cmp_ : Comparator) (exec : Exec) (classes : List runtime.Class)
    (lhs rhs : ObjectHolder) (st : State) : Outcome State Bool :=
  match cmp_ with
  | .Equal => runtime.Equal exec classes lhs rhs st
  | .NotEqual => runtime.NotEqual exec classes lhs rhs st
  | .Less => runtime.Less exec classes lhs rhs st
  | .Greater => runtime.Greater exec classes lhs rhs st
  | .LessOrEqual => runtime.LessOrEqual exec classes lhs rhs st
  | .GreaterOrEqual => runtime.GreaterOrEqual exec classes lhs rhs st

/-- The loop of `Compound::Execute`. -/
def Compound.loop (exec : Exec) : List Statement → Closure → State →
    Outcome (Closure × State) Unit
  | [], closure, st => .ok () (closure, st)
  | statement :: statements, closure, st =>
    (exec statement closure st).bind fun _ s => Compound.loop exec statements s.1 s.2

/-- One level of `Statement::Execute`: the method `Execute` of the node, with
`exec` for the calls of `Execute` on other nodes and `fuel` for the depth of
`Print`.  `Const` is modelled from the spec (the constant nodes of
`statement.h` return the value they hold).  `ClassDefinition` moves its holder
out of the node: the model is its first execution. -/
def Execute.step (exec : Exec) (classes : List runtime.Class) (fuel : Nat) :
    Statement → Closure → State → Outcome (Closure × State) ObjectHolder
  | .Const value, closure, st => .ok value (closure, st)
  | .Assignment var_ rv_, closure, st =>
    (exec rv_ closure st).bind fun value s => .ok value (Closure.set s.1 var_ value, s.2)
  | .VariableValue dotted_ids_, closure, st => VariableValue.Execute dotted_ids_ closure st
  | .Print args_, closure, st =>
    (Print.loop exec classes fuel args_ 0 closure st).bind fun _ s =>
      .ok .None (s.1, { s.2 with output := s.2.output ++ "\n".toList })
  | .MethodCall object_ method_ args_, closure, st =>
    match object_ with
    | none => .ok .None (closure, st)
    | some object =>
      (exec object closure st).bind fun callable_object s =>
        match callable_object with
        | .ClassInstance self =>
          (evalArgs exec args_ s.1 s.2).bind fun args_values s =>
            withClosure s.1 (ClassInstance.Call exec classes self method_ args_values s.2)
        | _ => .ok .None s
  | .Stringify argument_, closure, st =>
    match argument_ with
    | none => .ok (.String "None".toList) (closure, st)
    | some argument =>
      (exec argument closure st).bind fun exec_result s =>
        match exec_result with
        | .None => .ok (.String "None".toList) s
        | _ =>
          match PrintObject exec classes fuel exec_result { s.2 with output := [] } with
          | .ok _ dummy => .ok (.String dummy.output) (s.1, { dummy with output := s.2.output })
          | .thrown e dummy => .thrown e (s.1, { dummy with output := s.2.output })
          | .undefined => .undefined
          | .timeout => .timeout
  | .Add lhs_ rhs_, closure, st =>
    (evalOperands exec lhs_ rhs_ closure st).bind fun operands s =>
      match operands with
      | (.Number l, .Number r) => ownNumber (l + r) s
      | (.String l, .String r) => .ok (.String (l ++ r)) s
      | (.ClassInstance self, rhs) =>
        match classOf classes s.2 self with
        | none => .undefined
        | some class_ =>
          if ClassInstance.HasMethod class_ ADD_METHOD 1 then
            withClosure s.1 (ClassInstance.Call exec classes self ADD_METHOD [rhs] s.2)
          else .thrown Exception.runtime_error s
      | _ => .thrown Exception.runtime_error s
  | .Sub lhs_ rhs_, closure, st =>
    (evalOperands exec lhs_ rhs_ closure st).bind fun operands s =>
      match operands with
      | (.Number l, .Number r) => ownNumber (l - r) s
      | _ => .thrown Exception.runtime_error s
  | .Mult lhs_ rhs_, closure, st =>
    (evalOperands exec lhs_ rhs_ closure st).bind fun operands s =>
      match operands with
      | (.Number l, .Number r) => ownNumber (l * r) s
      | _ => .thrown Exception.runtime_error s
  | .Div lhs_ rhs_, closure, st =>
    (evalOperands exec lhs_ rhs_ closure st).bind fun operands s =>
      match operands with
      | (.Number l, .Number r) =>
        if r = 0 then .thrown Exception.runtime_error s else ownNumber (Int.tdiv l r) s
      | _ => .thrown Exception.runtime_error s
  | .Compound statements_, closure, st =>
    (Compound.loop exec statements_ closure st).bind fun _ s => .ok .None s
  | .Return statement_, closure, st =>
    match statement_ with
    | none => .thrown (Exception.ReturnException .None) (closure, st)
    | some statement =>
      (exec statement closure st).bind fun result s => .thrown (Exception.ReturnException result) s
  | .ClassDefinition cls_, closure, st =>
    match cls_ with
    | .Class cls =>
      match classes[cls]? with
      | some class_ptr => .ok .None (Closure.set closure class_ptr.name_ cls_, st)
      | none => .undefined
    | _ => .undefined
  | .FieldAssignment object_ field_name_ rv_, closure, st =>
    (VariableValue.Execute object_ closure st).bind fun object_value s =>
      match object_value with
      | .None => .ok .None s
      | .ClassInstance object =>
        (exec rv_ s.1 s.2).bind fun value s =>
          match s.2.instances[object]? with
          | some instance_ =>
            let fields := Closure.set instance_.fields_ field_name_ value
            .ok value (s.1,
              { s.2 with instances := s.2.instances.set object { instance_ with fields_ := fields } })
          | none => .undefined
      | _ => .undefined
  | .IfElse condition_ if_body_ else_body_, closure, st =>
    match condition_ with
    | none => .thrown Exception.runtime_error (closure, st)
    | some condition =>
      (exec condition closure st).bind fun condition_result s =>
        if IsTrue condition_result then exec if_body_ s.1 s.2
        else
          match else_body_ with
          | some else_body => exec else_body s.1 s.2
          | none => .ok .None s
  | .Or lhs_ rhs_, closure, st =>
    match lhs_, rhs_ with
    | some lhs, some rhs =>
      (exec lhs closure st).bind fun lhs_exec_result s =>
        if IsTrue lhs_exec_result then .ok (.Bool true) s
        else
          (exec rhs s.1 s.2).bind fun rhs_exec_result s =>
            if IsTrue rhs_exec_result then .ok (.Bool true) s else .ok (.Bool false) s
    | _, _ => .thrown Exception.runtime_error (closure, st)
  | .And lhs_ rhs_, closure, st =>
    (evalOperands exec lhs_ rhs_ closure st).bind fun operands s =>
      if IsTrue operands.1 && IsTrue operands.2 then .ok (.Bool true) s else .ok (.Bool false) s
  | .Not argument_, closure, st =>
    match argument_ with
    | none => .thrown Exception.runtime_error (closure, st)
    | some argument =>
      (exec argument closure st).bind fun arg_exec_result s =>
        .ok (.Bool (!IsTrue arg_exec_result)) s
  | .Comparison cmp_ lhs_ rhs_, closure, st =>
    (evalOperands exec lhs_ rhs_ closure st).bind fun operands s =>
      (withClosure s.1 (cmp_.apply exec classes operands.1 operands.2 s.2)).bind fun result s =>
        .ok (.Bool result) s
  | .NewInstance class_instance_ args_, closure, st =>
    match classOf classes st class_instance_ with
    | none => .undefined
    | some class_ =>
      if ClassInstance.HasMethod class_ INIT_METHOD args_.length then
        (evalArgs exec args_ closure st).bind fun args_values s =>
          (withClosure s.1
            (ClassInstance.Call exec classes class_instance_ INIT_METHOD args_values s.2)).bind
            fun _ s => .ok (.ClassInstance class_instance_) s
      else .ok (.ClassInstance class_instance_) (closure, st)
  | .MethodBody body_, closure, st =>
    match body_ with
    | none => .ok .None (closure, st)
    | some body =>
      match exec body closure st with
      | .thrown (Exception.ReturnException value) s => .ok value s
      | .ok _ s => .ok .None s
      | other => other

/-- The method `Statement::Execute`, for at most `fuel` nested calls. -/
def Execute (classes : List runtime.Class) : Nat → Exec
  | 0 => fun _ _ _ => .timeout
  | fuel + 1 => Execute.step (Execute classes fuel) classes fuel

end ast

namespace runtime

/-- The method named `name` that a list of methods defines: the last one of
that name, as later entries of `methods_` overwrite earlier ones. -/
def Class.ownMethod (methods : List Method) (name : List Char) : Option Method :=
  (methods.filter fun method => method.name = name).getLast?

/-- The pairs of operands that `Equal` and `Less` compare by value: both a
`Number`, both a `String` or both a `Bool`. -/
def sameValueType : ObjectHolder → ObjectHolder → Bool
  | .Number _, .Number _ => true
  | .String _, .String _ => true
  | .Bool _, .Bool _ => true
  | _, _ => false

/-- What `ClassInstance::Call` makes of the end of the method body: the
closure of the call is dropped. -/
def dropClosure {α : Type} (o : Outcome (Closure × State) α) : Outcome State α :=
  match o with
  | .ok value s => .ok value s.2
  | .thrown e s => .thrown e s.2
  | .undefined => .undefined
  | .timeout => .timeout

end runtime

namespace ast

open runtime

/-- The first `Return` that the execution of a statement reaches, under
`Compound` and `IfElse` nodes: `FirstReturn classes fuel statement s value s'`
says that `statement`, started with closure and state `s`, comes to a `Return`
carrying `value` with closure and state `s'`, all statements before it having
ended without an exception. -/
inductive FirstReturn (classes : List runtime.Class) :
    Nat → Statement → Closure × State → ObjectHolder → Closure × State → Prop where
  | bare (fuel : Nat) (s : Closure × State) :
    FirstReturn classes (fuel + 1) (.Return none) s .None s
  | value (fuel : Nat) (statement : Statement) (s s' : Closure × State) (value : ObjectHolder) :
    Execute classes fuel statement s.1 s.2 = .ok value s' →
    FirstReturn classes (fuel + 1) (.Return (some statement)) s value s'
  | compound (fuel : Nat) (before after : List Statement) (statement : Statement)
      (s s1 s' : Closure × State) (value : ObjectHolder) :
    Compound.loop (Execute classes fuel) before s.1 s.2 = .ok () s1 →
    FirstReturn classes fuel statement s1 value s' →
    FirstReturn classes (fuel + 1) (.Compound (before ++ statement :: after)) s value s'
  | ifBody (fuel : Nat) (condition if_body : Statement) (else_body : Option Statement)
      (s s1 s' : Closure × State) (c value : ObjectHolder) :
    Execute classes fuel condition s.1 s.2 = .ok c s1 → IsTrue c = true →
    FirstReturn classes fuel if_body s1 value s' →
    FirstReturn classes (fuel + 1) (.IfElse (some condition) if_body else_body) s value s'
  | elseBody (fuel : Nat) (condition if_body else_body : Statement)
      (s s1 s' : Closure × State) (c value : ObjectHolder) :
    Execute classes fuel condition s.1 s.2 = .ok c s1 → IsTrue c = false →
    FirstReturn classes fuel else_body s1 value s' →
    FirstReturn classes (fuel + 1) (.IfElse (some condition) if_body (some else_body)) s value s'

end ast

namespace ast

open runtime

/-- The scope in which the name behind `value` is looked up: the fields of the
instance when `value` holds a class instance, the scope of `value` itself
otherwise; `none` when the holder dangles. -/
def VariableValue.nextScope (st : State) (scope : Closure) (value : ObjectHolder) :
    Option Closure :=
  match value with
  | .ClassInstance object =>
    match st.instances[object]? with
    | some instance_ => some instance_.fields_
    | none => none
  | _ => some scope

/-- Some name of the dotted chain is not bound in the scope that is active when
it is looked up. -/
inductive VariableValue.Unbound (st : State) : Closure → List (List Char) → Prop where
  | here (scope : Closure) (id : List Char) (ids : List (List Char)) :
    Closure.find scope id = none → VariableValue.Unbound st scope (id :: ids)
  | later (scope scope' : Closure) (id : List Char) (ids : List (List Char))
      (value : ObjectHolder) :
    Closure.find scope id = some value → VariableValue.nextScope st scope value = some scope' →
    VariableValue.Unbound st scope' ids → VariableValue.Unbound st scope (id :: ids)

/-- Every name of the dotted chain is bound in the scope that is active when it
is looked up, and `result` is the value of the last name. -/
inductive VariableValue.Resolves (st : State) :
    Closure → List (List Char) → ObjectHolder → Prop where
  | last (scope scope' : Closure) (id : List Char) (value : ObjectHolder) :
    Closure.find scope id = some value → VariableValue.nextScope st scope value = some scope' →
    VariableValue.Resolves st scope [id] value
  | step (scope scope' : Closure) (id id' : List Char) (ids : List (List Char))
      (value result : ObjectHolder) :
    Closure.find scope id = some value → VariableValue.nextScope st scope value = some scope' →
    VariableValue.Resolves st scope' (id' :: ids) result →
    VariableValue.Resolves st scope (id :: id' :: ids) result

end ast

namespace runtime

/-- The state with `text` written to the output stream. -/
def State.write (st : State) (text : List Char) : State :=
  { st with output := st.output ++ text }

/-- The state in which the field `field_name` of the instance at `object` is
`value`, as an assignment to that field leaves it. -/
def State.setField (st : State) (object : Nat) (field_name : List Char) (value : ObjectHolder) :
    State :=
  match st.instances[object]? with
  | some instance_ =>
    ⟨st.instances.set object ⟨instance_.class_, Closure.set instance_.fields_ field_name value⟩,
      st.output⟩
  | none => st

end runtime

namespace ast

open runtime

/-- The text of a value that is no class instance: `None`, `True` or `False`,
the decimal digits of a number, the content of a string, `Class` and the name of
a class. -/
def Print.repr (classes : List runtime.Class) : ObjectHolder → Option (List Char)
  | .None => some "None".toList
  | .Bool value => some (if value then "True".toList else "False".toList)
  | .Number value => some (toString value).toList
  | .String value => some value
  | .Class cls =>
    match classes[cls]? with
    | some class_ => some ("Class ".toList ++ class_.name_)
    | none => none
  | .ClassInstance _ => none

/-- The arguments of a `Print` node from number `i` on evaluate one after the
other, each in the closure and the state its predecessors and their texts have
left (behind the separating blank when it is not the first): the argument of
the piece `(written, text)` writes `written` itself and has a value whose text
is `text`, and the last text leaves `closure'` and `st'`. -/
inductive Print.Evaluates (exec : Exec) (classes : List runtime.Class) :
    Nat → List Statement → Closure → State → List (List Char × List Char) →
    Closure → State → Prop where
  | nil (i : Nat) (closure : Closure) (st : State) :
    Print.Evaluates exec classes i [] closure st [] closure st
  | cons (i : Nat) (arg : Statement) (args : List Statement) (closure closure' : Closure)
      (st st' : State) (value : ObjectHolder) (s : Closure × State) (written text : List Char)
      (rest : List (List Char × List Char)) :
    exec arg closure (if i > 0 then st.write " ".toList else st) = .ok value s →
    s.2.output = (if i > 0 then st.write " ".toList else st).output ++ written →
    Print.repr classes value = some text →
    Print.Evaluates exec classes (i + 1) args s.1 (s.2.write text) rest closure' st' →
    Print.Evaluates exec classes i (arg :: args) closure st ((written, text) :: rest) closure' st'

end ast

/-! ## Theorems on the lexer -/

namespace parse

/-! ## The token buffer during tokenization -/

theorem PlainStep.rfl_input (st : LexState) (i : IStream) : PlainStep st { st with input := i } :=
  ⟨rfl, Or.inl rfl⟩

theorem PlainStep.trans {a b c : LexState} (h1 : PlainStep a b) (h2 : PlainStep b c) :
    c.global_indent_counter_ = a.global_indent_counter_ ∧
      ∃ ts : List Token, c.tokens_ = a.tokens_ ++ ts ∧ ∀ t ∈ ts, t.plain := by
  obtain ⟨g1, t1⟩ := h1
  obtain ⟨g2, t2⟩ := h2
  refine ⟨g2.trans g1, ?_⟩
  rcases t1 with t1 | ⟨x, t1, hx⟩ <;> rcases t2 with t2 | ⟨y, t2, hy⟩
  · exact ⟨[], by simp [t2, t1], by simp⟩
  · exact ⟨[y], by simp [t2, t1], by simpa using hy⟩
  · exact ⟨[x], by simp [t2, t1], by simpa using hx⟩
  · exact ⟨[x, y], by simp [t2, t1], by simp [hx, hy]⟩

theorem ParseString_plain {st st' : LexState} (h : ParseString st = .ok st') : PlainStep st st' := by
  unfold ParseString at h
  split at h
  · cases h; exact PlainStep.rfl_input _ _
  · split at h
    · dsimp only at h
      split at h
      · cases h
      · cases h
      · split at h
        · cases h
          exact ⟨rfl, Or.inr ⟨_, rfl, by simp [Token.plain]⟩⟩
        · cases h
    · cases h; exact PlainStep.rfl_input _ _

theorem lookup_mem {α β : Type} [BEq α] [LawfulBEq α] (a : α) (b : β) :
    ∀ l : List (α × β), l.lookup a = some b → (a, b) ∈ l
  | [], h => by simp at h
  | (k, v) :: l, h => by
    rw [List.lookup_cons] at h
    split at h
    · rename_i hk
      have hk' : a = k := by simpa using hk
      cases h
      simp [hk']
    · exact List.mem_cons_of_mem _ (lookup_mem a b l h)

theorem keyword_map_plain {w : List Char} {t : Token} (h : keyword_map_.lookup w = some t) :
    t.plain := by
  have hall : ∀ p ∈ keyword_map_, p.2.plain := by
    simp [keyword_map_, Token.plain]
  exact hall _ (lookup_mem w t _ h)

theorem ParseKeywords_plain (st : LexState) : PlainStep st (ParseKeywords st) := by
  unfold ParseKeywords
  split
  · exact PlainStep.rfl_input _ _
  · split
    · dsimp only
      split
      · rename_i tok htok
        exact ⟨rfl, Or.inr ⟨_, rfl, keyword_map_plain htok⟩⟩
      · exact ⟨rfl, Or.inr ⟨_, rfl, by simp [Token.plain]⟩⟩
    · exact PlainStep.rfl_input _ _

theorem ParseChars_plain (st : LexState) : PlainStep st (ParseChars st) := by
  unfold ParseChars
  split
  · exact PlainStep.rfl_input _ _
  · split
    · dsimp only
      split
      · exact PlainStep.rfl_input _ _
      · repeat (split; · exact ⟨rfl, Or.inr ⟨_, rfl, by simp [Token.plain]⟩⟩)
        exact ⟨rfl, Or.inr ⟨_, rfl, by simp [Token.plain]⟩⟩
    · exact PlainStep.rfl_input _ _

theorem ParseNumbers_plain {st st' : LexState} (h : ParseNumbers st = .ok st') : PlainStep st st' := by
  unfold ParseNumbers at h
  split at h
  · cases h; exact PlainStep.rfl_input _ _
  · split at h
    · dsimp only at h
      split at h
      · cases h; exact ⟨rfl, Or.inr ⟨_, rfl, by simp [Token.plain]⟩⟩
      · cases h
    · cases h; exact PlainStep.rfl_input _ _

theorem Inv.nil : Inv [] 0 :=
  ⟨le_refl _, by simp, by simp, by simp, by simp, by simp⟩

theorem take_concat_cases (toks : List Token) (t : Token) (n : Nat) :
    (toks ++ [t]).take n = toks.take n ∨ (toks ++ [t]).take n = toks ++ [t] := by
  rcases Nat.lt_or_ge toks.length n with h | h
  · right
    exact List.take_of_length_le (by simp; omega)
  · left
    rw [List.take_append_of_le_length h]

theorem needsNewline_iff (toks : List Token) :
    needsNewline toks = true ↔ ∃ t, toks.getLast? = some t ∧ t ≠ Token.Newline := by
  unfold needsNewline
  split <;> simp_all

theorem Inv.concat {toks : List Token} {g g' : Int} (inv : Inv toks g) (t : Token)
    (hg : 0 ≤ g')
    (hd : g' = g + (if t = Token.Indent then 1 else 0) - (if t = Token.Dedent then 1 else 0))
    (hn : t = Token.Newline → needsNewline toks = true) (he : t ≠ Token.Eof) :
    Inv (toks ++ [t]) g' := by
  have hcI : (toks ++ [t]).count Token.Indent
      = toks.count Token.Indent + (if t = Token.Indent then 1 else 0) := by
    rw [List.count_append, List.count_singleton]
    by_cases h : t = Token.Indent <;> simp [h]
  have hcD : (toks ++ [t]).count Token.Dedent
      = toks.count Token.Dedent + (if t = Token.Dedent then 1 else 0) := by
    rw [List.count_append, List.count_singleton]
    by_cases h : t = Token.Dedent <;> simp [h]
  have hdepth : ((toks ++ [t]).count Token.Indent : Int) - (toks ++ [t]).count Token.Dedent = g' := by
    rw [hcI, hcD, hd, ← inv.depth]
    by_cases h1 : t = Token.Indent <;> by_cases h2 : t = Token.Dedent <;> simp [h1, h2] <;> omega
  refine ⟨hg, hdepth, ?_, ?_, ?_, ?_⟩
  · intro n
    rcases take_concat_cases toks t n with h | h
    · rw [h]; exact inv.prefixes n
    · rw [h]; omega
  · cases toks with
    | nil =>
      intro h
      have : t = Token.Newline := by simpa using h
      have := hn this
      simp [needsNewline] at this
    | cons a l => simpa using inv.head
  · rw [List.chain'_append]
    refine ⟨inv.chain, List.chain'_singleton _, ?_⟩
    intro x hx y hy
    have hy' : y = t := by simpa using hy.symm
    subst hy'
    intro hxy
    obtain ⟨z, hz, hzn⟩ := (needsNewline_iff toks).1 (hn hxy.2)
    have hx' : toks.getLast? = some x := hx
    rw [hz] at hx'
    cases hx'
    exact hzn hxy.1
  · simp only [List.mem_append, List.mem_singleton, not_or]
    exact ⟨inv.noEof, fun h => he h.symm⟩

theorem Inv.plain {toks : List Token} {g : Int} (inv : Inv toks g) {t : Token} (ht : t.plain) :
    Inv (toks ++ [t]) g := by
  obtain ⟨h1, h2, h3, h4⟩ := ht
  exact inv.concat t inv.nonneg (by simp [h1, h2]) (fun h => absurd h h3) h4

theorem Inv.plains {toks : List Token} {g : Int} (inv : Inv toks g) :
    ∀ ts : List Token, (∀ t ∈ ts, t.plain) → Inv (toks ++ ts) g := by
  intro ts
  induction ts using List.reverseRecOn with
  | nil => intro _; simpa using inv
  | append_singleton ts t ih =>
    intro h
    rw [← List.append_assoc]
    exact (ih (fun x hx => h x (by simp [hx]))).plain (h t (by simp))

theorem Inv.newline {toks : List Token} {g : Int} (inv : Inv toks g) :
    Inv (if needsNewline toks then toks ++ [Token.Newline] else toks) g := by
  split
  · rename_i h
    exact inv.concat _ inv.nonneg (by simp) (fun _ => h) (by simp)
  · exact inv

theorem Inv.indents {toks : List Token} {g : Int} (inv : Inv toks g) (k : Nat) :
    Inv (toks ++ List.replicate k Token.Indent) (g + k) := by
  induction k with
  | zero => simpa using inv
  | succ k ih =>
    rw [List.replicate_succ', ← List.append_assoc]
    exact ih.concat _ (by have := inv.nonneg; omega) (by simp; omega) (by simp) (by simp)

theorem Inv.dedents {toks : List Token} {g : Int} (inv : Inv toks g) (k : Nat) (hk : (k : Int) ≤ g) :
    Inv (toks ++ List.replicate k Token.Dedent) (g - k) := by
  induction k with
  | zero => simpa using inv
  | succ k ih =>
    rw [List.replicate_succ', ← List.append_assoc]
    exact (ih (by omega)).concat _ (by omega) (by simp; omega) (by simp) (by simp)

theorem ParseIndent.emit_eq (tok : Token) (step : Int) :
    ∀ (spaces : Nat) (tokens : List Token) (g : Int),
      ParseIndent.emit tok step spaces tokens g
        = (tokens ++ List.replicate ((spaces + 1) / 2) tok, g + step * ((spaces + 1) / 2 : Nat))
  | 0, tokens, g => by simp [ParseIndent.emit]
  | 1, tokens, g => by simp [ParseIndent.emit]
  | spaces + 2, tokens, g => by
    rw [ParseIndent.emit, ParseIndent.emit_eq tok step spaces]
    have h : (spaces + 2 + 1) / 2 = (spaces + 1) / 2 + 1 := by omega
    rw [h, List.replicate_succ, List.append_assoc]
    simp only [List.singleton_append, Prod.mk.injEq, true_and]
    push_cast
    ring

theorem ParseIndent.adjust_inv {toks : List Token} {g : Int} (inv : Inv toks g) (spaces : Nat) :
    Inv (ParseIndent.adjust spaces toks g).1 (ParseIndent.adjust spaces toks g).2 := by
  have hg := inv.nonneg
  unfold ParseIndent.adjust SPACES_PER_INDENT
  split
  · rw [ParseIndent.emit_eq, one_mul]
    exact inv.indents _
  · split
    · rw [ParseIndent.emit_eq]
      have h := inv.dedents (((g * 2 - (spaces : Int)).toNat + 1) / 2) (by omega)
      have e : g + -1 * ((((g * 2 - (spaces : Int)).toNat + 1) / 2 : Nat) : Int)
          = g - ((((g * 2 - (spaces : Int)).toNat + 1) / 2 : Nat) : Int) := by ring
      rw [e]
      exact h
    · exact inv

theorem ParseIndent_inv {st : LexState} (inv : st.Inv) : (ParseIndent st).Inv := by
  unfold ParseIndent
  split
  · exact inv
  · dsimp only
    split
    · exact inv
    · exact ParseIndent.adjust_inv inv _

theorem ParseNewLine_inv {st : LexState} (inv : st.Inv) : (ParseNewLine st).Inv := by
  unfold ParseNewLine
  split
  · exact ParseIndent_inv (Inv.newline inv)
  · exact inv

theorem body_inv {st st' : LexState} (inv : st.Inv) (h : ParseInputStream.body st = .ok st') :
    st'.Inv := by
  unfold ParseInputStream.body at h
  split at h
  · cases h
  · rename_i st1 h1
    split at h
    · cases h
    · rename_i st4 h4
      cases h
      apply ParseNewLine_inv
      have p1 := ParseString_plain h1
      have p2 := ParseKeywords_plain st1
      have p3 := ParseChars_plain (ParseKeywords st1)
      have p4 := ParseNumbers_plain h4
      obtain ⟨g12, ts12, e12, hp12⟩ := p1.trans p2
      obtain ⟨g34, ts34, e34, hp34⟩ := p3.trans p4
      show parse.Inv st4.tokens_ st4.global_indent_counter_
      rw [g34, g12, e34, e12]
      exact (Inv.plains inv ts12 hp12).plains ts34 hp34

theorem loop_inv : ∀ (fuel : Nat) (st st' : LexState), st.Inv →
    ParseInputStream.loop fuel st = some (.ok st') → st'.Inv
  | 0, _, _, _, h => by simp [ParseInputStream.loop] at h
  | fuel + 1, st, st', inv, h => by
    rw [ParseInputStream.loop] at h
    split at h
    · cases h; exact inv
    · split at h
      · cases h
      · rename_i st1 h1
        exact loop_inv fuel st1 st' (body_inv inv h1) h

theorem ParseInputStream.dedent_eq : ∀ (g : Nat) (tokens : List Token),
    ParseInputStream.dedent g tokens = tokens ++ List.replicate g Token.Dedent
  | 0, tokens => by simp [ParseInputStream.dedent]
  | g + 1, tokens => by
    rw [ParseInputStream.dedent, ParseInputStream.dedent_eq g, List.replicate_succ,
      List.append_assoc]
    rfl

theorem ParseInputStream.finish_eq (st : LexState) :
    ParseInputStream.finish st
      = (if needsNewline st.tokens_ then st.tokens_ ++ [Token.Newline] else st.tokens_)
          ++ List.replicate st.global_indent_counter_.toNat Token.Dedent ++ [Token.Eof] := by
  simp [ParseInputStream.finish, ParseInputStream.dedent_eq]

theorem start_inv (input : IStream) : (ParseInputStream.start input).Inv := Inv.nil

theorem ParseInputStream_ok {fuel : Nat} {input : IStream} {lx : Lexer}
    (h : ParseInputStream fuel input = some (.ok lx)) :
    ∃ st, ParseInputStream.loop fuel (ParseInputStream.start input) = some (.ok st) ∧ st.Inv ∧
      lx = ⟨ParseInputStream.finish st, 0⟩ := by
  unfold ParseInputStream at h
  split at h
  · cases h
  · cases h
  · rename_i st hst
    cases h
    exact ⟨st, hst, loop_inv _ _ _ (start_inv input) hst, rfl⟩

/-- The invariant of the token buffer just before `Eof` is appended. -/
theorem finish_inv {st : LexState} (inv : st.Inv) :
    parse.Inv ((if needsNewline st.tokens_ then st.tokens_ ++ [Token.Newline] else st.tokens_)
      ++ List.replicate st.global_indent_counter_.toNat Token.Dedent) 0 := by
  have h1 := Inv.newline inv
  have h2 := h1.dedents st.global_indent_counter_.toNat (by have := inv.nonneg; omega)
  have e : st.global_indent_counter_ - (st.global_indent_counter_.toNat : Int) = 0 := by
    have := inv.nonneg; omega
  rw [e] at h2
  exact h2

theorem count_concat_Eof (X : List Token) (t : Token) (ht : t ≠ Token.Eof) :
    (X ++ [Token.Eof]).count t = X.count t := by
  rw [List.count_append, List.count_singleton]
  simp [Ne.symm ht]

/-- C1: when tokenization succeeds, every prefix of the token sequence holds at
least as many `Indent` as `Dedent` tokens, and the whole sequence holds equally
many of both. -/
theorem ParseInputStream_indents_balanced (fuel : Nat) (input : IStream) (lx : Lexer)
    (h : ParseInputStream fuel input = some (.ok lx)) :
    (∀ n, (lx.tokens_.take n).count Token.Dedent ≤ (lx.tokens_.take n).count Token.Indent) ∧
      lx.tokens_.count Token.Indent = lx.tokens_.count Token.Dedent := by
  obtain ⟨st, -, inv, rfl⟩ := ParseInputStream_ok h
  have fin := finish_inv inv
  simp only [ParseInputStream.finish_eq]
  have hd := fin.depth
  refine ⟨fun n => ?_, ?_⟩
  · rcases take_concat_cases _ Token.Eof n with e | e
    · rw [e]; exact fin.prefixes n
    · rw [e, count_concat_Eof _ _ (by simp), count_concat_Eof _ _ (by simp)]; omega
  · rw [count_concat_Eof _ _ (by simp), count_concat_Eof _ _ (by simp)]; omega

theorem ParseInputStream_indents_balanced_witness :
    ParseInputStream 9 (IStream.ofList "x\n  y\nz".toList)
        = some (.ok ⟨[Token.Id ['x'], Token.Newline, Token.Indent, Token.Id ['y'], Token.Newline,
            Token.Dedent, Token.Id ['z'], Token.Newline, Token.Eof], 0⟩) ∧
      ((∀ n, (([Token.Id ['x'], Token.Newline, Token.Indent, Token.Id ['y'], Token.Newline,
            Token.Dedent, Token.Id ['z'], Token.Newline, Token.Eof] : List Token).take n).count
              Token.Dedent
          ≤ (([Token.Id ['x'], Token.Newline, Token.Indent, Token.Id ['y'], Token.Newline,
            Token.Dedent, Token.Id ['z'], Token.Newline, Token.Eof] : List Token).take n).count
              Token.Indent) ∧
        ([Token.Id ['x'], Token.Newline, Token.Indent, Token.Id ['y'], Token.Newline,
            Token.Dedent, Token.Id ['z'], Token.Newline, Token.Eof] : List Token).count Token.Indent
          = ([Token.Id ['x'], Token.Newline, Token.Indent, Token.Id ['y'], Token.Newline,
            Token.Dedent, Token.Id ['z'], Token.Newline, Token.Eof] : List Token).count
              Token.Dedent) :=
  ⟨rfl, ParseInputStream_indents_balanced 9 (IStream.ofList "x\n  y\nz".toList)
    ⟨[Token.Id ['x'], Token.Newline, Token.Indent, Token.Id ['y'], Token.Newline,
      Token.Dedent, Token.Id ['z'], Token.Newline, Token.Eof], 0⟩ rfl⟩

theorem Inv.withEof {X : List Token} {g : Int} (inv : Inv X g) :
    (X ++ [Token.Eof]).head? ≠ some Token.Newline ∧ (X ++ [Token.Eof]).Chain' NewlineFree := by
  constructor
  · cases X with
    | nil => simp
    | cons a l => simpa using inv.head
  · rw [List.chain'_append]
    refine ⟨inv.chain, List.chain'_singleton _, ?_⟩
    intro x _ y hy
    have hy' : y = Token.Eof := by simpa using hy.symm
    subst hy'
    intro hxy
    simp at hxy

theorem chain_no_double {l : List Token} (h : l.Chain' NewlineFree) (pre post : List Token) :
    l ≠ pre ++ Token.Newline :: Token.Newline :: post := by
  intro e
  rw [e, List.chain'_append] at h
  have h2 := h.2.1
  rw [List.chain'_cons] at h2
  exact h2.1 ⟨rfl, rfl⟩

/-- C2: when tokenization succeeds, the first token is not `Newline` and the
token sequence nowhere holds two `Newline` tokens side by side. -/
theorem ParseInputStream_newlines_single (fuel : Nat) (input : IStream) (lx : Lexer)
    (h : ParseInputStream fuel input = some (.ok lx)) :
    lx.tokens_.head? ≠ some Token.Newline ∧
      ∀ pre post : List Token, lx.tokens_ ≠ pre ++ Token.Newline :: Token.Newline :: post := by
  obtain ⟨st, -, inv, rfl⟩ := ParseInputStream_ok h
  have fin := (finish_inv inv).withEof
  simp only [ParseInputStream.finish_eq]
  exact ⟨fin.1, chain_no_double fin.2⟩

theorem ParseInputStream_newlines_single_witness :
    ParseInputStream 9 (IStream.ofList "\n\nx\n\n \ny\n\n".toList)
        = some (.ok ⟨[Token.Id ['x'], Token.Newline, Token.Id ['y'], Token.Newline, Token.Eof], 0⟩) ∧
      (([Token.Id ['x'], Token.Newline, Token.Id ['y'], Token.Newline, Token.Eof] : List Token).head?
          ≠ some Token.Newline ∧
        ∀ pre post : List Token,
          [Token.Id ['x'], Token.Newline, Token.Id ['y'], Token.Newline, Token.Eof]
            ≠ pre ++ Token.Newline :: Token.Newline :: post) :=
  ⟨rfl, ParseInputStream_newlines_single 9 (IStream.ofList "\n\nx\n\n \ny\n\n".toList)
    ⟨[Token.Id ['x'], Token.Newline, Token.Id ['y'], Token.Newline, Token.Eof], 0⟩ rfl⟩

theorem getLast?_eq_some_concat {l : List Token} {t : Token} (h : l.getLast? = some t) :
    ∃ body, l = body ++ [t] := by
  induction l using List.reverseRecOn with
  | nil => simp at h
  | append_singleton body x _ =>
    rw [List.getLast?_append] at h
    simp at h
    exact ⟨body, by rw [h]⟩

theorem needsNewline_false {l : List Token} (h : needsNewline l = false) (hne : l ≠ []) :
    ∃ body, l = body ++ [Token.Newline] := by
  apply getLast?_eq_some_concat
  unfold needsNewline at h
  split at h
  · rename_i hn
    exact absurd (List.getLast?_eq_none_iff.1 hn) hne
  · rename_i t ht
    have : t = Token.Newline := by simpa using h
    rw [ht, this]

/-- C3: when tokenization succeeds, the token sequence ends with `Eof` and holds
no other `Eof`; with `st` the lexer state at the end of the main loop, a
non-empty token buffer gives a sequence `body ++ [Newline] ++ Dedent^k ++ [Eof]`
with `k` the indent level of `st`, an empty one gives `[Eof]`; and the empty
input gives exactly `[Eof]`. -/
theorem ParseInputStream_ends_with_Eof (fuel : Nat) (input : IStream) (lx : Lexer)
    (h : ParseInputStream fuel input = some (.ok lx)) :
    lx.tokens_.getLast? = some Token.Eof ∧ Token.Eof ∉ lx.tokens_.dropLast ∧
      (∃ st, ParseInputStream.loop fuel (ParseInputStream.start input) = some (.ok st) ∧
        0 ≤ st.global_indent_counter_ ∧
        (st.tokens_ ≠ [] → ∃ body, lx.tokens_ = body ++ [Token.Newline]
            ++ List.replicate st.global_indent_counter_.toNat Token.Dedent ++ [Token.Eof]) ∧
        (st.tokens_ = [] → lx.tokens_ = [Token.Eof])) ∧
      ∀ k, ParseInputStream (k + 2) (IStream.ofList []) = some (.ok ⟨[Token.Eof], 0⟩) := by
  obtain ⟨st, hst, inv, rfl⟩ := ParseInputStream_ok h
  have fin := finish_inv inv
  simp only [ParseInputStream.finish_eq]
  refine ⟨by simp, ?_, ⟨st, hst, inv.nonneg, ?_, ?_⟩, fun k => rfl⟩
  · rw [List.dropLast_concat]
    exact fin.noEof
  · intro hne
    by_cases hn : needsNewline st.tokens_ = true
    · exact ⟨st.tokens_, by simp [hn]⟩
    · obtain ⟨body, hb⟩ := needsNewline_false (by simpa using hn) hne
      refine ⟨body, ?_⟩
      simp only [hn]
      rw [← hb]
      simp
  · intro he
    have hg : st.global_indent_counter_ = 0 := by
      have := inv.depth
      rw [he] at this
      simpa using this.symm
    simp [he, hg, needsNewline]

theorem ParseInputStream_ends_with_Eof_witness :
    ParseInputStream 9 (IStream.ofList "if x:\n  y".toList)
        = some (.ok ⟨[Token.If, Token.Id ['x'], Token.Char ':', Token.Newline, Token.Indent,
            Token.Id ['y'], Token.Newline, Token.Dedent, Token.Eof], 0⟩) ∧
      (([Token.If, Token.Id ['x'], Token.Char ':', Token.Newline, Token.Indent,
            Token.Id ['y'], Token.Newline, Token.Dedent, Token.Eof] : List Token).getLast?
          = some Token.Eof ∧
        Token.Eof ∉ ([Token.If, Token.Id ['x'], Token.Char ':', Token.Newline, Token.Indent,
            Token.Id ['y'], Token.Newline, Token.Dedent, Token.Eof] : List Token).dropLast ∧
        (∃ st, ParseInputStream.loop 9 (ParseInputStream.start (IStream.ofList "if x:\n  y".toList))
            = some (.ok st) ∧
          0 ≤ st.global_indent_counter_ ∧
          (st.tokens_ ≠ [] → ∃ body, [Token.If, Token.Id ['x'], Token.Char ':', Token.Newline,
              Token.Indent, Token.Id ['y'], Token.Newline, Token.Dedent, Token.Eof]
            = body ++ [Token.Newline]
              ++ List.replicate st.global_indent_counter_.toNat Token.Dedent ++ [Token.Eof]) ∧
          (st.tokens_ = [] → [Token.If, Token.Id ['x'], Token.Char ':', Token.Newline,
              Token.Indent, Token.Id ['y'], Token.Newline, Token.Dedent, Token.Eof]
            = [Token.Eof])) ∧
        ∀ k, ParseInputStream (k + 2) (IStream.ofList []) = some (.ok ⟨[Token.Eof], 0⟩)) :=
  ⟨rfl, ParseInputStream_ends_with_Eof 9 (IStream.ofList "if x:\n  y".toList)
    ⟨[Token.If, Token.Id ['x'], Token.Char ':', Token.Newline, Token.Indent,
      Token.Id ['y'], Token.Newline, Token.Dedent, Token.Eof], 0⟩ rfl⟩

/-! ## Comment lines, unknown escapes and unterminated literals -/

/-- C4: a comment line changes the indentation.  At indent level 0 the comment
line `  # c` (two leading spaces) makes `ParseIndent` emit `Indent` and raise
the level to 1, and the next line brings a `Dedent`; at indent level 1 a
comment line without leading spaces brings a `Dedent` and the next line an
`Indent`. -/
theorem ParseInputStream_comment_line_indents :
    ParseIndent ⟨IStream.ofList "  # c\ny\n".toList, [Token.Id ['x'], Token.Newline], 0⟩
        = ⟨IStream.ofList "# c\ny\n".toList, [Token.Id ['x'], Token.Newline, Token.Indent], 1⟩ ∧
      ParseInputStream 12 (IStream.ofList "x\n  # c\ny\n".toList)
        = some (.ok ⟨[Token.Id ['x'], Token.Newline, Token.Indent, Token.Newline, Token.Dedent,
            Token.Id ['y'], Token.Newline, Token.Eof], 0⟩) ∧
      ParseInputStream 12 (IStream.ofList "if x:\n  y\n# c\n  z\n".toList)
        = some (.ok ⟨[Token.If, Token.Id ['x'], Token.Char ':', Token.Newline, Token.Indent,
            Token.Id ['y'], Token.Newline, Token.Dedent, Token.Newline, Token.Indent,
            Token.Id ['z'], Token.Newline, Token.Dedent, Token.Eof], 0⟩) :=
  ⟨rfl, rfl, rfl⟩

/-- C5: an unknown escape does not raise `LexerError`.  On the literal `'\q'`
`ParseString` throws `std::logic_error`, and so does the whole tokenization. -/
theorem ParseString_unknown_escape_logic_error :
    ParseString ⟨IStream.ofList "'\\q'".toList, [], 0⟩ = .error LexException.logic_error ∧
      ParseInputStream 3 (IStream.ofList "'\\q'".toList) = some (.error LexException.logic_error) ∧
      ParseInputStream 3 (IStream.ofList "'\\q'".toList) ≠ some (.error LexException.LexerError) :=
  ⟨rfl, rfl, by
    have h : ParseInputStream 3 (IStream.ofList "'\\q'".toList)
        = some (.error LexException.logic_error) := rfl
    rw [h]
    simp⟩

/-- C6: a quote that is the last character of the input does not raise
`LexerError`.  The loop of `ParseString` runs zero times and the test
`open_char == ch` reads a `ch` that was never written. -/
theorem ParseString_lone_quote_indeterminate :
    ParseString ⟨IStream.ofList ['"'], [], 0⟩ = .error LexException.indeterminate_read ∧
      ParseInputStream 3 (IStream.ofList "x = \"".toList)
        = some (.error LexException.indeterminate_read) :=
  ⟨rfl, rfl⟩

/-! ## String literals -/

theorem ParseString.escape_wellFormed {q e : Char} (h : (StringPiece.esc e).wellFormed q) :
    ParseString.escape e = some (StringPiece.esc e).denotes := by
  rcases h with h | h | h | h | h | h <;> subst h <;> rfl

theorem ParseString.loop_literal (q : Char) (hq : q = '\'' ∨ q = '"') (rest : List Char) :
    ∀ (body : List StringPiece), (∀ p ∈ body, p.wellFormed q) →
      ∀ (result : List Char) (ch : Option Char),
        ParseString.loop q (literalText body ++ q :: rest) result ch
          = .ok (⟨rest, false, false, false⟩, result ++ body.map StringPiece.denotes, some q)
  | [], _, result, ch => by
    show ParseString.loop q (q :: rest) result ch = _
    unfold ParseString.loop
    simp
  | .lit c :: ps, hb, result, ch => by
    obtain ⟨h1, h2, h3, h4⟩ : (StringPiece.lit c).wellFormed q := hb _ (by simp)
    have ih := ParseString.loop_literal q hq rest ps (fun p hp => hb p (by simp [hp]))
      (result ++ [c]) (some c)
    show ParseString.loop q (c :: (literalText ps ++ q :: rest)) result ch = _
    unfold ParseString.loop
    simp only [h1, h2, h3, h4, if_false, or_self, ih, List.map_cons, StringPiece.denotes,
      List.append_assoc, List.singleton_append]
  | .esc e :: ps, hb, result, ch => by
    have he : (StringPiece.esc e).wellFormed q := hb _ (by simp)
    have hbs : ('\\' : Char) ≠ q := by rcases hq with h | h <;> subst h <;> decide
    have ih := ParseString.loop_literal q hq rest ps (fun p hp => hb p (by simp [hp]))
      (result ++ [(StringPiece.esc e).denotes]) (some '\\')
    show ParseString.loop q ('\\' :: e :: (literalText ps ++ q :: rest)) result ch = _
    unfold ParseString.loop
    simp only [hbs, if_false, if_true, ParseString.escape_wellFormed he, ih, List.map_cons,
      List.append_assoc, List.singleton_append]

/-- C7: a literal opened and closed by the same quote `q`, with a body of
characters other than `q`, backslash, line feed and carriage return and of
recognised escape pairs, makes `ParseString` emit exactly one `String` token,
whose payload is the body with each escape pair replaced by the character it
denotes; the stream is left behind the closing quote. -/
theorem ParseString_literal (q : Char) (hq : q = '\'' ∨ q = '"') (body : List StringPiece)
    (hb : ∀ p ∈ body, p.wellFormed q) (rest : List Char) (tokens : List Token) (g : Int) :
    ParseString ⟨IStream.ofList (q :: (literalText body ++ q :: rest)), tokens, g⟩
      = .ok ⟨IStream.ofList rest, tokens ++ [Token.String (body.map StringPiece.denotes)], g⟩ := by
  have hl := ParseString.loop_literal q hq rest body hb [] none
  simp only [ParseString, IStream.ofList, IStream.peek, IStream.good, IStream.get, Bool.not_false,
    Bool.and_self, if_true, hq, hl, List.nil_append]

theorem ParseString_literal_witness :
    (('"' : Char) = '\'' ∨ ('"' : Char) = '"') ∧
      (∀ p ∈ [StringPiece.lit 'a', StringPiece.lit '\'', StringPiece.esc 'n', StringPiece.esc '"'],
        p.wellFormed '"') ∧
      ParseString ⟨IStream.ofList "\"a'\\n\\\"\" x".toList, [Token.Print], 1⟩
        = .ok ⟨IStream.ofList " x".toList, [Token.Print, Token.String ['a', '\'', '\n', '"']], 1⟩ :=
  ⟨by decide, by simp [StringPiece.wellFormed],
    ParseString_literal '"' (by decide)
      [StringPiece.lit 'a', StringPiece.lit '\'', StringPiece.esc 'n', StringPiece.esc '"']
      (by simp [StringPiece.wellFormed]) " x".toList [Token.Print] 1⟩

/-! ## Indentation -/

theorem ParseIndent.count_spaces (c : Char) (hc : c ≠ ' ') (rest : List Char) :
    ∀ (s : Nat) (ch : Char) (n : Nat),
      ParseIndent.count (List.replicate s ' ' ++ c :: rest) ch n
        = (⟨rest, false, false, false⟩, c, n + s)
  | 0, ch, n => by simp [ParseIndent.count, hc]
  | s + 1, ch, n => by
    rw [List.replicate_succ, List.cons_append, ParseIndent.count, if_pos rfl,
      ParseIndent.count_spaces c hc rest s]
    simp [Nat.add_assoc, Nat.add_comm 1 s]

theorem ParseIndent_line (g : Int) (s : Nat) (c : Char) (hc : c ≠ ' ') (hn : c ≠ '\n')
    (rest : List Char) (tokens : List Token) :
    ParseIndent ⟨IStream.ofList (List.replicate s ' ' ++ c :: rest), tokens, g⟩
      = ⟨IStream.ofList (c :: rest), (ParseIndent.adjust s tokens g).1,
          (ParseIndent.adjust s tokens g).2⟩ := by
  have hp : (IStream.ofList (List.replicate s ' ' ++ c :: rest)).peek
      = (some (List.replicate s ' ' ++ c :: rest).head!,
          IStream.ofList (List.replicate s ' ' ++ c :: rest)) := by
    cases s <;> simp [IStream.peek, IStream.ofList, IStream.good, List.replicate_succ]
  simp only [ParseIndent, hp]
  simp [IStream.ofList, ParseIndent.count_spaces c hc rest, IStream.putback, IStream.onlyEof, hn]

/-- C8: at every indent level `g` (the lexer only reaches `g >= 0`), on a line
that starts with an even number `s` of spaces followed by a character that is
neither a space nor a line feed, `ParseIndent` emits exactly `|s/2 - g|` tokens,
`Indent`s when `s > 2g` and `Dedent`s when `s < 2g`, leaves the indent level
`s/2` and the stream at the first character of the line. -/
theorem ParseIndent_even_spaces (g : Int) (s : Nat) (hs : s % 2 = 0) (c : Char)
    (hc : c ≠ ' ' ∧ c ≠ '\n') (rest : List Char) (tokens : List Token) :
    ParseIndent ⟨IStream.ofList (List.replicate s ' ' ++ c :: rest), tokens, g⟩
      = ⟨IStream.ofList (c :: rest),
          tokens ++ List.replicate (((s / 2 : Nat) : Int) - g).natAbs
            (if (s : Int) > 2 * g then Token.Indent else Token.Dedent),
          ((s / 2 : Nat) : Int)⟩ := by
  rw [ParseIndent_line g s c hc.1 hc.2]
  unfold ParseIndent.adjust SPACES_PER_INDENT
  by_cases h1 : (s : Int) > g * 2
  · have e : (((s : Int) - g * 2).toNat + 1) / 2 = (((s / 2 : Nat) : Int) - g).natAbs := by omega
    have h1' : (s : Int) > 2 * g := by omega
    rw [if_pos h1, if_pos h1', ParseIndent.emit_eq, e]
    congr 2
    omega
  · have h1' : ¬ (s : Int) > 2 * g := by omega
    rw [if_neg h1, if_neg h1']
    by_cases h2 : (s : Int) < g * 2
    · have e : ((g * 2 - (s : Int)).toNat + 1) / 2 = (((s / 2 : Nat) : Int) - g).natAbs := by omega
      rw [if_pos h2, ParseIndent.emit_eq, e]
      congr 2
      omega
    · have e : (((s / 2 : Nat) : Int) - g).natAbs = 0 := by omega
      rw [if_neg h2, e]
      simp only [List.replicate_zero, List.append_nil]
      congr 1
      omega

theorem ParseIndent_even_spaces_witness :
    2 % 2 = 0 ∧ ('y' ≠ ' ' ∧ 'y' ≠ '\n') ∧
      ParseIndent ⟨IStream.ofList "  y = 1".toList, [Token.Id ['x'], Token.Newline], 3⟩
        = ⟨IStream.ofList "y = 1".toList,
            [Token.Id ['x'], Token.Newline, Token.Dedent, Token.Dedent], 1⟩ :=
  ⟨by decide, by decide,
    ParseIndent_even_spaces 3 2 (by decide) 'y' (by decide) " = 1".toList
      [Token.Id ['x'], Token.Newline]⟩

/-! ## Keywords and identifiers -/

theorem ParseKeywords.loop_run (rest : List Char) (hr : ∀ x ∈ rest.head?, ¬ nameChar x) :
    ∀ (w : List Char), (∀ x ∈ w, nameChar x) → ∀ keyword : List Char,
      (ParseKeywords.loop (w ++ rest) keyword).1.buf = rest ∧
        (ParseKeywords.loop (w ++ rest) keyword).2 = keyword ++ w
  | [], _, keyword => by
    cases rest with
    | nil => simp [ParseKeywords.loop]
    | cons x xs =>
      have hx : ¬ nameChar x := hr x rfl
      have hx' : (isalnum x || decide (x = '_')) = false := by
        simpa [nameChar] using hx
      simp [ParseKeywords.loop, hx', IStream.putback]
  | c :: w, hw, keyword => by
    have hc : nameChar c := hw c (by simp)
    have hc' : (isalnum c || decide (c = '_')) = true := by
      simpa [nameChar] using hc
    have ih := ParseKeywords.loop_run rest hr w (fun x hx => hw x (by simp [hx])) (keyword ++ [c])
    simp only [List.cons_append, ParseKeywords.loop, hc', if_true]
    simpa using ih

theorem lookup_specKeywords (w : List Char) :
    (∀ p ∈ specKeywords, w = p.1.toList → keyword_map_.lookup w = some p.2) ∧
      ((∀ p ∈ specKeywords, w ≠ p.1.toList) → keyword_map_.lookup w = none) := by
  constructor
  · intro p hp hw
    simp only [specKeywords, List.mem_cons, List.mem_singleton, List.not_mem_nil, or_false] at hp
    rcases hp with h | h | h | h | h | h | h | h | h | h | h | h <;> subst h <;> subst hw <;> rfl
  · intro h
    have h' : ∀ p ∈ keyword_map_, (w == p.1) = false := by
      intro p hp
      simp only [keyword_map_, List.mem_cons, List.mem_singleton, List.not_mem_nil, or_false] at hp
      simp only [beq_eq_false_iff_ne, ne_eq]
      rcases hp with e | e | e | e | e | e | e | e | e | e | e | e <;> subst e
      · exact h ("class", Token.Class) (by simp [specKeywords])
      · exact h ("return", Token.Return) (by simp [specKeywords])
      · exact h ("if", Token.If) (by simp [specKeywords])
      · exact h ("else", Token.Else) (by simp [specKeywords])
      · exact h ("def", Token.Def) (by simp [specKeywords])
      · exact h ("print", Token.Print) (by simp [specKeywords])
      · exact h ("and", Token.And) (by simp [specKeywords])
      · exact h ("or", Token.Or) (by simp [specKeywords])
      · exact h ("not", Token.Not) (by simp [specKeywords])
      · exact h ("None", Token.None) (by simp [specKeywords])
      · exact h ("True", Token.True) (by simp [specKeywords])
      · exact h ("False", Token.False) (by simp [specKeywords])
    have gen : ∀ l : List (List Char × Token), (∀ p ∈ l, (w == p.1) = false) →
        l.lookup w = none := by
      intro l
      induction l with
      | nil => intro _; rfl
      | cons p l ih =>
        intro hl
        obtain ⟨k, v⟩ := p
        rw [List.lookup_cons, hl (k, v) (by simp)]
        exact ih (fun q hq => hl q (by simp [hq]))
    exact gen _ h'

/-- C9: on a maximal run `w` of name characters that starts with a letter or an
underscore, `ParseKeywords` consumes exactly `w` and emits one token: the
keyword token of `w` when `w` is one of the twelve keywords of the table, and
`Id w` when it is none of them. -/
theorem ParseKeywords_lexeme (c : Char) (w rest : List Char) (hc : nameStart c)
    (hw : ∀ x ∈ w, nameChar x) (hr : ∀ x ∈ rest.head?, ¬ nameChar x)
    (tokens : List Token) (g : Int) :
    ∃ t, (ParseKeywords ⟨IStream.ofList (c :: w ++ rest), tokens, g⟩).tokens_ = tokens ++ [t] ∧
      (ParseKeywords ⟨IStream.ofList (c :: w ++ rest), tokens, g⟩).input.buf = rest ∧
      (ParseKeywords ⟨IStream.ofList (c :: w ++ rest), tokens, g⟩).global_indent_counter_ = g ∧
      (∀ p ∈ specKeywords, c :: w = p.1.toList → t = p.2) ∧
      ((∀ p ∈ specKeywords, c :: w ≠ p.1.toList) → t = Token.Id (c :: w)) := by
  have hc' : (isalpha c || decide (c = '_')) = true := by
    simpa [nameStart] using hc
  have hcw : ∀ x ∈ c :: w, nameChar x := by
    intro x hx
    rcases List.mem_cons.1 hx with h | h
    · subst h
      rcases hc with h | h
      · exact Or.inl (by simp [isalnum, h])
      · exact Or.inr h
    · exact hw x h
  obtain ⟨h1, h2⟩ := ParseKeywords.loop_run rest hr (c :: w) hcw []
  obtain ⟨k1, k2⟩ := lookup_specKeywords (c :: w)
  have hloop : ParseKeywords.loop (c :: (w ++ rest)) []
      = ((ParseKeywords.loop (c :: (w ++ rest)) []).1, c :: w) := by
    rw [← List.cons_append]
    exact Prod.ext rfl (by simpa using h2)
  have h1' : (ParseKeywords.loop (c :: (w ++ rest)) []).1.buf = rest := by
    rw [← List.cons_append]; exact h1
  simp only [ParseKeywords, IStream.ofList, IStream.peek, IStream.good, Bool.not_false,
    Bool.and_self, if_true, List.cons_append, hc']
  rw [hloop]
  dsimp only
  cases hk : keyword_map_.lookup (c :: w) with
  | none =>
    refine ⟨Token.Id (c :: w), rfl, h1', rfl, ?_, fun _ => rfl⟩
    intro p hp e
    rw [k1 p hp e] at hk
    cases hk
  | some t =>
    refine ⟨t, rfl, h1', rfl, ?_, ?_⟩
    · intro p hp e
      rw [k1 p hp e] at hk
      exact (Option.some.inj hk).symm
    · intro hn
      rw [k2 hn] at hk
      cases hk

theorem ParseKeywords_lexeme_witness :
    nameStart 'c' ∧ (∀ x ∈ "lasses".toList, nameChar x) ∧
      (∀ x ∈ " = 1".toList.head?, ¬ nameChar x) ∧
      ∃ t, (ParseKeywords ⟨IStream.ofList ('c' :: "lasses".toList ++ " = 1".toList), [], 0⟩).tokens_
          = [] ++ [t] ∧
        (ParseKeywords ⟨IStream.ofList ('c' :: "lasses".toList ++ " = 1".toList), [], 0⟩).input.buf
          = " = 1".toList ∧
        (ParseKeywords
          ⟨IStream.ofList ('c' :: "lasses".toList ++ " = 1".toList), [], 0⟩).global_indent_counter_
          = 0 ∧
        (∀ p ∈ specKeywords, 'c' :: "lasses".toList = p.1.toList → t = p.2) ∧
        ((∀ p ∈ specKeywords, 'c' :: "lasses".toList ≠ p.1.toList)
          → t = Token.Id ('c' :: "lasses".toList)) :=
  ⟨by decide, by decide, by decide,
    ParseKeywords_lexeme 'c' "lasses".toList " = 1".toList (by decide) (by decide) (by decide) [] 0⟩

/-! ## The token cursor -/

theorem Lexer.advance_eq (toks : List Token) (hne : toks ≠ []) :
    ∀ k, Lexer.advance k ⟨toks, 0⟩ = ⟨toks, min k (toks.length - 1)⟩
  | 0 => by simp [Lexer.advance]
  | k + 1 => by
    have hlen : 0 < toks.length := List.length_pos.2 hne
    rw [Lexer.advance, Lexer.advance_eq toks hne k]
    unfold Lexer.NextToken
    dsimp only
    split
    · rename_i h
      dsimp only at h ⊢
      congr 1
      omega
    · rename_i h
      dsimp only at h ⊢
      congr 1
      omega

theorem Lexer.NextToken_fst (toks : List Token) (hne : toks ≠ []) (i : Nat)
    (hi : i ≤ toks.length - 1) :
    (Lexer.NextToken ⟨toks, i⟩).1 = toks[min (i + 1) (toks.length - 1)]? := by
  have hlen : 0 < toks.length := List.length_pos.2 hne
  unfold Lexer.NextToken
  dsimp only
  split
  · rename_i h
    have : min (i + 1) (toks.length - 1) = i := by omega
    rw [this]
  · rename_i h
    have : min (i + 1) (toks.length - 1) = i + 1 := by omega
    rw [this]

theorem getLast?_eq_getElem? (toks : List Token) : toks.getLast? = toks[toks.length - 1]? := by
  induction toks using List.reverseRecOn with
  | nil => rfl
  | append_singleton l a _ => simp

/-- C10: for a lexer that tokenization has built, with tokens `t_0 .. t_n`, after
`k` calls of `NextToken` the current token is `t_min(k,n)`, the next call
returns `t_min(k+1,n)`, `t_n` is `Eof`, and from `k >= n` on `CurrentToken` is
`Eof` and `NextToken` returns `Eof`. -/
theorem NextToken_clamps_at_Eof (fuel : Nat) (input : IStream) (lx : Lexer)
    (h : ParseInputStream fuel input = some (.ok lx)) (k : Nat) :
    (Lexer.advance k lx).CurrentToken = lx.tokens_[min k (lx.tokens_.length - 1)]? ∧
      (Lexer.advance k lx).NextToken.1 = lx.tokens_[min (k + 1) (lx.tokens_.length - 1)]? ∧
      (Lexer.advance (k + 1) lx).CurrentToken = (Lexer.advance k lx).NextToken.1 ∧
      lx.tokens_[lx.tokens_.length - 1]? = some Token.Eof ∧
      (lx.tokens_.length - 1 ≤ k →
        (Lexer.advance k lx).CurrentToken = some Token.Eof ∧
          (Lexer.advance k lx).NextToken.1 = some Token.Eof) := by
  obtain ⟨st, -, -, rfl⟩ := ParseInputStream_ok h
  have hne : ParseInputStream.finish st ≠ [] := by
    rw [ParseInputStream.finish_eq]; simp
  have hlast : (ParseInputStream.finish st)[(ParseInputStream.finish st).length - 1]?
      = some Token.Eof := by
    rw [← getLast?_eq_getElem?, ParseInputStream.finish_eq]; simp
  have hcur : ∀ j, (Lexer.advance j ⟨ParseInputStream.finish st, 0⟩).CurrentToken
      = (ParseInputStream.finish st)[min j ((ParseInputStream.finish st).length - 1)]? := by
    intro j
    rw [Lexer.advance_eq _ hne]
    rfl
  have hnext : (Lexer.advance k ⟨ParseInputStream.finish st, 0⟩).NextToken.1
      = (ParseInputStream.finish st)[min (k + 1) ((ParseInputStream.finish st).length - 1)]? := by
    rw [Lexer.advance_eq _ hne, Lexer.NextToken_fst _ hne _ (Nat.min_le_right _ _)]
    congr 1
    omega
  refine ⟨hcur k, hnext, ?_, hlast, fun hk => ⟨?_, ?_⟩⟩
  · rw [hcur (k + 1), hnext]
  · rw [hcur k, Nat.min_eq_right hk, hlast]
  · dsimp only at hk
    rw [hnext, Nat.min_eq_right (by omega), hlast]

theorem NextToken_clamps_at_Eof_witness :
    ParseInputStream 3 (IStream.ofList "x".toList)
        = some (.ok ⟨[Token.Id ['x'], Token.Newline, Token.Eof], 0⟩) ∧
      ((Lexer.advance 5 ⟨[Token.Id ['x'], Token.Newline, Token.Eof], 0⟩).CurrentToken
          = ([Token.Id ['x'], Token.Newline, Token.Eof] : List Token)[min 5 (3 - 1)]? ∧
        (Lexer.advance 5 ⟨[Token.Id ['x'], Token.Newline, Token.Eof], 0⟩).NextToken.1
          = ([Token.Id ['x'], Token.Newline, Token.Eof] : List Token)[min (5 + 1) (3 - 1)]? ∧
        (Lexer.advance (5 + 1) ⟨[Token.Id ['x'], Token.Newline, Token.Eof], 0⟩).CurrentToken
          = (Lexer.advance 5 ⟨[Token.Id ['x'], Token.Newline, Token.Eof], 0⟩).NextToken.1 ∧
        ([Token.Id ['x'], Token.Newline, Token.Eof] : List Token)[3 - 1]? = some Token.Eof ∧
        (3 - 1 ≤ 5 →
          (Lexer.advance 5 ⟨[Token.Id ['x'], Token.Newline, Token.Eof], 0⟩).CurrentToken
              = some Token.Eof ∧
            (Lexer.advance 5 ⟨[Token.Id ['x'], Token.Newline, Token.Eof], 0⟩).NextToken.1
              = some Token.Eof)) :=
  ⟨rfl, NextToken_clamps_at_Eof 3 (IStream.ofList "x".toList)
    ⟨[Token.Id ['x'], Token.Newline, Token.Eof], 0⟩ rfl 5⟩

/-! ## Malformed string literals -/

theorem ParseString.loop_body (q : Char) (hq : q = '\'' ∨ q = '"') (tail : List Char) :
    ∀ (body : List StringPiece), (∀ p ∈ body, p.wellFormed q) →
      ∀ (result : List Char) (ch : Option Char),
        ∃ ch', (ch' = ch ∧ body = [] ∨ ∃ c, ch' = some c ∧ c ≠ q) ∧
          ParseString.loop q (literalText body ++ tail) result ch
            = ParseString.loop q tail (result ++ body.map StringPiece.denotes) ch'
  | [], _, result, ch => ⟨ch, Or.inl ⟨rfl, rfl⟩, by simp [literalText]⟩
  | .lit c :: ps, hb, result, ch => by
    obtain ⟨h1, h2, h3, h4⟩ : (StringPiece.lit c).wellFormed q := hb _ (by simp)
    obtain ⟨ch', hch, ih⟩ := ParseString.loop_body q hq tail ps
      (fun p hp => hb p (by simp [hp])) (result ++ [c]) (some c)
    refine ⟨ch', Or.inr ?_, ?_⟩
    · rcases hch with ⟨e, -⟩ | h
      · exact ⟨c, e, h1⟩
      · exact h
    · show ParseString.loop q (c :: (literalText ps ++ tail)) result ch = _
      rw [ParseString.loop.eq_def]
      simp only [h1, h2, h3, h4, if_false, or_self, ih, List.map_cons, StringPiece.denotes,
        List.append_assoc, List.singleton_append]
  | .esc e :: ps, hb, result, ch => by
    have he : (StringPiece.esc e).wellFormed q := hb _ (by simp)
    have hbs : ('\\' : Char) ≠ q := by rcases hq with h | h <;> subst h <;> decide
    obtain ⟨ch', hch, ih⟩ := ParseString.loop_body q hq tail ps
      (fun p hp => hb p (by simp [hp])) (result ++ [(StringPiece.esc e).denotes]) (some '\\')
    refine ⟨ch', Or.inr ?_, ?_⟩
    · rcases hch with ⟨e', -⟩ | h
      · exact ⟨'\\', e', hbs⟩
      · exact h
    · show ParseString.loop q ('\\' :: e :: (literalText ps ++ tail)) result ch = _
      rw [ParseString.loop.eq_def]
      simp only [hbs, if_false, if_true, ParseString.escape_wellFormed he, ih, List.map_cons,
        List.append_assoc, List.singleton_append]

theorem ParseString_open (q : Char) (hq : q = '\'' ∨ q = '"') (cs : List Char)
    (tokens : List Token) (g : Int) :
    ParseString ⟨IStream.ofList (q :: cs), tokens, g⟩
      = match ParseString.loop q cs [] none with
        | .error e => .error e
        | .ok (_, _, none) => .error LexException.indeterminate_read
        | .ok (input, result, some ch) =>
          if q = ch then .ok ⟨input, tokens ++ [Token.String result], g⟩
          else .error LexException.LexerError := by
  simp only [ParseString, IStream.ofList, IStream.peek, IStream.good, IStream.get, Bool.not_false,
    Bool.and_self, if_true, hq]

/-- An unknown escape behind a well-formed part of the body of a literal makes
`ParseString` throw `std::logic_error`. -/
theorem ParseString_bad_escape (q : Char) (hq : q = '\'' ∨ q = '"') (body : List StringPiece)
    (hb : ∀ p ∈ body, p.wellFormed q) (e : Char) (he : ParseString.escape e = none)
    (rest : List Char) (tokens : List Token) (g : Int) :
    ParseString ⟨IStream.ofList (q :: (literalText body ++ '\\' :: e :: rest)), tokens, g⟩
      = .error LexException.logic_error := by
  have hbs : ('\\' : Char) ≠ q := by rcases hq with h | h <;> subst h <;> decide
  obtain ⟨ch', -, hl⟩ := ParseString.loop_body q hq ('\\' :: e :: rest) body hb [] none
  rw [ParseString_open q hq, hl, ParseString.loop.eq_def]
  simp only [hbs, if_false, if_true, he]

/-- A literal with a well-formed part of the body that is cut by a line feed or
a carriage return, by the end of the input right behind a backslash, or by the
end of the input behind at least one piece, makes `ParseString` throw
`LexerError`. -/
theorem ParseString_unterminated (q : Char) (hq : q = '\'' ∨ q = '"') (body : List StringPiece)
    (hb : ∀ p ∈ body, p.wellFormed q) (tokens : List Token) (g : Int) :
    (∀ rest, ParseString ⟨IStream.ofList (q :: (literalText body ++ '\n' :: rest)), tokens, g⟩
        = .error LexException.LexerError) ∧
      (∀ rest, ParseString ⟨IStream.ofList (q :: (literalText body ++ '\r' :: rest)), tokens, g⟩
        = .error LexException.LexerError) ∧
      ParseString ⟨IStream.ofList (q :: (literalText body ++ ['\\'])), tokens, g⟩
        = .error LexException.LexerError ∧
      (body ≠ [] → ParseString ⟨IStream.ofList (q :: literalText body), tokens, g⟩
        = .error LexException.LexerError) := by
  have hbs : ('\\' : Char) ≠ q := by rcases hq with h | h <;> subst h <;> decide
  have hnl : ('\n' : Char) ≠ q := by rcases hq with h | h <;> subst h <;> decide
  have hcr : ('\r' : Char) ≠ q := by rcases hq with h | h <;> subst h <;> decide
  refine ⟨fun rest => ?_, fun rest => ?_, ?_, fun hne => ?_⟩
  · obtain ⟨ch', -, hl⟩ := ParseString.loop_body q hq ('\n' :: rest) body hb [] none
    rw [ParseString_open q hq, hl, ParseString.loop.eq_def]
    simp [hnl]
  · obtain ⟨ch', -, hl⟩ := ParseString.loop_body q hq ('\r' :: rest) body hb [] none
    rw [ParseString_open q hq, hl, ParseString.loop.eq_def]
    simp [hcr]
  · obtain ⟨ch', -, hl⟩ := ParseString.loop_body q hq ['\\'] body hb [] none
    rw [ParseString_open q hq, hl, ParseString.loop.eq_def]
    simp [hbs]
  · obtain ⟨ch', hch, hl⟩ := ParseString.loop_body q hq [] body hb [] none
    rw [List.append_nil] at hl
    rw [ParseString_open q hq, hl, ParseString.loop.eq_def]
    rcases hch with ⟨-, h⟩ | ⟨c, rfl, hc⟩
    · exact absurd h hne
    · simp [Ne.symm hc]

end parse

/-! ### Characters no scanner takes -/

namespace parse

theorem ParseInputStream.loop_mono : ∀ (fuel : Nat) (st : LexState) (r : Except LexException LexState),
    ParseInputStream.loop fuel st = some r → ParseInputStream.loop (fuel + 1) st = some r
  | 0, _, _, h => by simp [ParseInputStream.loop] at h
  | fuel + 1, st, r, h => by
    rw [ParseInputStream.loop] at h ⊢
    by_cases hf : st.input.fail = true
    · simpa [hf] using h
    · simp only [hf, if_false] at h ⊢
      cases hb : ParseInputStream.body st with
      | error e => simpa [hb] using h
      | ok st' =>
        rw [hb] at h
        exact ParseInputStream.loop_mono fuel st' r h

theorem ParseInputStream.loop_stuck (st : LexState) (hf : st.input.fail = false)
    (hb : ParseInputStream.body st = .ok st) : ∀ fuel, ParseInputStream.loop fuel st = none
  | 0 => rfl
  | fuel + 1 => by
    rw [ParseInputStream.loop]
    simp only [hf, hb, Bool.false_eq_true, if_false]
    exact ParseInputStream.loop_stuck st hf hb fuel

/-- C28, refuted: with a tab or a carriage return as the next character, one
round of the main loop of `ParseInputStream` consumes nothing, emits nothing and
throws nothing, so that the loop never ends: on the inputs `"\t"` and `"x\t"` the
tokenization returns for no amount of fuel. -/
theorem ParseInputStream_tab_never_returns :
    (∀ (rest : List Char) (tokens : List Token) (g : Int),
        ParseInputStream.body ⟨IStream.ofList ('\t' :: rest), tokens, g⟩
          = .ok ⟨IStream.ofList ('\t' :: rest), tokens, g⟩) ∧
      (∀ (rest : List Char) (tokens : List Token) (g : Int),
        ParseInputStream.body ⟨IStream.ofList ('\r' :: rest), tokens, g⟩
          = .ok ⟨IStream.ofList ('\r' :: rest), tokens, g⟩) ∧
      (∀ fuel, ParseInputStream fuel (IStream.ofList "\t".toList) = none) ∧
      (∀ fuel, ParseInputStream fuel (IStream.ofList "x\t".toList) = none) := by
  have ht : ∀ (rest : List Char) (tokens : List Token) (g : Int),
      ParseInputStream.body ⟨IStream.ofList ('\t' :: rest), tokens, g⟩
        = .ok ⟨IStream.ofList ('\t' :: rest), tokens, g⟩ := fun _ _ _ => rfl
  refine ⟨ht, fun _ _ _ => rfl, ?_, ?_⟩
  · intro fuel
    have h := ParseInputStream.loop_stuck ⟨IStream.ofList ['\t'], [], 0⟩ rfl (ht [] [] 0) fuel
    have hs : ParseInputStream.start (IStream.ofList "\t".toList)
        = ⟨IStream.ofList ['\t'], [], 0⟩ := rfl
    simp only [ParseInputStream, hs, h]
  · intro fuel
    cases fuel with
    | zero => rfl
    | succ fuel =>
      have h := ParseInputStream.loop_stuck ⟨IStream.ofList ['\t'], [Token.Id ['x']], 0⟩ rfl
        (ht [] _ 0) fuel
      have hs : ParseInputStream.loop (fuel + 1) (ParseInputStream.start (IStream.ofList "x\t".toList))
          = ParseInputStream.loop fuel ⟨IStream.ofList ['\t'], [Token.Id ['x']], 0⟩ := rfl
      simp only [ParseInputStream, hs, h]

/-! ### A quote behind a name or a literal -/

/-- C30, refuted: the quote behind the name `x` is taken by `ParseChars` as the
punctuation token `Char{'}` and `a` becomes a name, where `x 'a'` gives the name
and one `String` token; and the second of the two adjacent literals `'a''b'`
is lexed as `Char{'}`, `Id{b}`, `Char{'}`, where `'a' 'b'` gives two `String`
tokens. -/
theorem ParseInputStream_quote_behind_name :
    ParseInputStream 9 (IStream.ofList "x'a'".toList)
        = some (.ok ⟨[Token.Id ['x'], Token.Char '\'', Token.Id ['a'], Token.Char '\'',
            Token.Newline, Token.Eof], 0⟩) ∧
      ParseInputStream 9 (IStream.ofList "x 'a'".toList)
        = some (.ok ⟨[Token.Id ['x'], Token.String ['a'], Token.Newline, Token.Eof], 0⟩) ∧
      ParseInputStream 9 (IStream.ofList "'a''b'".toList)
        = some (.ok ⟨[Token.String ['a'], Token.Char '\'', Token.Id ['b'], Token.Char '\'',
            Token.Newline, Token.Eof], 0⟩) ∧
      ParseInputStream 9 (IStream.ofList "'a' 'b'".toList)
        = some (.ok ⟨[Token.String ['a'], Token.String ['b'], Token.Newline, Token.Eof], 0⟩) ∧
      ParseInputStream 9 (IStream.ofList "print\"a\"".toList)
        = some (.ok ⟨[Token.Print, Token.Char '"', Token.Id ['a'], Token.Char '"',
            Token.Newline, Token.Eof], 0⟩) :=
  ⟨rfl, rfl, rfl, rfl, rfl⟩

/-! ### Blank lines -/

theorem IStream.peek_cons (c : Char) (cs : List Char) :
    IStream.peek ⟨c :: cs, false, false, false⟩ = (some c, ⟨c :: cs, false, false, false⟩) := rfl

theorem IStream.get_cons (c : Char) (cs : List Char) :
    IStream.get ⟨c :: cs, false, false, false⟩ = (some c, ⟨cs, false, false, false⟩) := rfl

theorem IStream.putback_good (c : Char) (cs : List Char) :
    IStream.putback ⟨cs, false, false, false⟩ c = ⟨c :: cs, false, false, false⟩ := rfl

theorem LexState.before_cons (rest : List Char) (c : Char) (cs : List Char) (T : List Token)
    (g : Int) :
    LexState.before rest (c :: cs, T, g) = ⟨⟨c :: (cs ++ '\n' :: rest), false, false, false⟩, T, g⟩ :=
  rfl

theorem TrimSpaces.loop_local : ∀ cs : List Char, ∃ cs' : List Char, ∀ rest,
    TrimSpaces.loop (cs ++ '\n' :: rest) = ⟨cs' ++ '\n' :: rest, false, false, false⟩
  | [] => ⟨[], fun rest => by simp [TrimSpaces.loop]⟩
  | c :: cs => by
    by_cases h : c = ' '
    · obtain ⟨cs', h'⟩ := TrimSpaces.loop_local cs
      exact ⟨cs', fun rest => by simp [TrimSpaces.loop, h, h']⟩
    · exact ⟨c :: cs, fun rest => by simp [TrimSpaces.loop, h]⟩

theorem TrimSpaces_local (x : List Char × List Token × Int) :
    ∃ y, ∀ rest, ({ LexState.before rest x with
        input := TrimSpaces (LexState.before rest x).input } : LexState)
      = LexState.before rest y := by
  obtain ⟨cs, T, g⟩ := x
  obtain ⟨cs', h⟩ := TrimSpaces.loop_local cs
  exact ⟨(cs', T, g), fun rest => by simp [LexState.before, TrimSpaces, IStream.good, h]⟩

theorem ParseString.loop_unfold (q c : Char) (cs result : List Char) (ch : Option Char) :
    ParseString.loop q (c :: cs) result ch
      = if c = q then .ok (⟨cs, false, false, false⟩, result, some c)
        else if c = '\\' then
          match cs with
          | [] => .error LexException.LexerError
          | esc_ch :: cs =>
            match ParseString.escape esc_ch with
            | some e => ParseString.loop q cs (result ++ [e]) (some c)
            | none => .error LexException.logic_error
        else if c = '\n' ∨ c = '\r' then .error LexException.LexerError
        else ParseString.loop q cs (result ++ [c]) (some c) := by
  conv_lhs => unfold ParseString.loop

theorem ParseString.loop_local_string (q : Char) (hq : q = '\'' ∨ q = '"') :
    ∀ (cs result : List Char) (ch : Option Char),
      ∃ o : Except LexException (List Char × List Char × Option Char), ∀ rest,
        ParseString.loop q (cs ++ '\n' :: rest) result ch
          = o.map fun y => (⟨y.1 ++ '\n' :: rest, false, false, false⟩, y.2.1, y.2.2)
  | [], result, ch => ⟨.error .LexerError, fun rest => by
      have h1 : ¬ '\n' = q := by rcases hq with h | h <;> subst h <;> decide
      simp [ParseString.loop_unfold, h1, Except.map]⟩
  | [c], result, ch => by
    have h0 : ¬ '\n' = q := by rcases hq with h | h <;> subst h <;> decide
    by_cases h1 : c = q
    · exact ⟨.ok ([], result, some c), fun rest => by
        simp [ParseString.loop_unfold, h1, Except.map]⟩
    · by_cases h2 : c = '\\'
      · exact ⟨.error .logic_error, fun rest => by
          have h3 : ¬ '\\' = q := fun e => h1 (h2.trans e)
          subst h2
          simp [ParseString.loop_unfold, h3, ParseString.escape, Except.map]⟩
      · exact ⟨.error .LexerError, fun rest => by
          by_cases h3 : c = '\n' ∨ c = '\r'
          · simp [ParseString.loop_unfold, h1, h2, h3, Except.map]
          · simp [ParseString.loop_unfold, h0, h1, h2, h3, Except.map]⟩
  | c :: e :: cs, result, ch => by
    by_cases h1 : c = q
    · exact ⟨.ok (e :: cs, result, some c), fun rest => by
        simp [ParseString.loop_unfold, h1, Except.map]⟩
    · by_cases h2 : c = '\\'
      · have h3 : ¬ '\\' = q := fun e => h1 (h2.trans e)
        cases he : ParseString.escape e with
        | none => exact ⟨.error .logic_error, fun rest => by
            subst h2
            simp [ParseString.loop_unfold, h3, he, Except.map]⟩
        | some x =>
          obtain ⟨o, ho⟩ := ParseString.loop_local_string q hq cs (result ++ [x]) (some c)
          exact ⟨o, fun rest => by
            rw [← ho rest]
            subst h2
            simp [ParseString.loop_unfold, h3, he]⟩
      · by_cases h3 : c = '\n' ∨ c = '\r'
        · exact ⟨.error .LexerError, fun rest => by
            simp [ParseString.loop_unfold, h1, h2, h3, Except.map]⟩
        · obtain ⟨o, ho⟩ := ParseString.loop_local_string q hq (e :: cs) (result ++ [c]) (some c)
          exact ⟨o, fun rest => by
            rw [← ho rest]
            rw [List.cons_append, ParseString.loop_unfold]
            simp only [h1, h2, h3, if_false]⟩

theorem ParseString_local (x : List Char × List Token × Int) :
    ∃ o : Except LexException (List Char × List Token × Int), ∀ rest,
      ParseString (LexState.before rest x) = o.map (LexState.before rest) := by
  obtain ⟨cs, T, g⟩ := x
  cases cs with
  | nil => exact ⟨.ok ([], T, g), fun rest => rfl⟩
  | cons c cs =>
    by_cases hq : c = '\'' ∨ c = '"'
    · obtain ⟨o, ho⟩ := ParseString.loop_local_string c hq cs [] none
      have hP : ∀ rest, ParseString (LexState.before rest (c :: cs, T, g))
          = match ParseString.loop c (cs ++ '\n' :: rest) [] none with
            | .error e => .error e
            | .ok (_, _, none) => .error LexException.indeterminate_read
            | .ok (input, result, some ch) =>
              if c = ch then .ok ⟨input, T ++ [Token.String result], g⟩
              else .error LexException.LexerError := by
        intro rest
        simp only [ParseString, LexState.before_cons, IStream.peek_cons, IStream.get_cons,
          IStream.putback_good, hq, if_true, if_false]
      cases o with
      | error e => exact ⟨.error e, fun rest => by rw [hP, ho]; rfl⟩
      | ok y =>
        obtain ⟨cs', result, ch⟩ := y
        cases ch with
        | none => exact ⟨.error .indeterminate_read, fun rest => by rw [hP, ho]; rfl⟩
        | some ch =>
          by_cases hc : c = ch
          · exact ⟨.ok (cs', T ++ [Token.String result], g), fun rest => by
              rw [hP, ho]; simp [Except.map, hc, LexState.before]⟩
          · exact ⟨.error .LexerError, fun rest => by
              rw [hP, ho]; simp [Except.map, hc]⟩
    · exact ⟨.ok (c :: cs, T, g), fun rest => by
        simp only [ParseString, LexState.before_cons, IStream.peek_cons, IStream.get_cons,
          IStream.putback_good, hq, if_true, if_false]
        rfl⟩

theorem ParseKeywords.loop_local_name : ∀ (cs keyword : List Char),
    ∃ (cs' keyword' : List Char), ∀ rest,
      ParseKeywords.loop (cs ++ '\n' :: rest) keyword
        = (⟨cs' ++ '\n' :: rest, false, false, false⟩, keyword')
  | [], keyword => ⟨[], keyword, fun rest => rfl⟩
  | c :: cs, keyword => by
    by_cases h : (isalnum c || c = '_') = true
    · obtain ⟨cs', keyword', h'⟩ := ParseKeywords.loop_local_name cs (keyword ++ [c])
      exact ⟨cs', keyword', fun rest => by
        rw [← h' rest, List.cons_append, ParseKeywords.loop, if_pos h]⟩
    · exact ⟨c :: cs, keyword, fun rest => by
        rw [List.cons_append, ParseKeywords.loop, if_neg h]
        rfl⟩

theorem ParseKeywords_local (x : List Char × List Token × Int) :
    ∃ y, ∀ rest, ParseKeywords (LexState.before rest x) = LexState.before rest y := by
  obtain ⟨cs, T, g⟩ := x
  cases cs with
  | nil => exact ⟨([], T, g), fun rest => rfl⟩
  | cons c cs =>
    by_cases h : (isalpha c || c = '_') = true
    · obtain ⟨cs', keyword, hl⟩ := ParseKeywords.loop_local_name (c :: cs) []
      have hP : ∀ rest, ParseKeywords (LexState.before rest (c :: cs, T, g))
          = match keyword_map_.lookup keyword with
            | some tok => ⟨⟨cs' ++ '\n' :: rest, false, false, false⟩, T ++ [tok], g⟩
            | none => ⟨⟨cs' ++ '\n' :: rest, false, false, false⟩, T ++ [Token.Id keyword], g⟩ := by
        intro rest
        have := hl rest
        simp only [List.cons_append] at this
        simp only [ParseKeywords, LexState.before_cons, IStream.peek_cons, h, if_true, this]
      cases hk : keyword_map_.lookup keyword with
      | none => exact ⟨(cs', T ++ [Token.Id keyword], g), fun rest => by rw [hP, hk]; rfl⟩
      | some tok => exact ⟨(cs', T ++ [tok], g), fun rest => by rw [hP, hk]; rfl⟩
    · exact ⟨(c :: cs, T, g), fun rest => by
        simp only [ParseKeywords, LexState.before_cons, IStream.peek_cons, h, if_false]
        simp⟩

theorem ParseNumbers.loop_local_digits : ∀ (cs result : List Char),
    ∃ (cs' result' : List Char), ∀ rest,
      ParseNumbers.loop (cs ++ '\n' :: rest) result
        = (⟨cs' ++ '\n' :: rest, false, false, false⟩, result')
  | [], result => ⟨[], result, fun rest => rfl⟩
  | c :: cs, result => by
    by_cases h : isdigit c = true
    · obtain ⟨cs', result', h'⟩ := ParseNumbers.loop_local_digits cs (result ++ [c])
      exact ⟨cs', result', fun rest => by
        rw [← h' rest, List.cons_append, ParseNumbers.loop, if_pos h]⟩
    · exact ⟨c :: cs, result, fun rest => by
        rw [List.cons_append, ParseNumbers.loop, if_neg h]
        rfl⟩

theorem ParseNumbers_local (x : List Char × List Token × Int) :
    ∃ o : Except LexException (List Char × List Token × Int), ∀ rest,
      ParseNumbers (LexState.before rest x) = o.map (LexState.before rest) := by
  obtain ⟨cs, T, g⟩ := x
  cases cs with
  | nil => exact ⟨.ok ([], T, g), fun rest => rfl⟩
  | cons c cs =>
    by_cases h : isdigit c = true
    · obtain ⟨cs', result, hl⟩ := ParseNumbers.loop_local_digits (c :: cs) []
      have hP : ∀ rest, ParseNumbers (LexState.before rest (c :: cs, T, g))
          = if stoiValue result ≤ 2147483647 then
              .ok ⟨⟨cs' ++ '\n' :: rest, false, false, false⟩,
                T ++ [Token.Number (stoiValue result)], g⟩
            else .error LexException.out_of_range := by
        intro rest
        have := hl rest
        simp only [List.cons_append] at this
        simp only [ParseNumbers, LexState.before_cons, IStream.peek_cons, h, if_true, this]
      by_cases hs : stoiValue result ≤ 2147483647
      · exact ⟨.ok (cs', T ++ [Token.Number (stoiValue result)], g), fun rest => by
          rw [hP, if_pos hs]; rfl⟩
      · exact ⟨.error .out_of_range, fun rest => by rw [hP, if_neg hs]; rfl⟩
    · exact ⟨.ok (c :: cs, T, g), fun rest => by
        simp only [ParseNumbers, LexState.before_cons, IStream.peek_cons, h, if_false]
        rfl⟩

theorem IStream.getlineLoop_local : ∀ cs : List Char, ∃ cs' : List Char, ∀ rest,
    (IStream.getlineLoop (cs ++ '\n' :: rest)).onlyEof = false ∧
      (IStream.getlineLoop (cs ++ '\n' :: rest)).putback '\n'
        = ⟨cs' ++ '\n' :: rest, false, false, false⟩
  | [] => ⟨[], fun rest => ⟨rfl, rfl⟩⟩
  | c :: cs => by
    by_cases h : c = '\n'
    · exact ⟨'\n' :: cs, fun rest => by
        rw [List.cons_append, IStream.getlineLoop, if_pos h]
        exact ⟨rfl, rfl⟩⟩
    · obtain ⟨cs', h'⟩ := IStream.getlineLoop_local cs
      exact ⟨cs', fun rest => by
        rw [List.cons_append, IStream.getlineLoop, if_neg h]
        exact h' rest⟩

theorem ParseComments_hash (tl : List Char) :
    ParseComments ⟨'#' :: tl, false, false, false⟩
      = if (IStream.getlineLoop tl).onlyEof then IStream.getlineLoop tl
        else (IStream.getlineLoop tl).putback '\n' := rfl

theorem ParseChars.cond_cons (ch c n : Char) (tl : List Char) :
    ParseChars.cond ch c ⟨n :: tl, false, false, false⟩
      = (decide (ch = c) && decide (n = '='), ⟨n :: tl, false, false, false⟩) := by
  unfold ParseChars.cond
  by_cases h : ch = c
  · by_cases hn : n = '=' <;> simp [h, hn, IStream.peek_cons]
  · simp [h]

theorem ParseChars_cons (c n : Char) (tl : List Char) (T : List Token) (g : Int) :
    ParseChars ⟨⟨c :: n :: tl, false, false, false⟩, T, g⟩
      = if ispunct c then
          if c = '#' then ⟨ParseComments ⟨c :: n :: tl, false, false, false⟩, T, g⟩
          else if n = '=' ∧ c = '=' then ⟨⟨tl, false, false, false⟩, T ++ [Token.Eq], g⟩
          else if n = '=' ∧ c = '!' then ⟨⟨tl, false, false, false⟩, T ++ [Token.NotEq], g⟩
          else if n = '=' ∧ c = '>' then ⟨⟨tl, false, false, false⟩, T ++ [Token.GreaterOrEq], g⟩
          else if n = '=' ∧ c = '<' then ⟨⟨tl, false, false, false⟩, T ++ [Token.LessOrEq], g⟩
          else ⟨⟨n :: tl, false, false, false⟩, T ++ [Token.Char c], g⟩
        else ⟨⟨c :: n :: tl, false, false, false⟩, T, g⟩ := by
  by_cases hp : ispunct c = true
  · by_cases hh : c = '#'
    · simp [ParseChars, IStream.peek_cons, IStream.get_cons, IStream.putback_good, hp, hh]
    · by_cases hn : n = '='
      · by_cases h1 : c = '='
        · subst hn h1; rfl
        · by_cases h2 : c = '!'
          · subst hn h2; rfl
          · by_cases h3 : c = '>'
            · subst hn h3; rfl
            · by_cases h4 : c = '<'
              · subst hn h4; rfl
              · simp [ParseChars, IStream.peek_cons, IStream.get_cons, ParseChars.cond_cons,
                  hp, hh, hn, h1, h2, h3, h4]
      · simp [ParseChars, IStream.peek_cons, IStream.get_cons, ParseChars.cond_cons, hp, hh, hn]
  · simp [ParseChars, IStream.peek_cons, IStream.get_cons, IStream.putback_good, hp]

theorem ParseChars_local (x : List Char × List Token × Int) :
    ∃ y, ∀ rest, ParseChars (LexState.before rest x) = LexState.before rest y := by
  obtain ⟨cs, T, g⟩ := x
  cases cs with
  | nil => exact ⟨([], T, g), fun rest => rfl⟩
  | cons c cs =>
    have hP : ∀ rest, ∃ n tl, cs ++ '\n' :: rest = n :: tl ∧
        LexState.before rest (c :: cs, T, g) = ⟨⟨c :: n :: tl, false, false, false⟩, T, g⟩ := by
      intro rest
      cases cs with
      | nil => exact ⟨'\n', rest, rfl, rfl⟩
      | cons n cs => exact ⟨n, cs ++ '\n' :: rest, rfl, rfl⟩
    by_cases hp : ispunct c = true
    · by_cases hh : c = '#'
      · subst hh
        obtain ⟨cs', h'⟩ := IStream.getlineLoop_local cs
        exact ⟨(cs', T, g), fun rest => by
          obtain ⟨n, tl, e, hb⟩ := hP rest
          rw [hb, ParseChars_cons, if_pos hp, if_pos rfl, ParseComments_hash, ← e, (h' rest).1,
            (h' rest).2]
          rfl⟩
      · cases cs with
        | nil =>
          exact ⟨([], T ++ [Token.Char c], g), fun rest => by
            rw [LexState.before_cons, List.nil_append, ParseChars_cons, if_pos hp, if_neg hh]
            simp only [(by decide : ¬ '\n' = '='), false_and, if_false]
            rfl⟩
        | cons n cs =>
          have hE : ∀ rest, ParseChars (LexState.before rest (c :: n :: cs, T, g))
              = if n = '=' ∧ c = '=' then
                  ⟨⟨cs ++ '\n' :: rest, false, false, false⟩, T ++ [Token.Eq], g⟩
                else if n = '=' ∧ c = '!' then
                  ⟨⟨cs ++ '\n' :: rest, false, false, false⟩, T ++ [Token.NotEq], g⟩
                else if n = '=' ∧ c = '>' then
                  ⟨⟨cs ++ '\n' :: rest, false, false, false⟩, T ++ [Token.GreaterOrEq], g⟩
                else if n = '=' ∧ c = '<' then
                  ⟨⟨cs ++ '\n' :: rest, false, false, false⟩, T ++ [Token.LessOrEq], g⟩
                else ⟨⟨n :: (cs ++ '\n' :: rest), false, false, false⟩, T ++ [Token.Char c], g⟩ := by
            intro rest
            rw [LexState.before_cons, List.cons_append, ParseChars_cons, if_pos hp, if_neg hh]
          by_cases h1 : n = '=' ∧ c = '='
          · exact ⟨(cs, T ++ [Token.Eq], g), fun rest => by rw [hE, if_pos h1]; rfl⟩
          · by_cases h2 : n = '=' ∧ c = '!'
            · exact ⟨(cs, T ++ [Token.NotEq], g), fun rest => by
                rw [hE, if_neg h1, if_pos h2]; rfl⟩
            · by_cases h3 : n = '=' ∧ c = '>'
              · exact ⟨(cs, T ++ [Token.GreaterOrEq], g), fun rest => by
                  rw [hE, if_neg h1, if_neg h2, if_pos h3]; rfl⟩
              · by_cases h4 : n = '=' ∧ c = '<'
                · exact ⟨(cs, T ++ [Token.LessOrEq], g), fun rest => by
                    rw [hE, if_neg h1, if_neg h2, if_neg h3, if_pos h4]; rfl⟩
                · exact ⟨(n :: cs, T ++ [Token.Char c], g), fun rest => by
                    rw [hE, if_neg h1, if_neg h2, if_neg h3, if_neg h4]; rfl⟩
    · exact ⟨(c :: cs, T, g), fun rest => by
        obtain ⟨n, tl, e, hb⟩ := hP rest
        rw [hb, ParseChars_cons, if_neg hp]⟩

theorem ParseIndent.count_local : ∀ (cs : List Char) (ch : Char) (n : Nat),
    (∃ n', ∀ rest, ParseIndent.count (cs ++ '\n' :: rest) ch n
        = (⟨rest, false, false, false⟩, '\n', n')) ∨
      (∃ (c : Char) (cs' : List Char) (n' : Nat), ∀ rest,
        ParseIndent.count (cs ++ '\n' :: rest) ch n
          = (⟨cs' ++ '\n' :: rest, false, false, false⟩, c, n'))
  | [], ch, n => Or.inl ⟨n, fun rest => rfl⟩
  | c :: cs, ch, n => by
    by_cases h : c = ' '
    · rcases ParseIndent.count_local cs c (n + 1) with ⟨n', h'⟩ | ⟨c', cs', n', h'⟩
      · exact Or.inl ⟨n', fun rest => by
          rw [List.cons_append, ParseIndent.count, if_pos h, h']⟩
      · exact Or.inr ⟨c', cs', n', fun rest => by
          rw [List.cons_append, ParseIndent.count, if_pos h, h']⟩
    · exact Or.inr ⟨c, cs, n, fun rest => by
        rw [List.cons_append, ParseIndent.count, if_neg h]⟩

theorem ParseIndent_good (c : Char) (tl : List Char) (T : List Token) (g : Int) :
    ParseIndent ⟨⟨c :: tl, false, false, false⟩, T, g⟩
      = if !(ParseIndent.count (c :: tl) c 0).1.onlyEof
            && (ParseIndent.count (c :: tl) c 0).2.1 = '\n' then
          ⟨(ParseIndent.count (c :: tl) c 0).1.putback (ParseIndent.count (c :: tl) c 0).2.1, T, g⟩
        else
          ⟨if (ParseIndent.count (c :: tl) c 0).1.onlyEof then (ParseIndent.count (c :: tl) c 0).1
            else (ParseIndent.count (c :: tl) c 0).1.putback (ParseIndent.count (c :: tl) c 0).2.1,
            (ParseIndent.adjust (ParseIndent.count (c :: tl) c 0).2.2 T g).1,
            (ParseIndent.adjust (ParseIndent.count (c :: tl) c 0).2.2 T g).2⟩ := by
  simp only [ParseIndent, IStream.peek_cons]

theorem ParseIndent_local (x : List Char × List Token × Int) :
    ∃ y, ∀ rest, ParseIndent (LexState.before rest x) = LexState.before rest y := by
  obtain ⟨cs, T, g⟩ := x
  have hP : ∃ c0, ∀ rest, ∃ tl, cs ++ '\n' :: rest = c0 :: tl ∧
      LexState.before rest (cs, T, g) = ⟨⟨c0 :: tl, false, false, false⟩, T, g⟩ := by
    cases cs with
    | nil => exact ⟨'\n', fun rest => ⟨rest, rfl, rfl⟩⟩
    | cons c cs => exact ⟨c, fun rest => ⟨cs ++ '\n' :: rest, rfl, rfl⟩⟩
  obtain ⟨c0, hP⟩ := hP
  rcases ParseIndent.count_local cs c0 0 with ⟨n', h'⟩ | ⟨c, cs', n', h'⟩
  · exact ⟨([], T, g), fun rest => by
      obtain ⟨tl, e, hb⟩ := hP rest
      rw [hb, ParseIndent_good, ← e, h']
      rfl⟩
  · by_cases hc : c = '\n'
    · exact ⟨(c :: cs', T, g), fun rest => by
        obtain ⟨tl, e, hb⟩ := hP rest
        rw [hb, ParseIndent_good, ← e, h']
        subst hc
        rfl⟩
    · exact ⟨(c :: cs', (ParseIndent.adjust n' T g).1, (ParseIndent.adjust n' T g).2), fun rest => by
        obtain ⟨tl, e, hb⟩ := hP rest
        rw [hb, ParseIndent_good, ← e, h']
        simp [hc, IStream.onlyEof, IStream.putback_good, LexState.before]⟩

theorem ParseIndent_blank (k : Nat) (v : List Char) (T : List Token) (g : Int) :
    ParseIndent ⟨IStream.ofList (List.replicate k ' ' ++ '\n' :: v), T, g⟩
      = ⟨IStream.ofList ('\n' :: v), T, g⟩ := by
  have hc : ∀ ch, ParseIndent.count (List.replicate k ' ' ++ '\n' :: v) ch 0
      = (⟨v, false, false, false⟩, '\n', 0 + k) :=
    fun ch => ParseIndent.count_spaces '\n' (by decide) v k ch 0
  cases k with
  | zero => rfl
  | succ k =>
    rw [List.replicate_succ, List.cons_append] at hc ⊢
    show ParseIndent ⟨⟨' ' :: (List.replicate k ' ' ++ '\n' :: v), false, false, false⟩, T, g⟩ = _
    rw [ParseIndent_good, hc]
    rfl

theorem needsNewline_newline (T : List Token) :
    needsNewline (if needsNewline T then T ++ [Token.Newline] else T) = false := by
  by_cases h : needsNewline T = true
  · rw [if_pos h]
    simp [needsNewline]
  · rw [if_neg h]
    simpa using h

theorem ParseNewLine_cons (c : Char) (tl : List Char) (T : List Token) (g : Int) :
    ParseNewLine ⟨⟨c :: tl, false, false, false⟩, T, g⟩
      = if c = '\n' then
          ParseIndent ⟨⟨tl, false, false, false⟩,
            if needsNewline T then T ++ [Token.Newline] else T, g⟩
        else ⟨⟨c :: tl, false, false, false⟩, T, g⟩ := by
  by_cases h : c = '\n'
  · subst h
    rfl
  · rw [if_neg h]
    unfold ParseNewLine
    split
    · rename_i input heq
      simp only [IStream.peek_cons, Prod.mk.injEq, Option.some.injEq] at heq
      exact absurd heq.1 h
    · rename_i o input hne heq
      simp only [IStream.peek_cons, Prod.mk.injEq] at heq
      rw [← heq.2]

theorem ParseNewLine_local (x : List Char × List Token × Int) :
    (∃ y, ∀ rest, ParseNewLine (LexState.before rest x) = LexState.before rest y) ∨
      (∃ (T : List Token) (g : Int), needsNewline T = false ∧ ∀ rest,
        ParseNewLine (LexState.before rest x) = ParseIndent ⟨IStream.ofList rest, T, g⟩) := by
  obtain ⟨cs, T, g⟩ := x
  cases cs with
  | nil =>
    exact Or.inr ⟨if needsNewline T then T ++ [Token.Newline] else T, g,
      needsNewline_newline T, fun rest => rfl⟩
  | cons c cs =>
    by_cases h : c = '\n'
    · obtain ⟨y, hy⟩ := ParseIndent_local
        (cs, if needsNewline T then T ++ [Token.Newline] else T, g)
      exact Or.inl ⟨y, fun rest => by
        rw [LexState.before_cons, ParseNewLine_cons, if_pos h, ← hy rest]
        rfl⟩
    · exact Or.inl ⟨(c :: cs, T, g), fun rest => by
        rw [LexState.before_cons, ParseNewLine_cons, if_neg h]⟩

theorem ParseInputStream.body_local (x : List Char × List Token × Int) :
    (∃ e, ∀ rest, ParseInputStream.body (LexState.before rest x) = .error e) ∨
      (∃ y, ∀ rest, ParseInputStream.body (LexState.before rest x)
        = .ok (LexState.before rest y)) ∨
      (∃ (T : List Token) (g : Int), needsNewline T = false ∧ ∀ rest,
        ParseInputStream.body (LexState.before rest x)
          = .ok (ParseIndent ⟨IStream.ofList rest, T, g⟩)) := by
  obtain ⟨o1, h1⟩ := ParseString_local x
  cases o1 with
  | error e => exact Or.inl ⟨e, fun rest => by rw [ParseInputStream.body, h1]; rfl⟩
  | ok y1 =>
    obtain ⟨y2, h2⟩ := ParseKeywords_local y1
    obtain ⟨y3, h3⟩ := ParseChars_local y2
    obtain ⟨o4, h4⟩ := ParseNumbers_local y3
    cases o4 with
    | error e =>
      exact Or.inl ⟨e, fun rest => by
        rw [ParseInputStream.body, h1]
        simp only [Except.map, h2, h3, h4]⟩
    | ok y4 =>
      obtain ⟨y5, h5⟩ := TrimSpaces_local y4
      have hb : ∀ rest, ParseInputStream.body (LexState.before rest x)
          = .ok (ParseNewLine (LexState.before rest y5)) := by
        intro rest
        rw [ParseInputStream.body, h1]
        simp only [Except.map, h2, h3, h4, h5]
      rcases ParseNewLine_local y5 with ⟨y, hy⟩ | ⟨T, g, hT, hy⟩
      · exact Or.inr (Or.inl ⟨y, fun rest => by rw [hb, hy]⟩)
      · exact Or.inr (Or.inr ⟨T, g, hT, fun rest => by rw [hb, hy]⟩)

theorem ParseInputStream.body_blank (v : List Char) (T : List Token) (g : Int)
    (hT : needsNewline T = false) :
    ParseInputStream.body ⟨IStream.ofList ('\n' :: v), T, g⟩
      = .ok (ParseIndent ⟨IStream.ofList v, T, g⟩) := by
  have h : ParseInputStream.body ⟨IStream.ofList ('\n' :: v), T, g⟩
      = .ok (ParseIndent ⟨IStream.ofList v, if needsNewline T then T ++ [Token.Newline] else T,
          g⟩) := rfl
  rw [h, hT]
  rfl

theorem ParseInputStream.loop_blank (k : Nat) (v : List Char) :
    ∀ (fuel : Nat) (x : List Char × List Token × Int) (r : Except LexException LexState),
      (ParseInputStream.loop fuel (LexState.before v x) = some r →
        ParseInputStream.loop (fuel + 1)
          (LexState.before (List.replicate k ' ' ++ '\n' :: v) x) = some r) ∧
      (ParseInputStream.loop fuel (LexState.before (List.replicate k ' ' ++ '\n' :: v) x)
          = some r →
        ParseInputStream.loop fuel (LexState.before v x) = some r)
  | 0, x, r => ⟨fun h => by simp [ParseInputStream.loop] at h,
      fun h => by simp [ParseInputStream.loop] at h⟩
  | fuel + 1, x, r => by
    have hA : ∀ rest, ParseInputStream.loop (fuel + 1) (LexState.before rest x)
        = match ParseInputStream.body (LexState.before rest x) with
          | .error e => some (.error e)
          | .ok st => ParseInputStream.loop fuel st := fun rest => rfl
    have hB : ∀ rest, ParseInputStream.loop (fuel + 2) (LexState.before rest x)
        = match ParseInputStream.body (LexState.before rest x) with
          | .error e => some (.error e)
          | .ok st => ParseInputStream.loop (fuel + 1) st := fun rest => rfl
    rw [hA, hA, hB]
    rcases ParseInputStream.body_local x with ⟨e, he⟩ | ⟨y, hy⟩ | ⟨T, g, hT, hj⟩
    · simp only [he]
      exact ⟨id, id⟩
    · simp only [hy]
      exact ParseInputStream.loop_blank k v fuel y r
    · simp only [hj, ParseIndent_blank]
      constructor
      · intro h
        have hl : ParseInputStream.loop (fuel + 1) ⟨IStream.ofList ('\n' :: v), T, g⟩
            = match ParseInputStream.body ⟨IStream.ofList ('\n' :: v), T, g⟩ with
              | .error e => some (.error e)
              | .ok st => ParseInputStream.loop fuel st := rfl
        rw [hl, ParseInputStream.body_blank v T g hT]
        exact h
      · intro h
        cases fuel with
        | zero => simp [ParseInputStream.loop] at h
        | succ fuel =>
          have hl : ParseInputStream.loop (fuel + 1) ⟨IStream.ofList ('\n' :: v), T, g⟩
              = match ParseInputStream.body ⟨IStream.ofList ('\n' :: v), T, g⟩ with
                | .error e => some (.error e)
                | .ok st => ParseInputStream.loop fuel st := rfl
          rw [hl, ParseInputStream.body_blank v T g hT] at h
          exact ParseInputStream.loop_mono fuel _ r h

theorem ParseInputStream.start_local (u : List Char) :
    ∃ x, ∀ rest, ParseInputStream.start (IStream.ofList (u ++ '\n' :: rest))
      = LexState.before rest x := by
  obtain ⟨cs', h⟩ := TrimSpaces.loop_local u
  exact ⟨(cs', [], 0), fun rest => by
    simp [ParseInputStream.start, TrimSpaces, IStream.ofList, IStream.good, h, LexState.before]⟩

/-- C29: the text `u`, a line feed, `k` spaces, a line feed and `v` is
tokenized as the text `u`, a line feed and `v` is: when one tokenization
returns, the other returns the same tokens or throws the same exception (the
longer text takes one more round of the main loop), and `ParseIndent` on the
spaces-only line emits no token, leaves the indent level alone and stops in front
of its line feed. -/
theorem ParseInputStream_blank_line (u v : List Char) (k : Nat) :
    (∀ fuel r, ParseInputStream fuel (IStream.ofList (u ++ '\n' :: v)) = some r →
        ParseInputStream (fuel + 1)
          (IStream.ofList (u ++ '\n' :: (List.replicate k ' ' ++ '\n' :: v))) = some r) ∧
      (∀ fuel r,
        ParseInputStream fuel
          (IStream.ofList (u ++ '\n' :: (List.replicate k ' ' ++ '\n' :: v))) = some r →
        ParseInputStream fuel (IStream.ofList (u ++ '\n' :: v)) = some r) ∧
      (∀ (tokens : List Token) (g : Int),
        ParseIndent ⟨IStream.ofList (List.replicate k ' ' ++ '\n' :: v), tokens, g⟩
          = ⟨IStream.ofList ('\n' :: v), tokens, g⟩) := by
  obtain ⟨x, hx⟩ := ParseInputStream.start_local u
  refine ⟨?_, ?_, ParseIndent_blank k v⟩
  · intro fuel r h
    simp only [ParseInputStream, hx] at h ⊢
    cases hl : ParseInputStream.loop fuel (LexState.before v x) with
    | none => simp [hl] at h
    | some r' =>
      rw [(ParseInputStream.loop_blank k v fuel x r').1 hl]
      rw [hl] at h
      exact h
  · intro fuel r h
    simp only [ParseInputStream, hx] at h ⊢
    cases hl : ParseInputStream.loop fuel
        (LexState.before (List.replicate k ' ' ++ '\n' :: v) x) with
    | none => simp [hl] at h
    | some r' =>
      rw [(ParseInputStream.loop_blank k v fuel x r').2 hl]
      rw [hl] at h
      exact h

theorem ParseInputStream_blank_line_witness :
    ParseInputStream 9 (IStream.ofList "if x:\n  y\nz".toList)
        = some (.ok ⟨[Token.If, Token.Id ['x'], Token.Char ':', Token.Newline, Token.Indent,
            Token.Id ['y'], Token.Newline, Token.Dedent, Token.Id ['z'], Token.Newline,
            Token.Eof], 0⟩) ∧
      ParseInputStream 10 (IStream.ofList "if x:\n   \n  y\nz".toList)
        = some (.ok ⟨[Token.If, Token.Id ['x'], Token.Char ':', Token.Newline, Token.Indent,
            Token.Id ['y'], Token.Newline, Token.Dedent, Token.Id ['z'], Token.Newline,
            Token.Eof], 0⟩) :=
  ⟨rfl, (ParseInputStream_blank_line "if x:".toList "  y\nz".toList 3).1 9 _ rfl⟩

end parse

/-! ## Theorems on the runtime -/

namespace runtime

/-- C11: `IsTrue` is false for the empty holder, `n != 0` for a `Number n`, `b`
for a `Bool b` and "not empty" for a `String`. -/
theorem IsTrue_of_primitive :
    IsTrue ObjectHolder.None = false ∧
      (∀ n : Int, IsTrue (ObjectHolder.Number n) = decide (n ≠ 0)) ∧
      (∀ b : Bool, IsTrue (ObjectHolder.Bool b) = b) ∧
      (∀ s : List Char, IsTrue (ObjectHolder.String s) = decide (s ≠ [])) := by
  refine ⟨rfl, fun n => ?_, fun b => ?_, fun s => ?_⟩
  · by_cases h : n = 0 <;> simp [IsTrue, bne, h]
  · cases b <;> rfl
  · cases s <;> simp [IsTrue]

end runtime

namespace ast

open runtime

/-- C12, as the code has it: `IsTrue` is false for every holder of a
`ClassInstance`, so an `IfElse` whose condition gives an instance runs its
`else` branch (or gives `None` without one) and `Not` gives `Bool(true)`. -/
theorem IsTrue_of_instance (classes : List runtime.Class) (fuel : Nat) (condition : Statement)
    (closure : Closure) (st : State) (object : Nat) (s : Closure × State)
    (h : Execute classes fuel condition closure st = .ok (.ClassInstance object) s) :
    IsTrue (.ClassInstance object) = false ∧
      (∀ if_body else_body,
        Execute classes (fuel + 1) (.IfElse (some condition) if_body (some else_body)) closure st
          = Execute classes fuel else_body s.1 s.2) ∧
      (∀ if_body,
        Execute classes (fuel + 1) (.IfElse (some condition) if_body none) closure st
          = .ok .None s) ∧
      Execute classes (fuel + 1) (.Not (some condition)) closure st = .ok (.Bool true) s := by
  refine ⟨rfl, fun if_body else_body => ?_, fun if_body => ?_, ?_⟩
  · simp [Execute, Execute.step, h, Outcome.bind, IsTrue]
  · simp [Execute, Execute.step, h, Outcome.bind, IsTrue]
  · simp [Execute, Execute.step, h, Outcome.bind, IsTrue]

theorem IsTrue_of_instance_witness :
    Execute [Class.new "A".toList [] none] 1 (.Const (.ClassInstance 0)) [] ⟨[⟨0, []⟩], []⟩
        = .ok (.ClassInstance 0) ([], ⟨[⟨0, []⟩], []⟩) ∧
      (IsTrue (.ClassInstance 0) = false ∧
        (∀ if_body else_body,
          Execute [Class.new "A".toList [] none] (1 + 1)
              (.IfElse (some (.Const (.ClassInstance 0))) if_body (some else_body)) []
              ⟨[⟨0, []⟩], []⟩
            = Execute [Class.new "A".toList [] none] 1 else_body [] ⟨[⟨0, []⟩], []⟩) ∧
        (∀ if_body,
          Execute [Class.new "A".toList [] none] (1 + 1)
              (.IfElse (some (.Const (.ClassInstance 0))) if_body none) [] ⟨[⟨0, []⟩], []⟩
            = .ok .None ([], ⟨[⟨0, []⟩], []⟩)) ∧
        Execute [Class.new "A".toList [] none] (1 + 1) (.Not (some (.Const (.ClassInstance 0)))) []
            ⟨[⟨0, []⟩], []⟩
          = .ok (.Bool true) ([], ⟨[⟨0, []⟩], []⟩)) :=
  ⟨rfl, IsTrue_of_instance [Class.new "A".toList [] none] 1 (.Const (.ClassInstance 0)) []
    ⟨[⟨0, []⟩], []⟩ 0 ([], ⟨[⟨0, []⟩], []⟩) rfl⟩

/-- C12, refuted: `IsTrue` of a holder of a class instance is false; the
statement `if A(): print 'yes' else: print 'no'` prints `no`. -/
theorem IfElse_on_instance_takes_else :
    IsTrue (.ClassInstance 0) = false ∧
      Execute [Class.new "A".toList [] none] 3
          (.IfElse (some (.NewInstance 0 []))
            (.Print [.Const (.String "yes".toList)])
            (some (.Print [.Const (.String "no".toList)])))
          [] ⟨[⟨0, []⟩], []⟩
        = .ok .None ([], ⟨[⟨0, []⟩], "no\n".toList⟩) :=
  ⟨rfl, rfl⟩

end ast

namespace runtime

theorem Class.lookup_vtableSet (name k : List Char) (method : Method) :
    ∀ vt : List (List Char × Method),
      List.lookup k (Class.vtableSet vt name method)
        = if k = name then some method else List.lookup k vt
  | [] => by
    by_cases h : k = name
    · simp [Class.vtableSet, List.lookup, h]
    · have h3 : (k == name) = false := by simpa using h
      simp [Class.vtableSet, List.lookup, h, h3]
  | (k', v) :: rest => by
    have ih := Class.lookup_vtableSet name k method rest
    by_cases h1 : k' = name
    · by_cases h2 : k = name
      · simp [Class.vtableSet, List.lookup, h1, h2]
      · have h3 : (k == name) = false := by simpa using h2
        simp [Class.vtableSet, List.lookup_cons, h1, h2, h3]
    · by_cases h2 : k = k'
      · have h3 : ¬ k = name := fun e => h1 (h2 ▸ e)
        simp [Class.vtableSet, List.lookup_cons, h1, h2, h3]
      · have h4 : (k == k') = false := by simpa using h2
        simp [Class.vtableSet, List.lookup_cons, h1, h4, ih]

theorem Class.lookup_addMethods (k : List Char) :
    ∀ (methods : List Method) (vt : List (List Char × Method)),
      List.lookup k (Class.addMethods vt methods)
        = match Class.ownMethod methods k with
          | some method => some method
          | none => List.lookup k vt := by
  intro methods
  induction methods using List.reverseRecOn with
  | nil => intro vt; simp [Class.addMethods, Class.ownMethod]
  | append_singleton methods method ih =>
    intro vt
    have hfold : Class.addMethods vt (methods ++ [method])
        = Class.vtableSet (Class.addMethods vt methods) method.name method := by
      simp [Class.addMethods, List.foldl_append]
    rw [hfold, Class.lookup_vtableSet, ih vt]
    by_cases h : method.name = k
    · simp [Class.ownMethod, List.filter_append, h]
    · have h' : ¬ k = method.name := fun e => h e.symm
      simp [Class.ownMethod, List.filter_append, h, h']

/-- What the constructor of `Class` makes of `GetMethod`: the own method of
that name, else the own method of the parent, else `nullptr`. -/
theorem Class.GetMethod_new (name : List Char) (methods : List Method) (parent : Option Class)
    (k : List Char) :
    (Class.new name methods parent).GetMethod k
      = match Class.ownMethod methods k with
        | some method => some method
        | none =>
          match parent with
          | some parent_ => Class.ownMethod parent_.methods_ k
          | none => none := by
  unfold Class.GetMethod Class.new
  simp only [Class.lookup_addMethods]
  cases Class.ownMethod methods k with
  | some method => rfl
  | none =>
    cases parent with
    | none => rfl
    | some parent_ =>
      simp only [Class.lookup_addMethods]
      cases Class.ownMethod parent_.methods_ k <;> rfl

/-- C13: a method that the parent has inherited is lost.  With `G` defining
`m`, `P` a child of `G` and `C` a child of `P`, both without methods,
`P.GetMethod(m)` is the method of `G` and `C.GetMethod(m)` is `nullptr`, and a
call of `m` on an instance of `C` throws. -/
theorem Class.GetMethod_grandparent_lost :
    (Class.new "P".toList [] (some (Class.new "G".toList
        [⟨"m".toList, [], .Return (some (.Const (.Number 1)))⟩] none))).GetMethod "m".toList
        = some ⟨"m".toList, [], .Return (some (.Const (.Number 1)))⟩ ∧
      (Class.new "C".toList [] (some (Class.new "P".toList [] (some (Class.new "G".toList
        [⟨"m".toList, [], .Return (some (.Const (.Number 1)))⟩] none))))).GetMethod "m".toList
        = none ∧
      ∀ exec : Exec, ClassInstance.Call exec
          [Class.new "C".toList [] (some (Class.new "P".toList [] (some (Class.new "G".toList
            [⟨"m".toList, [], .Return (some (.Const (.Number 1)))⟩] none))))]
          0 "m".toList [] ⟨[⟨0, []⟩], []⟩
        = .thrown Exception.runtime_error ⟨[⟨0, []⟩], []⟩ :=
  ⟨rfl, rfl, fun _ => rfl⟩

theorem compareByMethod_forward (exec : Exec) (classes : List Class) (name : List Char)
    (object : Nat) (rhs : ObjectHolder) (st : State) (class_ : Class)
    (hc : classOf classes st object = some class_)
    (hm : ClassInstance.HasMethod class_ name 1 = true) :
    compareByMethod exec classes name (.ClassInstance object) rhs st
      = (ClassInstance.Call exec classes object name [rhs] st).bind fun result st =>
          match result with
          | .Bool value => .ok value st
          | _ => .undefined := by
  simp [compareByMethod, hc, hm]

theorem compareByMethod_error (exec : Exec) (classes : List Class) (name : List Char)
    (lhs rhs : ObjectHolder) (st : State)
    (h : ∀ object, lhs = .ClassInstance object →
      ∃ class_, classOf classes st object = some class_ ∧
        ClassInstance.HasMethod class_ name 1 = false) :
    compareByMethod exec classes name lhs rhs st = .thrown Exception.runtime_error st := by
  cases lhs with
  | ClassInstance object =>
    obtain ⟨class_, hc, hm⟩ := h object rfl
    simp [compareByMethod, hc, hm]
  | _ => rfl

/-- C14: `Equal` is true on two empty holders, compares two `Number`s, two
`String`s or two `Bool`s by value, gives the `Bool` that `__eq__` returns when
the left operand is an instance whose class has `__eq__` with one parameter
(an exception of that call passes through), and throws `runtime_error` in every
other case. -/
theorem Equal_dispatch (exec : Exec) (classes : List Class) (st : State) :
    Equal exec classes .None .None st = .ok true st ∧
      (∀ l r : Int, Equal exec classes (.Number l) (.Number r) st = (.ok (l == r) st)) ∧
      (∀ l r : List Char,
        Equal exec classes (.String l) (.String r) st = (.ok (l == r) st)) ∧
      (∀ l r : Bool, Equal exec classes (.Bool l) (.Bool r) st = (.ok (l == r) st)) ∧
      (∀ object class_ rhs, classOf classes st object = some class_ →
        ClassInstance.HasMethod class_ "__eq__".toList 1 = true →
        (∀ b st', ClassInstance.Call exec classes object "__eq__".toList [rhs] st
            = .ok (.Bool b) st' →
          Equal exec classes (.ClassInstance object) rhs st = .ok b st') ∧
        (∀ e st', ClassInstance.Call exec classes object "__eq__".toList [rhs] st
            = .thrown e st' →
          Equal exec classes (.ClassInstance object) rhs st = .thrown e st')) ∧
      (∀ lhs rhs, sameValueType lhs rhs = false → ¬(lhs = .None ∧ rhs = .None) →
        (∀ object, lhs = .ClassInstance object →
          ∃ class_, classOf classes st object = some class_ ∧
            ClassInstance.HasMethod class_ "__eq__".toList 1 = false) →
        Equal exec classes lhs rhs st = .thrown Exception.runtime_error st) ∧
      Equal exec classes (.Number 1) (.Bool true) st = .thrown Exception.runtime_error st ∧
      Equal exec classes .None (.Number 0) st = .thrown Exception.runtime_error st ∧
      Equal exec classes (.Class 0) (.Class 0) st = .thrown Exception.runtime_error st ∧
      Equal (ast.Execute [Class.new "A".toList [⟨"__eq__".toList, ["other".toList],
            .MethodBody (some (.Return (some (.Const (.Bool true)))))⟩] none] 3)
          [Class.new "A".toList [⟨"__eq__".toList, ["other".toList],
            .MethodBody (some (.Return (some (.Const (.Bool true)))))⟩] none]
          (.ClassInstance 0) .None ⟨[⟨0, []⟩], []⟩
        = .ok true ⟨[⟨0, []⟩], []⟩ := by
  refine ⟨rfl, fun l r => rfl, fun l r => rfl, fun l r => rfl, ?_, ?_, rfl, rfl, rfl, rfl⟩
  · intro object class_ rhs hc hm
    have hE : Equal exec classes (.ClassInstance object) rhs st
        = compareByMethod exec classes "__eq__".toList (.ClassInstance object) rhs st := by
      cases rhs <;> rfl
    rw [hE, compareByMethod_forward exec classes _ object rhs st class_ hc hm]
    constructor
    · intro b st' h
      rw [h]
      rfl
    · intro e st' h
      rw [h]
      rfl
  · intro lhs rhs hs hn hi
    have hE : Equal exec classes lhs rhs st
        = compareByMethod exec classes "__eq__".toList lhs rhs st := by
      cases lhs <;> cases rhs <;>
        first
          | rfl
          | (exfalso; apply hn; constructor <;> rfl)
          | simp [sameValueType] at hs
    rw [hE]
    exact compareByMethod_error exec classes _ lhs rhs st hi

/-- C15: `Less` compares two `Number`s as integers, two `String`s
lexicographically and two `Bool`s with `false < true`, gives the `Bool` that
`__lt__` returns when the left operand is an instance whose class has `__lt__`
with one parameter, and throws `runtime_error` in every other case: for a
`Bool` with a `Number` and for two empty holders too. -/
theorem Less_dispatch (exec : Exec) (classes : List Class) (st : State) :
    (∀ l r : Int, Less exec classes (.Number l) (.Number r) st = .ok (decide (l < r)) st) ∧
      (∀ l r : List Char,
        Less exec classes (.String l) (.String r) st = .ok (decide (l < r)) st) ∧
      (∀ l r : Bool,
        Less exec classes (.Bool l) (.Bool r) st = .ok (decide (l = false ∧ r = true)) st) ∧
      (∀ object class_ rhs, classOf classes st object = some class_ →
        ClassInstance.HasMethod class_ "__lt__".toList 1 = true →
        (∀ b st', ClassInstance.Call exec classes object "__lt__".toList [rhs] st
            = .ok (.Bool b) st' →
          Less exec classes (.ClassInstance object) rhs st = .ok b st') ∧
        (∀ e st', ClassInstance.Call exec classes object "__lt__".toList [rhs] st
            = .thrown e st' →
          Less exec classes (.ClassInstance object) rhs st = .thrown e st')) ∧
      (∀ lhs rhs, sameValueType lhs rhs = false →
        (∀ object, lhs = .ClassInstance object →
          ∃ class_, classOf classes st object = some class_ ∧
            ClassInstance.HasMethod class_ "__lt__".toList 1 = false) →
        Less exec classes lhs rhs st = .thrown Exception.runtime_error st) ∧
      (∀ (n : Int) (b : Bool),
        Less exec classes (.Number n) (.Bool b) st = .thrown Exception.runtime_error st ∧
          Less exec classes (.Bool b) (.Number n) st = .thrown Exception.runtime_error st) ∧
      Less exec classes .None .None st = .thrown Exception.runtime_error st ∧
      Less (ast.Execute [Class.new "A".toList [⟨"__lt__".toList, ["other".toList],
            .MethodBody (some (.Return (some (.Const (.Bool false)))))⟩] none] 3)
          [Class.new "A".toList [⟨"__lt__".toList, ["other".toList],
            .MethodBody (some (.Return (some (.Const (.Bool false)))))⟩] none]
          (.ClassInstance 0) (.Number 3) ⟨[⟨0, []⟩], []⟩
        = .ok false ⟨[⟨0, []⟩], []⟩ := by
  refine ⟨fun l r => rfl, fun l r => rfl, fun l r => ?_, ?_, ?_, fun n b => ⟨rfl, rfl⟩, rfl, rfl⟩
  · cases l <;> cases r <;> simp [Less]
  · intro object class_ rhs hc hm
    have hE : Less exec classes (.ClassInstance object) rhs st
        = compareByMethod exec classes "__lt__".toList (.ClassInstance object) rhs st := by
      cases rhs <;> rfl
    rw [hE, compareByMethod_forward exec classes _ object rhs st class_ hc hm]
    constructor
    · intro b st' h
      rw [h]
      rfl
    · intro e st' h
      rw [h]
      rfl
  · intro lhs rhs hs hi
    have hE : Less exec classes lhs rhs st
        = compareByMethod exec classes "__lt__".toList lhs rhs st := by
      cases lhs <;> cases rhs <;> first | rfl | simp [sameValueType] at hs
    rw [hE]
    exact compareByMethod_error exec classes _ lhs rhs st hi

/-- C16, as the code has it: when `Equal` and `Less` return on `l`, `r`, then
`NotEqual` is the negation of `Equal` and `GreaterOrEqual` the negation of
`Less`; `LessOrEqual` is true when `Less` is true and is otherwise what `Equal`
gives when it is called behind `Less`, in the state `Less` has left, and
`Greater` is the negation of that.  When `Less` leaves the state as it was, as
it does on two operands of the same value type, `LessOrEqual` is `Less || Equal`
and `Greater` its negation, with `Equal` as it returns in the state of the
call. -/
theorem comparisons_from_Equal_Less (exec : Exec) (classes : List Class) (l r : ObjectHolder)
    (st stE stL : State) (e b : Bool)
    (hE : Equal exec classes l r st = .ok e stE)
    (hL : Less exec classes l r st = .ok b stL) :
    NotEqual exec classes l r st = .ok (!e) stE ∧
      GreaterOrEqual exec classes l r st = .ok (!b) stL ∧
      LessOrEqual exec classes l r st
        = (if b then .ok true stL else Equal exec classes l r stL) ∧
      Greater exec classes l r st
        = (if b then .ok false stL else NotEqual exec classes l r stL) ∧
      (stL = st →
        LessOrEqual exec classes l r st = .ok (b || e) (if b then st else stE) ∧
          Greater exec classes l r st = .ok (!(b || e)) (if b then st else stE)) ∧
      (sameValueType l r = true → stL = st) := by
  refine ⟨?_, ?_, ?_, ?_, ?_, ?_⟩
  · simp [NotEqual, hE, Outcome.bind]
  · simp [GreaterOrEqual, hL, Outcome.bind]
  · cases b <;> simp [LessOrEqual, lessOrEqual, hL, Outcome.bind]
  · cases b <;> simp [Greater, NotEqual, lessOrEqual, hL, Outcome.bind]
  · intro hst
    subst hst
    cases b with
    | true => simp [LessOrEqual, Greater, lessOrEqual, hL, Outcome.bind]
    | false => simp [LessOrEqual, Greater, lessOrEqual, hL, Outcome.bind, hE]
  · intro hs
    cases l <;> cases r <;> simp [sameValueType] at hs <;>
      simp only [Less, Outcome.ok.injEq] at hL <;> exact hL.2.symm

theorem comparisons_from_Equal_Less_witness :
    Equal (fun _ _ _ => Outcome.timeout) [] (.Number 2) (.Number 3) ⟨[], []⟩
        = .ok false ⟨[], []⟩ ∧
      Less (fun _ _ _ => Outcome.timeout) [] (.Number 2) (.Number 3) ⟨[], []⟩
        = .ok true ⟨[], []⟩ ∧
      NotEqual (fun _ _ _ => Outcome.timeout) [] (.Number 2) (.Number 3) ⟨[], []⟩
        = .ok true ⟨[], []⟩ ∧
      GreaterOrEqual (fun _ _ _ => Outcome.timeout) [] (.Number 2) (.Number 3) ⟨[], []⟩
        = .ok false ⟨[], []⟩ ∧
      LessOrEqual (fun _ _ _ => Outcome.timeout) [] (.Number 2) (.Number 3) ⟨[], []⟩
        = .ok true ⟨[], []⟩ ∧
      Greater (fun _ _ _ => Outcome.timeout) [] (.Number 2) (.Number 3) ⟨[], []⟩
        = .ok false ⟨[], []⟩ :=
  have h := comparisons_from_Equal_Less (fun _ _ _ => Outcome.timeout) [] (.Number 2) (.Number 3)
    ⟨[], []⟩ ⟨[], []⟩ ⟨[], []⟩ false true rfl rfl
  ⟨rfl, rfl, h.1, h.2.1, (h.2.2.2.2.1 rfl).1, (h.2.2.2.2.1 rfl).2⟩

/-- C16, refuted: the class `A` has `__lt__`, which sets `self.n` to `1` and
returns `False`, and `__eq__`, which returns `self.n == 1`.  On an instance with
`n` at `0` both `Equal` and `Less` return `False`, but `LessOrEqual` returns
`True` and `Greater` returns `False`: the call of `Equal` inside them runs in
the state that `Less` has left. -/
theorem LessOrEqual_sees_state_of_Less :
    Equal (ast.Execute [Class.new "A".toList
            [⟨"__lt__".toList, ["other".toList], .MethodBody (some (.Compound
                [.FieldAssignment ["self".toList] "n".toList (.Const (.Number 1)),
                  .Return (some (.Const (.Bool false)))]))⟩,
              ⟨"__eq__".toList, ["other".toList], .MethodBody (some (.Return (some
                (.Comparison .Equal (some (.VariableValue ["self".toList, "n".toList]))
                  (some (.Const (.Number 1)))))))⟩] none] 6)
          [Class.new "A".toList
            [⟨"__lt__".toList, ["other".toList], .MethodBody (some (.Compound
                [.FieldAssignment ["self".toList] "n".toList (.Const (.Number 1)),
                  .Return (some (.Const (.Bool false)))]))⟩,
              ⟨"__eq__".toList, ["other".toList], .MethodBody (some (.Return (some
                (.Comparison .Equal (some (.VariableValue ["self".toList, "n".toList]))
                  (some (.Const (.Number 1)))))))⟩] none]
          (.ClassInstance 0) (.Number 5) ⟨[⟨0, [("n".toList, .Number 0)]⟩], []⟩
        = .ok false ⟨[⟨0, [("n".toList, .Number 0)]⟩], []⟩ ∧
      Less (ast.Execute [Class.new "A".toList
            [⟨"__lt__".toList, ["other".toList], .MethodBody (some (.Compound
                [.FieldAssignment ["self".toList] "n".toList (.Const (.Number 1)),
                  .Return (some (.Const (.Bool false)))]))⟩,
              ⟨"__eq__".toList, ["other".toList], .MethodBody (some (.Return (some
                (.Comparison .Equal (some (.VariableValue ["self".toList, "n".toList]))
                  (some (.Const (.Number 1)))))))⟩] none] 6)
          [Class.new "A".toList
            [⟨"__lt__".toList, ["other".toList], .MethodBody (some (.Compound
                [.FieldAssignment ["self".toList] "n".toList (.Const (.Number 1)),
                  .Return (some (.Const (.Bool false)))]))⟩,
              ⟨"__eq__".toList, ["other".toList], .MethodBody (some (.Return (some
                (.Comparison .Equal (some (.VariableValue ["self".toList, "n".toList]))
                  (some (.Const (.Number 1)))))))⟩] none]
          (.ClassInstance 0) (.Number 5) ⟨[⟨0, [("n".toList, .Number 0)]⟩], []⟩
        = .ok false ⟨[⟨0, [("n".toList, .Number 1)]⟩], []⟩ ∧
      LessOrEqual (ast.Execute [Class.new "A".toList
            [⟨"__lt__".toList, ["other".toList], .MethodBody (some (.Compound
                [.FieldAssignment ["self".toList] "n".toList (.Const (.Number 1)),
                  .Return (some (.Const (.Bool false)))]))⟩,
              ⟨"__eq__".toList, ["other".toList], .MethodBody (some (.Return (some
                (.Comparison .Equal (some (.VariableValue ["self".toList, "n".toList]))
                  (some (.Const (.Number 1)))))))⟩] none] 6)
          [Class.new "A".toList
            [⟨"__lt__".toList, ["other".toList], .MethodBody (some (.Compound
                [.FieldAssignment ["self".toList] "n".toList (.Const (.Number 1)),
                  .Return (some (.Const (.Bool false)))]))⟩,
              ⟨"__eq__".toList, ["other".toList], .MethodBody (some (.Return (some
                (.Comparison .Equal (some (.VariableValue ["self".toList, "n".toList]))
                  (some (.Const (.Number 1)))))))⟩] none]
          (.ClassInstance 0) (.Number 5) ⟨[⟨0, [("n".toList, .Number 0)]⟩], []⟩
        = .ok true ⟨[⟨0, [("n".toList, .Number 1)]⟩], []⟩ ∧
      Greater (ast.Execute [Class.new "A".toList
            [⟨"__lt__".toList, ["other".toList], .MethodBody (some (.Compound
                [.FieldAssignment ["self".toList] "n".toList (.Const (.Number 1)),
                  .Return (some (.Const (.Bool false)))]))⟩,
              ⟨"__eq__".toList, ["other".toList], .MethodBody (some (.Return (some
                (.Comparison .Equal (some (.VariableValue ["self".toList, "n".toList]))
                  (some (.Const (.Number 1)))))))⟩] none] 6)
          [Class.new "A".toList
            [⟨"__lt__".toList, ["other".toList], .MethodBody (some (.Compound
                [.FieldAssignment ["self".toList] "n".toList (.Const (.Number 1)),
                  .Return (some (.Const (.Bool false)))]))⟩,
              ⟨"__eq__".toList, ["other".toList], .MethodBody (some (.Return (some
                (.Comparison .Equal (some (.VariableValue ["self".toList, "n".toList]))
                  (some (.Const (.Number 1)))))))⟩] none]
          (.ClassInstance 0) (.Number 5) ⟨[⟨0, [("n".toList, .Number 0)]⟩], []⟩
        = .ok false ⟨[⟨0, [("n".toList, .Number 1)]⟩], []⟩ :=
  ⟨rfl, rfl, rfl, rfl⟩

theorem ClassInstance.HasMethod_iff (class_ : Class) (method : List Char) (n : Nat) :
    ClassInstance.HasMethod class_ method n = true ↔
      ∃ method_ptr, List.lookup method class_.vtable_ = some method_ptr ∧
        method_ptr.formal_params.length = n := by
  unfold ClassInstance.HasMethod Class.GetMethod
  cases List.lookup method class_.vtable_ with
  | none => simp
  | some method_ptr => simp

theorem ClassInstance.Call_of_HasMethod (exec : Exec) (classes : List Class) (st : State)
    (self : Nat) (class_ : Class) (method : List Char) (actual_args : List ObjectHolder)
    (method_ptr : Method) (hc : classOf classes st self = some class_)
    (hm : class_.GetMethod method = some method_ptr)
    (hn : method_ptr.formal_params.length = actual_args.length) :
    ClassInstance.Call exec classes self method actual_args st
      = dropClosure (exec method_ptr.body
          (ClassInstance.bindParams method_ptr.formal_params actual_args
            [("self".toList, ObjectHolder.ClassInstance self)]) st) := by
  have hh : ClassInstance.HasMethod class_ method actual_args.length = true := by
    simp [ClassInstance.HasMethod, hm, hn]
  simp only [ClassInstance.Call, hc, hh, hm, if_true, dropClosure]
  cases exec method_ptr.body (ClassInstance.bindParams method_ptr.formal_params actual_args
    [("self".toList, ObjectHolder.ClassInstance self)]) st <;> rfl

/-- C17: `HasMethod(m, n)` holds exactly when the vtable of the class has an
entry `m` with `n` formal parameters.  When `HasMethod(m, |args|)` is false,
`Call(m, args)` throws `runtime_error` and leaves the state as it is, whatever
executing a statement would do; when it is true, `Call` ends as the execution
of the body of the vtable entry ends. -/
theorem ClassInstance.Call_checks_HasMethod (exec : Exec) (classes : List Class) (st : State)
    (self : Nat) (class_ : Class) (method : List Char) (actual_args : List ObjectHolder)
    (hc : classOf classes st self = some class_) :
    (∀ n, ClassInstance.HasMethod class_ method n = true ↔
        ∃ method_ptr, List.lookup method class_.vtable_ = some method_ptr ∧
          method_ptr.formal_params.length = n) ∧
      (ClassInstance.HasMethod class_ method actual_args.length = false →
        ClassInstance.Call exec classes self method actual_args st
          = .thrown Exception.runtime_error st) ∧
      (ClassInstance.HasMethod class_ method actual_args.length = true →
        ∃ method_ptr, List.lookup method class_.vtable_ = some method_ptr ∧
          ClassInstance.Call exec classes self method actual_args st
            = dropClosure (exec method_ptr.body
                (ClassInstance.bindParams method_ptr.formal_params actual_args
                  [("self".toList, ObjectHolder.ClassInstance self)]) st)) := by
  refine ⟨fun n => ClassInstance.HasMethod_iff class_ method n, fun h => ?_, fun h => ?_⟩
  · simp [ClassInstance.Call, hc, h]
  · obtain ⟨method_ptr, hl, hn⟩ := (ClassInstance.HasMethod_iff class_ method _).1 h
    exact ⟨method_ptr, hl,
      ClassInstance.Call_of_HasMethod exec classes st self class_ method actual_args method_ptr
        hc hl hn⟩

theorem ClassInstance.Call_checks_HasMethod_witness :
    classOf [Class.new "A".toList [⟨"f".toList, ["x".toList],
        .MethodBody (some (.Return (some (.VariableValue ["x".toList]))))⟩] none]
        ⟨[⟨0, []⟩], []⟩ 0
      = some (Class.new "A".toList [⟨"f".toList, ["x".toList],
        .MethodBody (some (.Return (some (.VariableValue ["x".toList]))))⟩] none) ∧
    ClassInstance.Call (ast.Execute [Class.new "A".toList [⟨"f".toList, ["x".toList],
        .MethodBody (some (.Return (some (.VariableValue ["x".toList]))))⟩] none] 3)
        [Class.new "A".toList [⟨"f".toList, ["x".toList],
        .MethodBody (some (.Return (some (.VariableValue ["x".toList]))))⟩] none]
        0 "f".toList [] ⟨[⟨0, []⟩], []⟩
      = .thrown Exception.runtime_error ⟨[⟨0, []⟩], []⟩ ∧
    ClassInstance.Call (ast.Execute [Class.new "A".toList [⟨"f".toList, ["x".toList],
        .MethodBody (some (.Return (some (.VariableValue ["x".toList]))))⟩] none] 3)
        [Class.new "A".toList [⟨"f".toList, ["x".toList],
        .MethodBody (some (.Return (some (.VariableValue ["x".toList]))))⟩] none]
        0 "f".toList [.Number 4] ⟨[⟨0, []⟩], []⟩
      = .ok (.Number 4) ⟨[⟨0, []⟩], []⟩ :=
  ⟨rfl,
    (ClassInstance.Call_checks_HasMethod
      (ast.Execute [Class.new "A".toList [⟨"f".toList, ["x".toList],
        .MethodBody (some (.Return (some (.VariableValue ["x".toList]))))⟩] none] 3)
      [Class.new "A".toList [⟨"f".toList, ["x".toList],
        .MethodBody (some (.Return (some (.VariableValue ["x".toList]))))⟩] none]
      ⟨[⟨0, []⟩], []⟩ 0 _ "f".toList [] rfl).2.1 rfl,
    rfl⟩

theorem Closure.set_fresh (name : List Char) (value : ObjectHolder) :
    ∀ closure : Closure, name ∉ closure.map Prod.fst →
      Closure.set closure name value = closure ++ [(name, value)]
  | [], _ => rfl
  | (k, v) :: rest, h => by
    have hk : ¬ k = name := fun e => h (by rw [List.map_cons, e]; exact List.mem_cons_self _ _)
    have hr : name ∉ rest.map Prod.fst := fun e =>
      h (by rw [List.map_cons]; exact List.mem_cons_of_mem _ e)
    simp [Closure.set, hk, Closure.set_fresh name value rest hr]

theorem Closure.find_set (name key : List Char) (value : ObjectHolder) :
    ∀ closure : Closure,
      Closure.find (Closure.set closure name value) key
        = if key = name then some value else Closure.find closure key
  | [] => by
    by_cases h : key = name
    · simp [Closure.set, Closure.find, List.lookup, h]
    · have h3 : (key == name) = false := by simpa using h
      simp [Closure.set, Closure.find, List.lookup, h, h3]
  | (k, v) :: rest => by
    have ih := Closure.find_set name key value rest
    unfold Closure.find at ih ⊢
    by_cases h1 : k = name
    · by_cases h2 : key = name
      · simp [Closure.set, List.lookup, h1, h2]
      · have h3 : (key == name) = false := by simpa using h2
        simp [Closure.set, List.lookup_cons, h1, h2, h3]
    · by_cases h2 : key = k
      · have h3 : ¬ key = name := fun e => h1 (h2 ▸ e)
        simp [Closure.set, List.lookup_cons, h1, h2, h3]
      · have h4 : (key == k) = false := by simpa using h2
        simp [Closure.set, List.lookup_cons, h1, h4, ih]

theorem ClassInstance.bindParams_distinct :
    ∀ (params : List (List Char)) (args : List ObjectHolder) (closure : Closure),
      params.Nodup → (∀ p ∈ params, p ∉ closure.map Prod.fst) →
      ClassInstance.bindParams params args closure = closure ++ params.zip args
  | [], args, closure, _, _ => by simp [ClassInstance.bindParams]
  | p :: params, [], closure, _, _ => by simp [ClassInstance.bindParams]
  | p :: params, a :: args, closure, hd, hf => by
    have hp : p ∉ closure.map Prod.fst := hf p (by simp)
    have hd' := List.nodup_cons.1 hd
    rw [ClassInstance.bindParams, Closure.set_fresh p a closure hp,
      ClassInstance.bindParams_distinct params args _ hd'.2]
    · simp only [List.zip_cons_cons, List.append_assoc, List.singleton_append]
    · intro q hq hmem
      simp only [List.map_append, List.map_cons, List.map_nil, List.mem_append,
        List.mem_singleton] at hmem
      rcases hmem with h | h
      · exact hf q (by simp [hq]) h
      · exact hd'.1 (h ▸ hq)

/-- C18, as the code has it: for a method whose formal parameters are pairwise
distinct and none of which is `self`, `Call(m, args)` with
`HasMethod(m, |args|)` executes the body of the method `GetMethod(m)` returns in
the closure that binds `self` to the receiver and `formal_params[k]` to
`args[k]` and nothing else, and ends as that execution ends. -/
theorem ClassInstance.Call_binds_params (exec : Exec) (classes : List Class) (st : State)
    (self : Nat) (class_ : Class) (method : List Char) (actual_args : List ObjectHolder)
    (method_ptr : Method) (hc : classOf classes st self = some class_)
    (hm : class_.GetMethod method = some method_ptr)
    (hh : ClassInstance.HasMethod class_ method actual_args.length = true)
    (hd : method_ptr.formal_params.Nodup) (hs : "self".toList ∉ method_ptr.formal_params) :
    ClassInstance.Call exec classes self method actual_args st
      = dropClosure (exec method_ptr.body
          (("self".toList, ObjectHolder.ClassInstance self)
            :: method_ptr.formal_params.zip actual_args) st) := by
  have hn : method_ptr.formal_params.length = actual_args.length := by
    simpa [ClassInstance.HasMethod, hm] using hh
  rw [ClassInstance.Call_of_HasMethod exec classes st self class_ method actual_args method_ptr
    hc hm hn, ClassInstance.bindParams_distinct _ _ _ hd]
  · rfl
  · intro p hp hmem
    have : p = "self".toList := by simpa using hmem
    exact hs (this ▸ hp)

theorem ClassInstance.Call_binds_params_witness :
    classOf [Class.new "A".toList [⟨"f".toList, ["x".toList, "y".toList],
        .MethodBody (some (.Return (some (.VariableValue ["y".toList]))))⟩] none]
        ⟨[⟨0, []⟩], []⟩ 0
      = some (Class.new "A".toList [⟨"f".toList, ["x".toList, "y".toList],
        .MethodBody (some (.Return (some (.VariableValue ["y".toList]))))⟩] none) ∧
    ClassInstance.Call (ast.Execute [Class.new "A".toList [⟨"f".toList, ["x".toList, "y".toList],
        .MethodBody (some (.Return (some (.VariableValue ["y".toList]))))⟩] none] 3)
        [Class.new "A".toList [⟨"f".toList, ["x".toList, "y".toList],
        .MethodBody (some (.Return (some (.VariableValue ["y".toList]))))⟩] none]
        0 "f".toList [.Number 4, .Number 5] ⟨[⟨0, []⟩], []⟩
      = dropClosure (ast.Execute [Class.new "A".toList [⟨"f".toList, ["x".toList, "y".toList],
          .MethodBody (some (.Return (some (.VariableValue ["y".toList]))))⟩] none] 3
          (.MethodBody (some (.Return (some (.VariableValue ["y".toList])))))
          [("self".toList, .ClassInstance 0), ("x".toList, .Number 4), ("y".toList, .Number 5)]
          ⟨[⟨0, []⟩], []⟩) :=
  ⟨rfl,
    ClassInstance.Call_binds_params
      (ast.Execute [Class.new "A".toList [⟨"f".toList, ["x".toList, "y".toList],
        .MethodBody (some (.Return (some (.VariableValue ["y".toList]))))⟩] none] 3)
      [Class.new "A".toList [⟨"f".toList, ["x".toList, "y".toList],
        .MethodBody (some (.Return (some (.VariableValue ["y".toList]))))⟩] none]
      ⟨[⟨0, []⟩], []⟩ 0 _ "f".toList [.Number 4, .Number 5]
      ⟨"f".toList, ["x".toList, "y".toList],
        .MethodBody (some (.Return (some (.VariableValue ["y".toList]))))⟩
      rfl rfl rfl (by decide) (by decide)⟩

/-- C18, refuted: with a formal parameter named `self` the closure of the call
binds `self` to the argument, not to the receiver, and with the parameter list
`a, a` it binds `a` to the second argument only. -/
theorem ClassInstance.bindParams_overwrites_self :
    ClassInstance.bindParams ["self".toList] [.Number 7] [("self".toList, .ClassInstance 0)]
        = [("self".toList, .Number 7)] ∧
      ClassInstance.Call (ast.Execute [Class.new "A".toList [⟨"f".toList, ["self".toList],
          .MethodBody (some (.Return (some (.VariableValue ["self".toList]))))⟩] none] 3)
          [Class.new "A".toList [⟨"f".toList, ["self".toList],
          .MethodBody (some (.Return (some (.VariableValue ["self".toList]))))⟩] none]
          0 "f".toList [.Number 7] ⟨[⟨0, []⟩], []⟩
        = .ok (.Number 7) ⟨[⟨0, []⟩], []⟩ ∧
      ClassInstance.bindParams ["a".toList, "a".toList] [.Number 1, .Number 2]
          [("self".toList, .ClassInstance 0)]
        = [("self".toList, .ClassInstance 0), ("a".toList, .Number 2)] :=
  ⟨rfl, rfl, rfl⟩

end runtime

namespace ast

open runtime

theorem Compound.loop_append_thrown (exec : Exec) (statement : Statement) (after : List Statement)
    (e : Exception) (s' : Closure × State) :
    ∀ (before : List Statement) (closure : Closure) (st : State) (s1 : Closure × State),
      Compound.loop exec before closure st = .ok () s1 →
      exec statement s1.1 s1.2 = .thrown e s' →
      Compound.loop exec (before ++ statement :: after) closure st = .thrown e s'
  | [], closure, st, s1, h1, h2 => by
    simp only [Compound.loop, Outcome.ok.injEq, true_and] at h1
    subst h1
    simp [Compound.loop, h2, Outcome.bind]
  | b :: before, closure, st, s1, h1, h2 => by
    simp only [List.cons_append, Compound.loop] at h1 ⊢
    cases hb : exec b closure st with
    | ok value s =>
      rw [hb] at h1
      simp only [Outcome.bind] at h1 ⊢
      exact Compound.loop_append_thrown exec statement after e s' before s.1 s.2 s1 h1 h2
    | thrown e1 s => rw [hb] at h1; simp [Outcome.bind] at h1
    | undefined => rw [hb] at h1; simp [Outcome.bind] at h1
    | timeout => rw [hb] at h1; simp [Outcome.bind] at h1

theorem FirstReturn.throws {classes : List runtime.Class} {fuel : Nat} {statement : Statement}
    {s s' : Closure × State} {value : ObjectHolder}
    (h : FirstReturn classes fuel statement s value s') :
    Execute classes fuel statement s.1 s.2 = .thrown (Exception.ReturnException value) s' := by
  induction h with
  | bare fuel s => rfl
  | value fuel statement s s' value he =>
    simp [Execute, Execute.step, he, Outcome.bind]
  | compound fuel before after statement s s1 s' value hb _ ih =>
    simp [Execute, Execute.step,
      Compound.loop_append_thrown (Execute classes fuel) statement after _ s' before s.1 s.2 s1 hb ih,
      Outcome.bind]
  | ifBody fuel condition if_body else_body s s1 s' c value hc ht _ ih =>
    simp [Execute, Execute.step, hc, ht, ih, Outcome.bind]
  | elseBody fuel condition if_body else_body s s1 s' c value hc ht _ ih =>
    simp [Execute, Execute.step, hc, ht, ih, Outcome.bind]

theorem MethodBody_not_thrown_Return (classes : List runtime.Class) (fuel : Nat)
    (body_ : Option Statement) (closure : Closure) (st : State) (value : ObjectHolder)
    (s' : Closure × State) :
    Execute classes fuel (.MethodBody body_) closure st
      ≠ .thrown (Exception.ReturnException value) s' := by
  cases fuel with
  | zero => simp [Execute]
  | succ fuel =>
    cases body_ with
    | none => simp [Execute, Execute.step]
    | some body =>
      simp only [Execute, Execute.step]
      cases hb : Execute classes fuel body closure st with
      | ok v s => simp
      | thrown e s => cases e <;> simp
      | undefined => simp
      | timeout => simp

/-- C19: `MethodBody(body)` returns the value of the first `Return` that the
execution of `body` reaches under `Compound` and `IfElse` nodes, with the
closure and the state as they are at that `Return`: nothing behind it is
executed.  A body that ends without an exception gives `None`.  `MethodBody`
never lets a `ReturnException` out, so the call of a method whose body is a
`MethodBody` never ends with one and the caller goes on. -/
theorem MethodBody_first_return (classes : List runtime.Class) (fuel : Nat) (body : Statement)
    (s s' : Closure × State) (value : ObjectHolder)
    (h : FirstReturn classes fuel body s value s') :
    Execute classes (fuel + 1) (.MethodBody (some body)) s.1 s.2 = .ok value s' ∧
      (∀ (fuel : Nat) (body : Statement) (closure : Closure) (st : State) (x : ObjectHolder)
          (s1 : Closure × State),
        Execute classes fuel body closure st = .ok x s1 →
        Execute classes (fuel + 1) (.MethodBody (some body)) closure st = .ok .None s1) ∧
      (∀ (fuel : Nat) (body_ : Option Statement) (closure : Closure) (st : State)
          (v : ObjectHolder) (s1 : Closure × State),
        Execute classes fuel (.MethodBody body_) closure st
          ≠ .thrown (Exception.ReturnException v) s1) ∧
      (∀ (fuel self : Nat) (class_ : runtime.Class) (method : List Char)
          (args : List ObjectHolder) (method_ptr : Method) (body_ : Option Statement)
          (st st1 : State) (v : ObjectHolder),
        classOf classes st self = some class_ → class_.GetMethod method = some method_ptr →
        method_ptr.body = .MethodBody body_ →
        ClassInstance.Call (Execute classes fuel) classes self method args st
          ≠ .thrown (Exception.ReturnException v) st1) := by
  refine ⟨?_, ?_, MethodBody_not_thrown_Return classes, ?_⟩
  · simp [Execute, Execute.step, h.throws]
  · intro fuel body closure st x s1 hx
    simp [Execute, Execute.step, hx]
  · intro fuel self class_ method args method_ptr body_ st st1 v hc hm hb
    by_cases hh : ClassInstance.HasMethod class_ method args.length = true
    · have hn : method_ptr.formal_params.length = args.length := by
        simpa [ClassInstance.HasMethod, hm] using hh
      rw [ClassInstance.Call_of_HasMethod _ classes st self class_ method args method_ptr hc hm hn,
        hb]
      intro hcontra
      cases hx : Execute classes fuel (.MethodBody body_)
          (ClassInstance.bindParams method_ptr.formal_params args
            [("self".toList, ObjectHolder.ClassInstance self)]) st with
      | ok v1 s1 => rw [hx] at hcontra; simp [dropClosure] at hcontra
      | thrown e s1 =>
        rw [hx] at hcontra
        simp only [dropClosure, Outcome.thrown.injEq] at hcontra
        rw [hcontra.1] at hx
        exact MethodBody_not_thrown_Return classes fuel body_ _ st v s1 hx
      | undefined => rw [hx] at hcontra; simp [dropClosure] at hcontra
      | timeout => rw [hx] at hcontra; simp [dropClosure] at hcontra
    · simp [ClassInstance.Call, hc, hh]

theorem MethodBody_first_return_witness :
    FirstReturn [] 5
        (.Compound [.Print [.Const (.String "a".toList)],
          .IfElse (some (.Const (.Number 1)))
            (.Compound [.Return (some (.Const (.Number 42))),
              .Print [.Const (.String "b".toList)]])
            none,
          .Print [.Const (.String "c".toList)]])
        ([], ⟨[], []⟩) (.Number 42) ([], ⟨[], "a\n".toList⟩) ∧
      Execute [] (5 + 1)
        (.MethodBody (some (.Compound [.Print [.Const (.String "a".toList)],
          .IfElse (some (.Const (.Number 1)))
            (.Compound [.Return (some (.Const (.Number 42))),
              .Print [.Const (.String "b".toList)]])
            none,
          .Print [.Const (.String "c".toList)]])))
        [] ⟨[], []⟩
        = .ok (.Number 42) ([], ⟨[], "a\n".toList⟩) :=
  have h : FirstReturn [] 5
      (.Compound [.Print [.Const (.String "a".toList)],
        .IfElse (some (.Const (.Number 1)))
          (.Compound [.Return (some (.Const (.Number 42))),
            .Print [.Const (.String "b".toList)]])
          none,
        .Print [.Const (.String "c".toList)]])
      ([], ⟨[], []⟩) (.Number 42) ([], ⟨[], "a\n".toList⟩) :=
    FirstReturn.compound 4 [.Print [.Const (.String "a".toList)]]
      [.Print [.Const (.String "c".toList)]] _ ([], ⟨[], []⟩) ([], ⟨[], "a\n".toList⟩) _ _ rfl
      (FirstReturn.ifBody 3 _ _ _ _ ([], ⟨[], "a\n".toList⟩) _ (.Number 1) _ rfl rfl
        (FirstReturn.compound 2 [] [.Print [.Const (.String "b".toList)]] _ _
          ([], ⟨[], "a\n".toList⟩) _ _ rfl
          (FirstReturn.value 1 _ _ _ _ rfl)))
  ⟨h, (MethodBody_first_return [] 5 _ _ _ _ h).1⟩

/-- C20, as the code has it: a `NewInstance` node constructs nothing, it works
on the instance it holds itself (`class_instance_`), which exists before the
execution.  Without an `__init__` of matching arity the execution returns the
holder of that instance and changes neither the closure nor the state; with one,
the arguments are evaluated in order, `__init__` is called on that instance in
the state the arguments have left, with the fields the instance has there, the
holder is returned in the state `__init__` leaves, and an exception of an
argument or of `__init__` passes through.  Every value the node returns is the
holder of that one instance, and a field set in it after one execution is a
field of the instance the next execution returns. -/
theorem NewInstance_returns_member (classes : List runtime.Class) (fuel : Nat)
    (class_instance_ : Nat) (args_ : List Statement) (closure : Closure) (st : State)
    (class_ : runtime.Class) (hc : classOf classes st class_instance_ = some class_) :
    (ClassInstance.HasMethod class_ INIT_METHOD args_.length = false →
        Execute classes (fuel + 1) (.NewInstance class_instance_ args_) closure st
          = .ok (.ClassInstance class_instance_) (closure, st)) ∧
      (ClassInstance.HasMethod class_ INIT_METHOD args_.length = true →
        (∀ values s, evalArgs (Execute classes fuel) args_ closure st = .ok values s →
          (∀ result st', ClassInstance.Call (Execute classes fuel) classes class_instance_
              INIT_METHOD values s.2 = .ok result st' →
            Execute classes (fuel + 1) (.NewInstance class_instance_ args_) closure st
              = .ok (.ClassInstance class_instance_) (s.1, st')) ∧
          (∀ e st', ClassInstance.Call (Execute classes fuel) classes class_instance_
              INIT_METHOD values s.2 = .thrown e st' →
            Execute classes (fuel + 1) (.NewInstance class_instance_ args_) closure st
              = .thrown e (s.1, st'))) ∧
        (∀ e s, evalArgs (Execute classes fuel) args_ closure st = .thrown e s →
          Execute classes (fuel + 1) (.NewInstance class_instance_ args_) closure st
            = .thrown e s)) ∧
      (∀ value s', Execute classes (fuel + 1) (.NewInstance class_instance_ args_) closure st
          = .ok value s' → value = .ClassInstance class_instance_) ∧
      (ClassInstance.HasMethod class_ INIT_METHOD args_.length = false →
        ∀ (name field_name : List Char) (value : ObjectHolder),
          Closure.find closure name = some (.ClassInstance class_instance_) →
          Execute classes (fuel + 2) (.FieldAssignment [name] field_name (.Const value)) closure st
              = .ok value (closure, st.setField class_instance_ field_name value) ∧
            Execute classes (fuel + 1) (.NewInstance class_instance_ args_) closure
                (st.setField class_instance_ field_name value)
              = .ok (.ClassInstance class_instance_)
                  (closure, st.setField class_instance_ field_name value) ∧
            ∃ instance1,
              (st.setField class_instance_ field_name value).instances[class_instance_]?
                = some instance1 ∧
              Closure.find instance1.fields_ field_name = some value) := by
  have hE : ∀ st1, Execute classes (fuel + 1) (.NewInstance class_instance_ args_) closure st1
      = match classOf classes st1 class_instance_ with
        | none => .undefined
        | some class_ =>
          if ClassInstance.HasMethod class_ INIT_METHOD args_.length then
            (evalArgs (Execute classes fuel) args_ closure st1).bind fun args_values s =>
              (withClosure s.1 (ClassInstance.Call (Execute classes fuel) classes
                class_instance_ INIT_METHOD args_values s.2)).bind
                fun _ s => .ok (.ClassInstance class_instance_) s
          else .ok (.ClassInstance class_instance_) (closure, st1) := fun _ => rfl
  refine ⟨?_, ?_, ?_, ?_⟩
  · intro hf
    rw [hE, hc]
    simp [hf]
  · intro ht
    refine ⟨fun values s ha => ⟨fun result st' hcall => ?_, fun e st' hcall => ?_⟩,
      fun e s ha => ?_⟩
    · rw [hE, hc]
      simp [ht, ha, hcall, Outcome.bind, withClosure]
    · rw [hE, hc]
      simp [ht, ha, hcall, Outcome.bind, withClosure]
    · rw [hE, hc]
      simp [ht, ha, Outcome.bind]
  · intro value s' h
    rw [hE, hc] at h
    simp only [] at h
    by_cases hh : ClassInstance.HasMethod class_ INIT_METHOD args_.length = true
    · rw [if_pos hh] at h
      cases ha : evalArgs (Execute classes fuel) args_ closure st with
      | ok values s =>
        rw [ha] at h
        simp only [Outcome.bind] at h
        cases hcall : ClassInstance.Call (Execute classes fuel) classes class_instance_
            INIT_METHOD values s.2 with
        | ok v st1 =>
          rw [hcall] at h
          simp only [withClosure, Outcome.ok.injEq] at h
          exact h.1.symm
        | thrown e st1 => rw [hcall] at h; simp [withClosure] at h
        | undefined => rw [hcall] at h; simp [withClosure] at h
        | timeout => rw [hcall] at h; simp [withClosure] at h
      | thrown e s => rw [ha] at h; simp [Outcome.bind] at h
      | undefined => rw [ha] at h; simp [Outcome.bind] at h
      | timeout => rw [ha] at h; simp [Outcome.bind] at h
    · rw [if_neg hh] at h
      simp only [Outcome.ok.injEq] at h
      exact h.1.symm
  · intro hf name field_name value hn
    obtain ⟨instance_, hi⟩ : ∃ instance_, st.instances[class_instance_]? = some instance_ := by
      cases hi : st.instances[class_instance_]? with
      | none => simp [classOf, hi] at hc
      | some instance_ => exact ⟨instance_, rfl⟩
    have hlt : class_instance_ < st.instances.length := by
      rcases Nat.lt_or_ge class_instance_ st.instances.length with h | h
      · exact h
      · rw [List.getElem?_eq_none h] at hi
        cases hi
    have hset : st.setField class_instance_ field_name value
        = ⟨st.instances.set class_instance_
            ⟨instance_.class_, Closure.set instance_.fields_ field_name value⟩, st.output⟩ := by
      simp [State.setField, hi]
    have hget : (st.setField class_instance_ field_name value).instances[class_instance_]?
        = some ⟨instance_.class_, Closure.set instance_.fields_ field_name value⟩ := by
      rw [hset]
      exact List.getElem?_set_self hlt
    refine ⟨?_, ?_, _, hget, ?_⟩
    · have hF : Execute classes (fuel + 2) (.FieldAssignment [name] field_name (.Const value))
            closure st
          = (VariableValue.Execute [name] closure st).bind fun object_value s =>
              match object_value with
              | .None => .ok .None s
              | .ClassInstance object =>
                (Execute classes (fuel + 1) (.Const value) s.1 s.2).bind fun value s =>
                  match s.2.instances[object]? with
                  | some instance_ =>
                    let fields := Closure.set instance_.fields_ field_name value
                    .ok value (s.1,
                      { s.2 with
                        instances := s.2.instances.set object { instance_ with fields_ := fields } })
                  | none => .undefined
              | _ => .undefined := rfl
      have hV : VariableValue.Execute [name] closure st
          = .ok (.ClassInstance class_instance_) (closure, st) := by
        simp [VariableValue.Execute, VariableValue.loop, hn, hi]
      have hC : Execute classes (fuel + 1) (.Const value) closure st = .ok value (closure, st) :=
        rfl
      rw [hF, hV]
      simp only [Outcome.bind, hC, hi, hset]
    · have hc1 : classOf classes (st.setField class_instance_ field_name value) class_instance_
          = some class_ := by
        simp only [classOf, hget]
        simpa [classOf, hi] using hc
      rw [hE, hc1]
      simp [hf]
    · simp [Closure.find_set]

theorem NewInstance_returns_member_witness :
    classOf [Class.new "A".toList [⟨"__init__".toList, ["v".toList],
          .MethodBody (some (.FieldAssignment ["self".toList] "x".toList
            (.VariableValue ["v".toList])))⟩] none]
        ⟨[⟨0, [("y".toList, .Number 1)]⟩], []⟩ 0
      = some (Class.new "A".toList [⟨"__init__".toList, ["v".toList],
          .MethodBody (some (.FieldAssignment ["self".toList] "x".toList
            (.VariableValue ["v".toList])))⟩] none) ∧
    Execute [Class.new "A".toList [⟨"__init__".toList, ["v".toList],
          .MethodBody (some (.FieldAssignment ["self".toList] "x".toList
            (.VariableValue ["v".toList])))⟩] none] (4 + 1)
        (.NewInstance 0 [.Const (.Number 7)]) [] ⟨[⟨0, [("y".toList, .Number 1)]⟩], []⟩
      = .ok (.ClassInstance 0)
          ([], ⟨[⟨0, [("y".toList, .Number 1), ("x".toList, .Number 7)]⟩], []⟩) :=
  ⟨rfl,
    ((NewInstance_returns_member
      [Class.new "A".toList [⟨"__init__".toList, ["v".toList],
        .MethodBody (some (.FieldAssignment ["self".toList] "x".toList
          (.VariableValue ["v".toList])))⟩] none] 4 0 [.Const (.Number 7)] []
      ⟨[⟨0, [("y".toList, .Number 1)]⟩], []⟩
      (Class.new "A".toList [⟨"__init__".toList, ["v".toList],
        .MethodBody (some (.FieldAssignment ["self".toList] "x".toList
          (.VariableValue ["v".toList])))⟩] none) rfl).2.1 rfl).1 [.Number 7]
      ([], ⟨[⟨0, [("y".toList, .Number 1)]⟩], []⟩) rfl |>.1 .None
      ⟨[⟨0, [("y".toList, .Number 1), ("x".toList, .Number 7)]⟩], []⟩ rfl⟩

/-- C20, refuted: the method `make` returns `A()`; the program
`f = Factory()`, `a = f.make()`, `a.x = 1`, `b = f.make()`, `print b.x` prints
`1`: both calls give the same instance, and the field set through `a` is seen
through `b`. -/
theorem NewInstance_twice_same_instance :
    Execute
        [Class.new "Factory".toList [⟨"make".toList, [],
            .MethodBody (some (.Return (some (.NewInstance 1 []))))⟩] none,
          Class.new "A".toList [] none]
        7
        (.Compound [
          .Assignment "f".toList (.NewInstance 0 []),
          .Assignment "a".toList
            (.MethodCall (some (.VariableValue ["f".toList])) "make".toList []),
          .FieldAssignment ["a".toList] "x".toList (.Const (.Number 1)),
          .Assignment "b".toList
            (.MethodCall (some (.VariableValue ["f".toList])) "make".toList []),
          .Print [.VariableValue ["b".toList, "x".toList]]])
        [] ⟨[⟨0, []⟩, ⟨1, []⟩], []⟩
      = .ok .None
          ([("f".toList, .ClassInstance 0), ("a".toList, .ClassInstance 1),
              ("b".toList, .ClassInstance 1)],
            ⟨[⟨0, []⟩, ⟨1, [("x".toList, .Number 1)]⟩], "1\n".toList⟩) :=
  rfl

end ast

/-! ### Assignment and variable lookup -/

namespace ast

open runtime

/-- C21: when the right-hand side `rv_` evaluates to `value`, leaving the
closure `s.1` and the state `s.2`, `Assignment(var_, rv_)` returns `value`,
leaves the state `s.2`, and leaves the closure `s.1` with `var_` bound to
`value` and every other name bound as in `s.1`. -/
theorem Assignment_binds (classes : List runtime.Class) (fuel : Nat) (var_ : List Char)
    (rv_ : Statement) (closure : Closure) (st : State) (value : ObjectHolder)
    (s : Closure × State)
    (h : Execute classes fuel rv_ closure st = .ok value s) :
    ∃ closure', Execute classes (fuel + 1) (.Assignment var_ rv_) closure st
        = .ok value (closure', s.2) ∧
      Closure.find closure' var_ = some value ∧
      ∀ name, name ≠ var_ → Closure.find closure' name = Closure.find s.1 name := by
  refine ⟨Closure.set s.1 var_ value, ?_, ?_, ?_⟩
  · simp [Execute, Execute.step, h, Outcome.bind]
  · rw [Closure.find_set]; simp
  · intro name hn
    rw [Closure.find_set]; simp [hn]

theorem Assignment_binds_witness :
    Execute [] 2 (.Add (some (.VariableValue ["y".toList])) (some (.Const (.Number 2))))
        [("x".toList, .Number 0), ("y".toList, .Number 5)] ⟨[], []⟩
      = .ok (.Number 7) ([("x".toList, .Number 0), ("y".toList, .Number 5)], ⟨[], []⟩) ∧
    ∃ closure', Execute [] (2 + 1)
        (.Assignment "x".toList
          (.Add (some (.VariableValue ["y".toList])) (some (.Const (.Number 2)))))
        [("x".toList, .Number 0), ("y".toList, .Number 5)] ⟨[], []⟩
        = .ok (.Number 7) (closure', ⟨[], []⟩) ∧
      Closure.find closure' "x".toList = some (.Number 7) ∧
      ∀ name, name ≠ "x".toList → Closure.find closure' name
        = Closure.find [("x".toList, .Number 0), ("y".toList, .Number 5)] name :=
  ⟨rfl, Assignment_binds [] 2 "x".toList
    (.Add (some (.VariableValue ["y".toList])) (some (.Const (.Number 2))))
    [("x".toList, .Number 0), ("y".toList, .Number 5)] ⟨[], []⟩ (.Number 7)
    ([("x".toList, .Number 0), ("y".toList, .Number 5)], ⟨[], []⟩) rfl⟩

end ast

namespace ast

open runtime

theorem VariableValue.loop_cons (st : State) (id : List Char) (ids : List (List Char))
    (scope : Closure) (r : ObjectHolder) :
    VariableValue.loop st (id :: ids) scope r
      = match Closure.find scope id with
        | none => some none
        | some value =>
          match VariableValue.nextScope st scope value with
          | some scope' => VariableValue.loop st ids scope' value
          | none => none := by
  rw [VariableValue.loop]
  cases hf : Closure.find scope id with
  | none => rfl
  | some value =>
    cases value <;> simp only [VariableValue.nextScope]
    case ClassInstance object =>
      cases st.instances[object]? <;> rfl

theorem VariableValue.loop_unbound (st : State) :
    ∀ (ids : List (List Char)) (scope : Closure) (r : ObjectHolder),
      VariableValue.loop st ids scope r = some none ↔ VariableValue.Unbound st scope ids
  | [], scope, r => by
    constructor
    · intro h; simp [VariableValue.loop] at h
    · intro h; cases h
  | id :: ids, scope, r => by
    rw [VariableValue.loop_cons]
    constructor
    · intro h
      cases hf : Closure.find scope id with
      | none => exact .here scope id ids hf
      | some value =>
        rw [hf] at h
        simp only [] at h
        cases hn : VariableValue.nextScope st scope value with
        | none => rw [hn] at h; simp at h
        | some scope' =>
          rw [hn] at h
          exact .later scope scope' id ids value hf hn
            ((VariableValue.loop_unbound st ids scope' value).1 h)
    · intro h
      cases h with
      | here _ _ _ hf => rw [hf]
      | later _ scope' _ _ value hf hn hu =>
        rw [hf]
        simp only [hn]
        exact (VariableValue.loop_unbound st ids scope' value).2 hu

theorem VariableValue.loop_resolves (st : State) :
    ∀ (ids : List (List Char)) (scope : Closure) (r result : ObjectHolder), ids ≠ [] →
      (VariableValue.loop st ids scope r = some (some result)
        ↔ VariableValue.Resolves st scope ids result)
  | [], _, _, _, h => absurd rfl h
  | [id], scope, r, result, _ => by
    rw [VariableValue.loop_cons]
    constructor
    · intro h
      cases hf : Closure.find scope id with
      | none => rw [hf] at h; simp at h
      | some value =>
        rw [hf] at h
        simp only [] at h
        cases hn : VariableValue.nextScope st scope value with
        | none => rw [hn] at h; simp at h
        | some scope' =>
          rw [hn] at h
          simp only [VariableValue.loop, Option.some.injEq] at h
          subst h
          exact .last scope scope' id value hf hn
    · intro h
      cases h with
      | last _ scope' _ _ hf hn =>
        rw [hf]
        simp only [hn, VariableValue.loop]
  | id :: id' :: ids, scope, r, result, _ => by
    rw [VariableValue.loop_cons]
    constructor
    · intro h
      cases hf : Closure.find scope id with
      | none => rw [hf] at h; simp at h
      | some value =>
        rw [hf] at h
        simp only [] at h
        cases hn : VariableValue.nextScope st scope value with
        | none => rw [hn] at h; simp at h
        | some scope' =>
          rw [hn] at h
          exact .step scope scope' id id' ids value result hf hn
            ((VariableValue.loop_resolves st (id' :: ids) scope' value result (by simp)).1 h)
    · intro h
      cases h with
      | step _ scope' _ _ _ value _ hf hn hr =>
        rw [hf]
        simp only [hn]
        exact (VariableValue.loop_resolves st (id' :: ids) scope' value result (by simp)).2 hr

/-- C22: `VariableValue(ids)` throws `runtime_error` exactly when `ids` is empty
or some name is not bound in the scope that is active when it is looked up (the
closure for the first name, the fields of the value found last when that is a
class instance); it throws nothing else; when every name is bound it returns
the value of the last name; and it never changes the closure or the state. -/
theorem VariableValue_resolves (classes : List runtime.Class) (fuel : Nat)
    (ids : List (List Char)) (closure : Closure) (st : State) :
    (Execute classes (fuel + 1) (.VariableValue ids) closure st
        = .thrown Exception.runtime_error (closure, st)
      ↔ ids = [] ∨ VariableValue.Unbound st closure ids) ∧
      (∀ e s, Execute classes (fuel + 1) (.VariableValue ids) closure st = .thrown e s →
        e = Exception.runtime_error ∧ s = (closure, st)) ∧
      (∀ result, VariableValue.Resolves st closure ids result ↔
        Execute classes (fuel + 1) (.VariableValue ids) closure st = .ok result (closure, st)) ∧
      (∀ result s, Execute classes (fuel + 1) (.VariableValue ids) closure st = .ok result s →
        s = (closure, st)) := by
  have hE : Execute classes (fuel + 1) (.VariableValue ids) closure st
      = VariableValue.Execute ids closure st := rfl
  rw [hE]
  cases ids with
  | nil =>
    refine ⟨by simp [VariableValue.Execute], ?_, ?_, ?_⟩
    · intro e s h
      simp only [VariableValue.Execute, List.length_nil, gt_iff_lt, lt_self_iff_false, if_false,
        Outcome.thrown.injEq] at h
      exact ⟨h.1.symm, h.2.symm⟩
    · intro result
      constructor
      · intro h; cases h
      · intro h; simp [VariableValue.Execute] at h
    · intro result s h
      simp [VariableValue.Execute] at h
  | cons id ids =>
    have hpos : (id :: ids).length > 0 := by simp
    have hU := VariableValue.loop_unbound st (id :: ids) closure ObjectHolder.None
    have hR := fun result =>
      VariableValue.loop_resolves st (id :: ids) closure ObjectHolder.None result (by simp)
    simp only [VariableValue.Execute, hpos, if_true]
    cases hl : VariableValue.loop st (id :: ids) closure ObjectHolder.None with
    | none =>
      rw [hl] at hU
      refine ⟨?_, ?_, ?_, ?_⟩
      · constructor
        · intro h; simp at h
        · intro h
          rcases h with h | h
          · simp at h
          · have := hU.2 h
            simp at this
      · intro e s h; simp at h
      · intro result
        have := hR result
        rw [hl] at this
        simp only [false_iff] at this ⊢
        simpa using this
      · intro result s h; simp at h
    | some o =>
      cases o with
      | none =>
        rw [hl] at hU
        refine ⟨?_, ?_, ?_, ?_⟩
        · simp only [true_iff]
          exact Or.inr (hU.1 rfl)
        · intro e s h
          simp only [Outcome.thrown.injEq] at h
          exact ⟨h.1.symm, h.2.symm⟩
        · intro result
          have := hR result
          rw [hl] at this
          simp only [Option.some.injEq, false_iff] at this
          simpa using this
        · intro result s h; simp at h
      | some value =>
        rw [hl] at hU
        refine ⟨?_, ?_, ?_, ?_⟩
        · constructor
          · intro h; simp at h
          · intro h
            rcases h with h | h
            · simp at h
            · have := hU.2 h
              simp at this
        · intro e s h; simp at h
        · intro result
          have := hR result
          rw [hl] at this
          simp only [Option.some.injEq] at this
          rw [← this]
          simp
        · intro result s h
          simp only [Outcome.ok.injEq] at h
          exact h.2.symm

end ast

namespace ast

open runtime

theorem VariableValue_resolves_witness :
    VariableValue.Resolves ⟨[⟨0, [("f".toList, .Number 5)]⟩], []⟩
        [("x".toList, .ClassInstance 0)] ["x".toList, "f".toList] (.Number 5) ∧
      Execute [] 1 (.VariableValue ["x".toList, "f".toList]) [("x".toList, .ClassInstance 0)]
          ⟨[⟨0, [("f".toList, .Number 5)]⟩], []⟩
        = .ok (.Number 5)
            ([("x".toList, .ClassInstance 0)], ⟨[⟨0, [("f".toList, .Number 5)]⟩], []⟩) ∧
      Execute [] 1 (.VariableValue ["x".toList, "g".toList]) [("x".toList, .ClassInstance 0)]
          ⟨[⟨0, [("f".toList, .Number 5)]⟩], []⟩
        = .thrown Exception.runtime_error
            ([("x".toList, .ClassInstance 0)], ⟨[⟨0, [("f".toList, .Number 5)]⟩], []⟩) :=
  have h : VariableValue.Resolves ⟨[⟨0, [("f".toList, .Number 5)]⟩], []⟩
      [("x".toList, .ClassInstance 0)] ["x".toList, "f".toList] (.Number 5) :=
    .step _ [("f".toList, .Number 5)] _ _ _ (.ClassInstance 0) _ rfl rfl
      (.last _ [("f".toList, .Number 5)] _ _ rfl rfl)
  ⟨h,
    ((VariableValue_resolves [] 0 ["x".toList, "f".toList] [("x".toList, .ClassInstance 0)]
      ⟨[⟨0, [("f".toList, .Number 5)]⟩], []⟩).2.2.1 (.Number 5)).1 h,
    (VariableValue_resolves [] 0 ["x".toList, "g".toList] [("x".toList, .ClassInstance 0)]
      ⟨[⟨0, [("f".toList, .Number 5)]⟩], []⟩).1.2
      (Or.inr (.later _ [("f".toList, .Number 5)] _ _ (.ClassInstance 0) rfl rfl
        (.here _ _ _ rfl)))⟩

end ast

/-! ### Print -/

namespace ast

open runtime

theorem PrintObject_repr (exec : Exec) (classes : List runtime.Class) (fuel : Nat)
    (value : ObjectHolder) (text : List Char) (st : State) (hv : value ≠ .None)
    (h : Print.repr classes value = some text) :
    PrintObject exec classes (fuel + 1) value st = .ok () (st.write text) := by
  cases value with
  | None => exact absurd rfl hv
  | Number n =>
    simp only [Print.repr, Option.some.injEq] at h
    subst h; rfl
  | String s =>
    simp only [Print.repr, Option.some.injEq] at h
    subst h; rfl
  | Bool b =>
    simp only [Print.repr, Option.some.injEq] at h
    subst h; rfl
  | Class cls =>
    simp only [Print.repr] at h
    simp only [PrintObject]
    cases hc : classes[cls]? with
    | none => rw [hc] at h; simp at h
    | some class_ =>
      rw [hc] at h
      simp only [Option.some.injEq] at h
      subst h
      simp [State.write, List.append_assoc]
  | ClassInstance self => simp [Print.repr] at h

theorem intercalate_cons_cons {α : Type} (sep x y : List α) (xs : List (List α)) :
    List.intercalate sep (x :: y :: xs) = x ++ sep ++ List.intercalate sep (y :: xs) := by
  simp [List.intercalate, List.intersperse, List.append_assoc]

theorem Print.loop_evaluates (exec : Exec) (classes : List runtime.Class) (fuel : Nat) :
    ∀ (i : Nat) (args : List Statement) (closure : Closure) (st : State)
      (pieces : List (List Char × List Char)) (closure' : Closure) (st' : State),
      Print.Evaluates exec classes i args closure st pieces closure' st' →
      Print.loop exec classes (fuel + 1) args i closure st = .ok () (closure', st') ∧
        st'.output = st.output ++ (if i > 0 ∧ pieces ≠ [] then " ".toList else []) ++
          List.intercalate " ".toList (pieces.map fun p => p.1 ++ p.2) := by
  intro i args closure st pieces closure' st' h
  induction h with
  | nil i closure st => simp [Print.loop, List.intercalate]
  | cons i arg args closure closure' st st' value s written text rest he hw hr _ ih =>
    have hp : (match value with
        | .None => Outcome.ok () { s.2 with output := s.2.output ++ "None".toList }
        | _ => PrintObject exec classes (fuel + 1) value s.2) = .ok () (s.2.write text) := by
      by_cases hv : value = .None
      · subst hv
        simp only [Print.repr, Option.some.injEq] at hr
        subst hr; rfl
      · rw [← PrintObject_repr exec classes fuel value text s.2 hv hr]
        cases value <;> first | rfl | exact absurd rfl hv
    constructor
    · rw [Print.loop]
      simp only [State.write] at he
      simp only [he, Outcome.bind, hp]
      exact ih.1
    · rw [ih.2]
      simp only [State.write, hw]
      cases rest with
      | nil =>
        by_cases hi : i > 0 <;>
          simp [hi, State.write, List.intercalate, List.append_assoc]
      | cons p rest =>
        by_cases hi : i > 0 <;>
          simp [hi, State.write, intercalate_cons_cons, List.append_assoc]

/-- C23: when the arguments of `Print` evaluate one after the other, each
writing `written_k` itself and giving a value whose text is `text_k` (`None`,
`True`/`False`, the decimal digits, the raw content, `Class ` and the name), then
`Print` returns `None` and the output has grown by exactly
`written_1 ++ text_1 ++ " " ++ ... ++ " " ++ written_n ++ text_n ++ "\n"`,
which is `"\n"` alone for no argument. -/
theorem Print_writes (classes : List runtime.Class) (fuel : Nat) (args : List Statement)
    (closure closure' : Closure) (st st' : State) (pieces : List (List Char × List Char))
    (h : Print.Evaluates (Execute classes (fuel + 1)) classes 0 args closure st pieces
      closure' st') :
    Execute classes (fuel + 2) (.Print args) closure st
        = .ok .None (closure', st'.write "\n".toList) ∧
      (st'.write "\n".toList).output
        = st.output ++ List.intercalate " ".toList (pieces.map fun p => p.1 ++ p.2)
          ++ "\n".toList := by
  have hl := Print.loop_evaluates (Execute classes (fuel + 1)) classes fuel 0 args closure st
    pieces closure' st' h
  constructor
  · show Execute.step (Execute classes (fuel + 1)) classes (fuel + 1) (.Print args) closure st = _
    simp only [Execute.step, hl.1, Outcome.bind]
    rfl
  · simp only [State.write, hl.2]
    simp

theorem Print_writes_witness :
    Print.Evaluates (Execute [] 3) [] 0
        [.Const (.Number 15), .Print [.Const (.String "a".toList)], .Const (.Bool true)]
        [] ⟨[], "> ".toList⟩
        [([], "15".toList), ("a\n".toList, "None".toList), ([], "True".toList)]
        [] ⟨[], "> 15 a\nNone True".toList⟩ ∧
      Execute [] 4
          (.Print [.Const (.Number 15), .Print [.Const (.String "a".toList)], .Const (.Bool true)])
          [] ⟨[], "> ".toList⟩
        = .ok .None ([], ⟨[], "> 15 a\nNone True\n".toList⟩) :=
  have h : Print.Evaluates (Execute [] 3) [] 0
      [.Const (.Number 15), .Print [.Const (.String "a".toList)], .Const (.Bool true)]
      [] ⟨[], "> ".toList⟩
      [([], "15".toList), ("a\n".toList, "None".toList), ([], "True".toList)]
      [] ⟨[], "> 15 a\nNone True".toList⟩ :=
    .cons 0 _ _ [] [] _ _ (.Number 15) ([], ⟨[], "> ".toList⟩) _ _ _ rfl rfl rfl
      (.cons 1 _ _ [] [] _ _ .None ([], ⟨[], "> 15 a\n".toList⟩) _ _ _ rfl rfl rfl
        (.cons 2 _ _ [] [] _ _ (.Bool true) ([], ⟨[], "> 15 a\nNone ".toList⟩) _ _ _ rfl rfl rfl
          (.nil 3 [] _)))
  ⟨h, (Print_writes [] 2 _ [] [] ⟨[], "> ".toList⟩ ⟨[], "> 15 a\nNone True".toList⟩ _ h).1⟩

end ast

/-! ### Arithmetic and logical nodes -/

namespace ast

open runtime

theorem evalOperands_ok (exec : Exec) (lhs rhs : Statement) (closure : Closure) (st : State)
    (l r : ObjectHolder) (s1 s2 : Closure × State) (hl : exec lhs closure st = .ok l s1)
    (hr : exec rhs s1.1 s1.2 = .ok r s2) :
    evalOperands exec (some lhs) (some rhs) closure st = .ok (l, r) s2 := by
  simp [evalOperands, hl, hr, Outcome.bind]

/-- C24: when `lhs` evaluates to `l` and then `rhs` to `r`, `Add` returns
`Number(a + b)` on two numbers (the sum being an `int`), `String(s ++ t)` on two
strings, what `l.__add__(r)` returns when `l` is an instance whose class has
`__add__` with one parameter, whatever `r` is, and throws `runtime_error` in
every other case. -/
theorem Add_cases (classes : List runtime.Class) (fuel : Nat) (lhs rhs : Statement)
    (closure : Closure) (st : State) (l r : ObjectHolder) (s1 s2 : Closure × State)
    (hl : Execute classes fuel lhs closure st = .ok l s1)
    (hr : Execute classes fuel rhs s1.1 s1.2 = .ok r s2) :
    (∀ a b, l = .Number a → r = .Number b → inInt (a + b) = true →
        Execute classes (fuel + 1) (.Add (some lhs) (some rhs)) closure st
          = .ok (.Number (a + b)) s2) ∧
      (∀ s t, l = .String s → r = .String t →
        Execute classes (fuel + 1) (.Add (some lhs) (some rhs)) closure st
          = .ok (.String (s ++ t)) s2) ∧
      (∀ self class_, l = .ClassInstance self → classOf classes s2.2 self = some class_ →
        ClassInstance.HasMethod class_ ADD_METHOD 1 = true →
        Execute classes (fuel + 1) (.Add (some lhs) (some rhs)) closure st
          = withClosure s2.1
              (ClassInstance.Call (Execute classes fuel) classes self ADD_METHOD [r] s2.2)) ∧
      ((∀ a b, ¬ (l = .Number a ∧ r = .Number b)) → (∀ s t, ¬ (l = .String s ∧ r = .String t)) →
        (∀ self, l = .ClassInstance self → ∃ class_, classOf classes s2.2 self = some class_ ∧
          ClassInstance.HasMethod class_ ADD_METHOD 1 = false) →
        Execute classes (fuel + 1) (.Add (some lhs) (some rhs)) closure st
          = .thrown Exception.runtime_error s2) := by
  have hE : Execute classes (fuel + 1) (.Add (some lhs) (some rhs)) closure st
      = Execute.step (Execute classes fuel) classes fuel (.Add (some lhs) (some rhs)) closure st :=
    rfl
  have ho := evalOperands_ok (Execute classes fuel) lhs rhs closure st l r s1 s2 hl hr
  rw [hE]
  simp only [Execute.step, ho, Outcome.bind]
  refine ⟨?_, ?_, ?_, ?_⟩
  · intro a b ha hb hi
    subst ha hb
    simp [ownNumber, hi]
  · intro s t hs ht
    subst hs ht
    rfl
  · intro self class_ hs hc hm
    subst hs
    simp [hc, hm]
  · intro hn hs hi
    cases l with
    | ClassInstance self =>
      obtain ⟨class_, hc, hm⟩ := hi self rfl
      simp [hc, hm]
    | Number a =>
      cases r <;> first | rfl | exact absurd ⟨rfl, rfl⟩ (hn _ _)
    | String s =>
      cases r <;> first | rfl | exact absurd ⟨rfl, rfl⟩ (hs _ _)
    | None => rfl
    | Bool b => rfl
    | Class cls => rfl

theorem Add_cases_witness :
    Execute [] 1 (.Const (.Number 2)) [] ⟨[], []⟩ = .ok (.Number 2) ([], ⟨[], []⟩) ∧
      Execute [] 1 (.Const (.Number 3)) [] ⟨[], []⟩ = .ok (.Number 3) ([], ⟨[], []⟩) ∧
      Execute [] 2 (.Add (some (.Const (.Number 2))) (some (.Const (.Number 3)))) [] ⟨[], []⟩
        = .ok (.Number 5) ([], ⟨[], []⟩) :=
  ⟨rfl, rfl,
    (Add_cases [] 1 (.Const (.Number 2)) (.Const (.Number 3)) [] ⟨[], []⟩ (.Number 2) (.Number 3)
      ([], ⟨[], []⟩) ([], ⟨[], []⟩) rfl rfl).1 2 3 rfl rfl rfl⟩

/-- C25: when `lhs` evaluates to `l` and then `rhs` to `r`, `Sub`, `Mult` and
`Div` return a value only on two numbers `a`, `b` (with `b` not `0` for `Div`),
and then `Number(a - b)`, `Number(a * b)` and the quotient truncated toward
zero, which they do return when that is an `int`; `Div` throws `runtime_error`
on every number and `0`, and all three on an operand that is no number. -/
theorem Sub_Mult_Div_cases (classes : List runtime.Class) (fuel : Nat) (lhs rhs : Statement)
    (closure : Closure) (st : State) (l r : ObjectHolder) (s1 s2 : Closure × State)
    (hl : Execute classes fuel lhs closure st = .ok l s1)
    (hr : Execute classes fuel rhs s1.1 s1.2 = .ok r s2) :
    (∀ a b, l = .Number a → r = .Number b →
        (inInt (a - b) = true →
          Execute classes (fuel + 1) (.Sub (some lhs) (some rhs)) closure st
            = .ok (.Number (a - b)) s2) ∧
        (inInt (a * b) = true →
          Execute classes (fuel + 1) (.Mult (some lhs) (some rhs)) closure st
            = .ok (.Number (a * b)) s2) ∧
        (b ≠ 0 → inInt (Int.tdiv a b) = true →
          Execute classes (fuel + 1) (.Div (some lhs) (some rhs)) closure st
            = .ok (.Number (Int.tdiv a b)) s2) ∧
        (b = 0 →
          Execute classes (fuel + 1) (.Div (some lhs) (some rhs)) closure st
            = .thrown Exception.runtime_error s2)) ∧
      ((∀ a, l ≠ .Number a) ∨ (∀ b, r ≠ .Number b) →
        Execute classes (fuel + 1) (.Sub (some lhs) (some rhs)) closure st
            = .thrown Exception.runtime_error s2 ∧
          Execute classes (fuel + 1) (.Mult (some lhs) (some rhs)) closure st
            = .thrown Exception.runtime_error s2 ∧
          Execute classes (fuel + 1) (.Div (some lhs) (some rhs)) closure st
            = .thrown Exception.runtime_error s2) ∧
      (∀ value s,
        (Execute classes (fuel + 1) (.Sub (some lhs) (some rhs)) closure st = .ok value s →
          ∃ a b, l = .Number a ∧ r = .Number b ∧ value = .Number (a - b) ∧ s = s2) ∧
        (Execute classes (fuel + 1) (.Mult (some lhs) (some rhs)) closure st = .ok value s →
          ∃ a b, l = .Number a ∧ r = .Number b ∧ value = .Number (a * b) ∧ s = s2) ∧
        (Execute classes (fuel + 1) (.Div (some lhs) (some rhs)) closure st = .ok value s →
          ∃ a b, l = .Number a ∧ r = .Number b ∧ b ≠ 0 ∧ value = .Number (Int.tdiv a b) ∧
            s = s2)) := by
  have hS : Execute classes (fuel + 1) (.Sub (some lhs) (some rhs)) closure st
      = Execute.step (Execute classes fuel) classes fuel (.Sub (some lhs) (some rhs)) closure st :=
    rfl
  have hM : Execute classes (fuel + 1) (.Mult (some lhs) (some rhs)) closure st
      = Execute.step (Execute classes fuel) classes fuel (.Mult (some lhs) (some rhs)) closure st :=
    rfl
  have hD : Execute classes (fuel + 1) (.Div (some lhs) (some rhs)) closure st
      = Execute.step (Execute classes fuel) classes fuel (.Div (some lhs) (some rhs)) closure st :=
    rfl
  have ho := evalOperands_ok (Execute classes fuel) lhs rhs closure st l r s1 s2 hl hr
  rw [hS, hM, hD]
  simp only [Execute.step, ho, Outcome.bind]
  refine ⟨?_, ?_, ?_⟩
  · intro a b ha hb
    subst ha hb
    refine ⟨?_, ?_, ?_, ?_⟩
    · intro hi; simp [ownNumber, hi]
    · intro hi; simp [ownNumber, hi]
    · intro hb hi; simp [ownNumber, hi, hb]
    · intro hb; simp [hb]
  · intro h
    rcases h with h | h
    · cases l <;> first | exact absurd rfl (h _) | exact ⟨rfl, rfl, rfl⟩
    · cases r <;> first | exact absurd rfl (h _) | (cases l <;> exact ⟨rfl, rfl, rfl⟩)
  · intro value s
    cases l <;> cases r <;> try (simp; done)
    case Number.Number a b =>
      simp only [ownNumber]
      refine ⟨?_, ?_, ?_⟩
      · intro h
        by_cases hi : inInt (a - b) = true
        · simp only [hi, if_true, Outcome.ok.injEq] at h
          exact ⟨a, b, rfl, rfl, h.1.symm, h.2.symm⟩
        · simp [hi] at h
      · intro h
        by_cases hi : inInt (a * b) = true
        · simp only [hi, if_true, Outcome.ok.injEq] at h
          exact ⟨a, b, rfl, rfl, h.1.symm, h.2.symm⟩
        · simp [hi] at h
      · intro h
        by_cases hb : b = 0
        · simp [hb] at h
        · by_cases hi : inInt (Int.tdiv a b) = true
          · simp only [hb, if_false, hi, if_true, Outcome.ok.injEq] at h
            exact ⟨a, b, rfl, rfl, hb, h.1.symm, h.2.symm⟩
          · simp [hb, hi] at h

theorem Sub_Mult_Div_cases_witness :
    Execute [] 1 (.Const (.Number (-7))) [] ⟨[], []⟩ = .ok (.Number (-7)) ([], ⟨[], []⟩) ∧
      Execute [] 1 (.Const (.Number 2)) [] ⟨[], []⟩ = .ok (.Number 2) ([], ⟨[], []⟩) ∧
      Execute [] 2 (.Sub (some (.Const (.Number (-7)))) (some (.Const (.Number 2)))) [] ⟨[], []⟩
        = .ok (.Number (-9)) ([], ⟨[], []⟩) ∧
      Execute [] 2 (.Mult (some (.Const (.Number (-7)))) (some (.Const (.Number 2)))) [] ⟨[], []⟩
        = .ok (.Number (-14)) ([], ⟨[], []⟩) ∧
      Execute [] 2 (.Div (some (.Const (.Number (-7)))) (some (.Const (.Number 2)))) [] ⟨[], []⟩
        = .ok (.Number (-3)) ([], ⟨[], []⟩) :=
  have h := (Sub_Mult_Div_cases [] 1 (.Const (.Number (-7))) (.Const (.Number 2)) [] ⟨[], []⟩
    (.Number (-7)) (.Number 2) ([], ⟨[], []⟩) ([], ⟨[], []⟩) rfl rfl).1 (-7) 2 rfl rfl
  ⟨rfl, rfl, h.1 rfl, h.2.1 rfl, h.2.2.1 (by decide) rfl⟩

/-- C26: when `lhs` evaluates to `l`, `Or` with a truthy `l` returns `Bool(true)`
in the closure and the state `lhs` left, whatever `rhs` is and would do; with a
falsy `l` it evaluates `rhs` there and returns `Bool(IsTrue(r))` for its value
`r`; and what `Or` returns is always a `Bool`. -/
theorem Or_short_circuits (classes : List runtime.Class) (fuel : Nat) (lhs : Statement)
    (closure : Closure) (st : State) (l : ObjectHolder) (s1 : Closure × State)
    (hl : Execute classes fuel lhs closure st = .ok l s1) :
    (IsTrue l = true → ∀ rhs,
        Execute classes (fuel + 1) (.Or (some lhs) (some rhs)) closure st = .ok (.Bool true) s1) ∧
      (IsTrue l = false → ∀ rhs,
        Execute classes (fuel + 1) (.Or (some lhs) (some rhs)) closure st
          = (Execute classes fuel rhs s1.1 s1.2).bind fun r s2 => .ok (.Bool (IsTrue r)) s2) ∧
      (∀ rhs value s,
        Execute classes (fuel + 1) (.Or (some lhs) (some rhs)) closure st = .ok value s →
        ∃ b, value = .Bool b) := by
  have hE : ∀ rhs, Execute classes (fuel + 1) (.Or (some lhs) (some rhs)) closure st
      = Execute.step (Execute classes fuel) classes fuel (.Or (some lhs) (some rhs)) closure st :=
    fun _ => rfl
  simp only [hE, Execute.step, hl, Outcome.bind]
  refine ⟨?_, ?_, ?_⟩
  · intro ht rhs
    simp [ht]
  · intro hf rhs
    simp only [hf, Bool.false_eq_true, if_false]
    cases Execute classes fuel rhs s1.1 s1.2 with
    | ok r s2 => cases h : IsTrue r <;> simp [h]
    | thrown e s2 => rfl
    | undefined => rfl
    | timeout => rfl
  · intro rhs value s h
    cases hL : IsTrue l
    · simp only [hL, Bool.false_eq_true, if_false] at h
      cases hR : Execute classes fuel rhs s1.1 s1.2 with
      | ok r s2 =>
        simp only [hR] at h
        cases hT : IsTrue r <;> simp [hT] at h <;> exact ⟨_, h.1.symm⟩
      | thrown e s2 => simp [hR] at h
      | undefined => simp [hR] at h
      | timeout => simp [hR] at h
    · simp only [hL, if_true, Outcome.ok.injEq] at h
      exact ⟨_, h.1.symm⟩

theorem Or_short_circuits_witness :
    Execute [] 1 (.Const (.Number 1)) [] ⟨[], []⟩ = .ok (.Number 1) ([], ⟨[], []⟩) ∧
      Execute [] 2 (.Or (some (.Const (.Number 1))) (some (.Print []))) [] ⟨[], []⟩
        = .ok (.Bool true) ([], ⟨[], []⟩) ∧
      Execute [] 2 (.Or (some (.Const (.Number 1))) (some (.VariableValue []))) [] ⟨[], []⟩
        = .ok (.Bool true) ([], ⟨[], []⟩) :=
  have h := (Or_short_circuits [] 1 (.Const (.Number 1)) [] ⟨[], []⟩ (.Number 1) ([], ⟨[], []⟩)
    rfl).1 rfl
  ⟨rfl, h (.Print []), h (.VariableValue [])⟩

/-- C27: when `lhs` evaluates to `l`, truthy or not, `And` evaluates `rhs` in
the closure and the state `lhs` left: it returns `Bool(IsTrue(l) and IsTrue(r))`
in what `rhs` leaves when `rhs` evaluates to `r`, and it throws what `rhs`
throws. -/
theorem And_evaluates_both (classes : List runtime.Class) (fuel : Nat) (lhs rhs : Statement)
    (closure : Closure) (st : State) (l : ObjectHolder) (s1 : Closure × State)
    (hl : Execute classes fuel lhs closure st = .ok l s1) :
    Execute classes (fuel + 1) (.And (some lhs) (some rhs)) closure st
        = ((Execute classes fuel rhs s1.1 s1.2).bind fun r s2 =>
            .ok (.Bool (IsTrue l && IsTrue r)) s2) ∧
      (∀ r s2, Execute classes fuel rhs s1.1 s1.2 = .ok r s2 →
        Execute classes (fuel + 1) (.And (some lhs) (some rhs)) closure st
          = .ok (.Bool (IsTrue l && IsTrue r)) s2) ∧
      (∀ e s2, Execute classes fuel rhs s1.1 s1.2 = .thrown e s2 →
        Execute classes (fuel + 1) (.And (some lhs) (some rhs)) closure st = .thrown e s2) := by
  have hE : Execute classes (fuel + 1) (.And (some lhs) (some rhs)) closure st
      = Execute.step (Execute classes fuel) classes fuel (.And (some lhs) (some rhs)) closure st :=
    rfl
  have h1 : Execute classes (fuel + 1) (.And (some lhs) (some rhs)) closure st
      = ((Execute classes fuel rhs s1.1 s1.2).bind fun r s2 =>
          .ok (.Bool (IsTrue l && IsTrue r)) s2) := by
    rw [hE]
    simp only [Execute.step, evalOperands, hl, Outcome.bind]
    cases Execute classes fuel rhs s1.1 s1.2 with
    | ok r s2 => cases h : (IsTrue l && IsTrue r) <;> simp [h]
    | thrown e s2 => rfl
    | undefined => rfl
    | timeout => rfl
  refine ⟨h1, ?_, ?_⟩
  · intro r s2 hr
    rw [h1, hr]; rfl
  · intro e s2 hr
    rw [h1, hr]; rfl

theorem And_evaluates_both_witness :
    Execute [] 2 (.Const (.Bool false)) [] ⟨[], []⟩ = .ok (.Bool false) ([], ⟨[], []⟩) ∧
      Execute [] 3 (.And (some (.Const (.Bool false))) (some (.Print [.Const (.Number 1)])))
          [] ⟨[], []⟩
        = .ok (.Bool false) ([], ⟨[], "1\n".toList⟩) ∧
      Execute [] 3 (.And (some (.Const (.Bool false))) (some (.VariableValue ["x".toList])))
          [] ⟨[], []⟩
        = .thrown Exception.runtime_error ([], ⟨[], []⟩) :=
  ⟨rfl,
    (And_evaluates_both [] 2 (.Const (.Bool false)) (.Print [.Const (.Number 1)]) [] ⟨[], []⟩
      (.Bool false) ([], ⟨[], []⟩) rfl).2.1 .None ([], ⟨[], "1\n".toList⟩) rfl,
    (And_evaluates_both [] 2 (.Const (.Bool false)) (.VariableValue ["x".toList]) [] ⟨[], []⟩
      (.Bool false) ([], ⟨[], []⟩) rfl).2.2 .runtime_error ([], ⟨[], []⟩) rfl⟩

end ast

/-! ### The comparisons on two values of one primitive type -/

namespace runtime

theorem comparisons_of_trichotomy (exec : Exec) (classes : List Class) (st : State)
    (l r : ObjectHolder) (lt eq gt : Bool)
    (hL : Less exec classes l r st = .ok lt st) (hE : Equal exec classes l r st = .ok eq st)
    (hL' : Less exec classes r l st = .ok gt st)
    (ht : (lt = true ∧ eq = false ∧ gt = false) ∨ (lt = false ∧ eq = true ∧ gt = false) ∨
      (lt = false ∧ eq = false ∧ gt = true)) :
    Greater exec classes l r st = .ok gt st ∧
      NotEqual exec classes l r st = .ok (!eq) st ∧
      LessOrEqual exec classes l r st = .ok (!gt) st ∧
      GreaterOrEqual exec classes l r st = .ok (!lt) st ∧
      GreaterOrEqual exec classes r l st = .ok (!gt) st := by
  rcases ht with ⟨h1, h2, h3⟩ | ⟨h1, h2, h3⟩ | ⟨h1, h2, h3⟩ <;> subst h1 h2 h3 <;>
    simp [Greater, NotEqual, LessOrEqual, GreaterOrEqual, lessOrEqual, hL, hE, hL', Outcome.bind]

theorem trichotomy_bools {α : Type} [LinearOrder α] [BEq α] [LawfulBEq α] (a b : α) :
    (decide (a < b) = true ∧ (a == b) = false ∧ decide (b < a) = false) ∨
      (decide (a < b) = false ∧ (a == b) = true ∧ decide (b < a) = false) ∨
      (decide (a < b) = false ∧ (a == b) = false ∧ decide (b < a) = true) := by
  rcases lt_trichotomy a b with h | h | h
  · exact Or.inl ⟨by simpa using h, by simpa using ne_of_lt h, by simpa using le_of_lt h⟩
  · subst h
    exact Or.inr (Or.inl ⟨by simp, by simp, by simp⟩)
  · exact Or.inr (Or.inr ⟨by simpa using le_of_lt h, by simpa using ne_of_gt h, by simpa using h⟩)

/-- C31: on two `Number`s, two `String`s or two `Bool`s none of the six
comparisons throws or touches the state; exactly one of `Less(a, b)`,
`Equal(a, b)`, `Greater(a, b)` is true; `Greater(a, b)` is `Less(b, a)`; and
`LessOrEqual(a, b)` is the negation of `Greater(a, b)` and equals
`GreaterOrEqual(b, a)`. -/
theorem comparisons_total_order (exec : Exec) (classes : List Class) (st : State)
    (a b : ObjectHolder) (h : sameValueType a b = true) :
    ∃ lt eq gt : Bool,
      Less exec classes a b st = .ok lt st ∧
      Equal exec classes a b st = .ok eq st ∧
      Greater exec classes a b st = .ok gt st ∧
      NotEqual exec classes a b st = .ok (!eq) st ∧
      LessOrEqual exec classes a b st = .ok (!gt) st ∧
      GreaterOrEqual exec classes a b st = .ok (!lt) st ∧
      ((lt = true ∧ eq = false ∧ gt = false) ∨ (lt = false ∧ eq = true ∧ gt = false) ∨
        (lt = false ∧ eq = false ∧ gt = true)) ∧
      Less exec classes b a st = .ok gt st ∧
      GreaterOrEqual exec classes b a st = .ok (!gt) st := by
  have key : ∀ (lt eq gt : Bool), Less exec classes a b st = .ok lt st →
      Equal exec classes a b st = .ok eq st → Less exec classes b a st = .ok gt st →
      ((lt = true ∧ eq = false ∧ gt = false) ∨ (lt = false ∧ eq = true ∧ gt = false) ∨
        (lt = false ∧ eq = false ∧ gt = true)) → _ :=
    fun lt eq gt hL hE hL' ht =>
      have hc := comparisons_of_trichotomy exec classes st a b lt eq gt hL hE hL' ht
      (⟨lt, eq, gt, hL, hE, hc.1, hc.2.1, hc.2.2.1, hc.2.2.2.1, ht, hL', hc.2.2.2.2⟩ :
        ∃ lt eq gt : Bool,
          Less exec classes a b st = .ok lt st ∧
          Equal exec classes a b st = .ok eq st ∧
          Greater exec classes a b st = .ok gt st ∧
          NotEqual exec classes a b st = .ok (!eq) st ∧
          LessOrEqual exec classes a b st = .ok (!gt) st ∧
          GreaterOrEqual exec classes a b st = .ok (!lt) st ∧
          ((lt = true ∧ eq = false ∧ gt = false) ∨ (lt = false ∧ eq = true ∧ gt = false) ∨
            (lt = false ∧ eq = false ∧ gt = true)) ∧
          Less exec classes b a st = .ok gt st ∧
          GreaterOrEqual exec classes b a st = .ok (!gt) st)
  cases a <;> cases b <;> simp only [sameValueType, Bool.false_eq_true] at h
  case Number.Number x y => exact key _ _ _ rfl rfl rfl (trichotomy_bools x y)
  case String.String x y => exact key _ _ _ rfl rfl rfl (trichotomy_bools x y)
  case Bool.Bool x y => exact key _ _ _ rfl rfl rfl (by cases x <;> cases y <;> decide)

theorem comparisons_total_order_witness :
    sameValueType (.String "ab".toList) (.String "b".toList) = true ∧
      ∃ lt eq gt : Bool,
        Less (fun _ _ _ => Outcome.timeout) [] (.String "ab".toList) (.String "b".toList) ⟨[], []⟩
          = .ok lt ⟨[], []⟩ ∧
        Equal (fun _ _ _ => Outcome.timeout) [] (.String "ab".toList) (.String "b".toList)
          ⟨[], []⟩ = .ok eq ⟨[], []⟩ ∧
        Greater (fun _ _ _ => Outcome.timeout) [] (.String "ab".toList) (.String "b".toList)
          ⟨[], []⟩ = .ok gt ⟨[], []⟩ ∧
        NotEqual (fun _ _ _ => Outcome.timeout) [] (.String "ab".toList) (.String "b".toList)
          ⟨[], []⟩ = .ok (!eq) ⟨[], []⟩ ∧
        LessOrEqual (fun _ _ _ => Outcome.timeout) [] (.String "ab".toList) (.String "b".toList)
          ⟨[], []⟩ = .ok (!gt) ⟨[], []⟩ ∧
        GreaterOrEqual (fun _ _ _ => Outcome.timeout) [] (.String "ab".toList)
          (.String "b".toList) ⟨[], []⟩ = .ok (!lt) ⟨[], []⟩ ∧
        ((lt = true ∧ eq = false ∧ gt = false) ∨ (lt = false ∧ eq = true ∧ gt = false) ∨
          (lt = false ∧ eq = false ∧ gt = true)) ∧
        Less (fun _ _ _ => Outcome.timeout) [] (.String "b".toList) (.String "ab".toList) ⟨[], []⟩
          = .ok gt ⟨[], []⟩ ∧
        GreaterOrEqual (fun _ _ _ => Outcome.timeout) [] (.String "b".toList)
          (.String "ab".toList) ⟨[], []⟩ = .ok (!gt) ⟨[], []⟩ :=
  ⟨rfl, comparisons_total_order (fun _ _ _ => Outcome.timeout) [] ⟨[], []⟩
    (.String "ab".toList) (.String "b".toList) rfl⟩

end runtime

/-! ### A dotted name behind a value that is no instance -/

namespace ast

open runtime

theorem VariableValue.nextScope_plain (st : State) (scope : Closure) (x : ObjectHolder)
    (hx : ∀ object, x ≠ .ClassInstance object) :
    VariableValue.nextScope st scope x = some scope := by
  cases x <;> first | rfl | exact absurd rfl (hx _)

/-- C32: when the name `a` is bound in the closure to a value that is no class
instance, `VariableValue` looks the next name up in the same closure: the chain
`a.b.rest` ends as the chain `b.rest` does, and `VariableValue([a, b])` returns
the value `v` the closure binds `b` to (an instance `v` being one that exists),
leaving closure and state as they are and throwing nothing. -/
theorem VariableValue_keeps_scope (classes : List runtime.Class) (fuel : Nat)
    (closure : Closure) (st : State) (a : List Char) (x : ObjectHolder)
    (ha : Closure.find closure a = some x) (hx : ∀ object, x ≠ .ClassInstance object) :
    (∀ b rest, Execute classes (fuel + 1) (.VariableValue (a :: b :: rest)) closure st
        = Execute classes (fuel + 1) (.VariableValue (b :: rest)) closure st) ∧
      (∀ b v, Closure.find closure b = some v →
        (∀ object, v = .ClassInstance object → object < st.instances.length) →
        Execute classes (fuel + 1) (.VariableValue [a, b]) closure st = .ok v (closure, st)) := by
  have hE : ∀ ids, Execute classes (fuel + 1) (.VariableValue ids) closure st
      = VariableValue.Execute ids closure st := fun _ => rfl
  have hstep : ∀ b rest r, VariableValue.loop st (a :: b :: rest) closure r
      = VariableValue.loop st (b :: rest) closure ObjectHolder.None := by
    intro b rest r
    rw [VariableValue.loop_cons, ha]
    simp only [VariableValue.nextScope_plain st closure x hx]
    rw [VariableValue.loop_cons, VariableValue.loop_cons]
  constructor
  · intro b rest
    rw [hE, hE]
    simp only [VariableValue.Execute, List.length_cons, gt_iff_lt, Nat.zero_lt_succ, if_true,
      hstep]
  · intro b v hb hv
    rw [hE]
    have hn : ∃ scope, VariableValue.nextScope st closure v = some scope := by
      cases v with
      | ClassInstance object =>
        have hlt := hv object rfl
        simp only [VariableValue.nextScope]
        rw [List.getElem?_eq_getElem hlt]
        exact ⟨_, rfl⟩
      | _ => exact ⟨closure, rfl⟩
    obtain ⟨scope, hn⟩ := hn
    have hl : VariableValue.loop st [a, b] closure ObjectHolder.None = some (some v) := by
      rw [hstep, VariableValue.loop_cons, hb]
      simp only [hn, VariableValue.loop]
    unfold VariableValue.Execute
    rw [hl]
    rfl

theorem VariableValue_keeps_scope_witness :
    Closure.find [("a".toList, .Number 1), ("b".toList, .String "s".toList)] "a".toList
        = some (.Number 1) ∧
      Execute [] 1 (.VariableValue ["a".toList, "b".toList])
          [("a".toList, .Number 1), ("b".toList, .String "s".toList)] ⟨[], []⟩
        = .ok (.String "s".toList)
            ([("a".toList, .Number 1), ("b".toList, .String "s".toList)], ⟨[], []⟩) :=
  ⟨rfl,
    (VariableValue_keeps_scope [] 0 [("a".toList, .Number 1), ("b".toList, .String "s".toList)]
      ⟨[], []⟩ "a".toList (.Number 1) rfl (fun _ h => by cases h)).2 "b".toList
      (.String "s".toList) rfl (fun _ h => by cases h)⟩

end ast
